import Mathlib

/-!
The chunked `key;value` aggregator of 1brc/nodejs.

A shallow embedding of `src/main/nodejs/Edgar-P-yan/index.js` (the parallel
implementation) and of `src/main/nodejs/baseline/index.js` (the single-threaded
reference), together with the properties of the specification.

Modelling conventions.

* A byte is a `Nat` below 256, a `Buffer` is a `List Nat`.  Reading `b[i]`
  outside the buffer gives `undefined`, writing outside it is a no-op, as for
  every JavaScript typed array.
* A JavaScript string is the list of its UTF-16 code units (`JsString`).
* The numbers stored in the aggregate records are integers; they are modelled
  as `Int`.  Integer arithmetic on doubles is exact below `2^53`, a bound that
  the sums of a real input never reach.
* The other numbers of the formatter are doubles.  A finite double is modelled
  as the rational it denotes; a division or multiplication is the exact
  operation followed by `toDouble`, the rounding of IEEE 754 binary64 to the
  nearest double, a tie going to the even significand.  `Math.round` and
  `toFixed` are exact functions of the double they receive.  Negative zero is
  identified with zero: the program never divides by a record field and
  `toFixed` prints both as `0.0`.
* `JsVal` adds the two non-numbers that the parser can produce, `undefined`
  and `NaN`.
-/

namespace OneBrc

/-! ## JavaScript values -/

/-- A JavaScript string: the sequence of its UTF-16 code units. -/
abbrev JsString := List Nat

/-- The values a record field can hold: an integer, `undefined` or `NaN`. -/
inductive JsVal where
  | num (n : Int)
  | undefined
  | nan
  deriving DecidableEq, Repr

namespace JsVal

/-- JavaScript `a + b` (and `a += b`), after `ToNumber`. -/
def add : JsVal → JsVal → JsVal
  | num a, num b => num (a + b)
  | _, _ => nan

/-- JavaScript `a - b`. -/
def sub : JsVal → JsVal → JsVal
  | num a, num b => num (a - b)
  | _, _ => nan

/-- JavaScript `a * b`. -/
def mul : JsVal → JsVal → JsVal
  | num a, num b => num (a * b)
  | _, _ => nan

/-- JavaScript unary minus. -/
def neg : JsVal → JsVal
  | num a => num (-a)
  | _ => nan

/-- JavaScript `a < b`: false as soon as one side is not a number. -/
def lt : JsVal → JsVal → Bool
  | num a, num b => decide (a < b)
  | _, _ => false

/-- JavaScript `a > b`. -/
def gt : JsVal → JsVal → Bool
  | num a, num b => decide (a > b)
  | _, _ => false

/-- JavaScript `Math.min(a, b)`: `NaN` as soon as one side is not a number. -/
def mathMin : JsVal → JsVal → JsVal
  | num a, num b => num (min a b)
  | _, _ => nan

/-- JavaScript `Math.max(a, b)`. -/
def mathMax : JsVal → JsVal → JsVal
  | num a, num b => num (max a b)
  | _, _ => nan

end JsVal

/-! ## Constants (index.js lines 6-10, 253) -/

def MAX_LINE_LENGTH : Nat := 100 + 1 + 4 + 1
def CHAR_SEMICOLON : Nat := 59
def CHAR_NEWLINE : Nat := 10
def TOKEN_STATION_NAME : Nat := 0
def TOKEN_TEMPERATURE : Nat := 1
def CHAR_MINUS : Nat := 45

/-! ## Buffers -/

/-- A Node.js `Buffer`. -/
abbrev Buffer := List Nat

/-- `Buffer.allocUnsafe(n)`: `n` bytes of unspecified content, here the first
`n` bytes of `junk` (zero-padded when `junk` is shorter). -/
def allocUnsafe (n : Nat) (junk : List Nat) : Buffer :=
  (junk ++ List.replicate n 0).take n

/-- `Buffer.alloc(n)`: `n` zero bytes. -/
def alloc (n : Nat) : Buffer := List.replicate n 0

/-- The read `b[i]`: `undefined` outside the buffer. -/
def bufGet (b : Buffer) (i : Nat) : JsVal :=
  match b[i]? with
  | some x => JsVal.num x
  | none => JsVal.undefined

/-- The write `b[i] = x`: ignored outside the buffer. -/
def bufSet (b : Buffer) (i : Nat) (x : Nat) : Buffer := b.set i x

/-! ## UTF-8 decoding (`buf.toString('utf8', start, end)`)

Node decodes as the WHATWG Encoding Standard prescribes: every maximal
ill-formed subsequence is replaced by U+FFFD. -/

/-- State of the WHATWG UTF-8 decoder. -/
structure Utf8State where
  codePoint : Nat := 0
  bytesSeen : Nat := 0
  bytesNeeded : Nat := 0
  lower : Nat := 0x80
  upper : Nat := 0xBF
  deriving DecidableEq, Repr

/-- The decoder's handler for a byte when no sequence is pending. -/
def utf8Start (b : Nat) : Utf8State × List Nat :=
  if b ≤ 0x7F then ({}, [b])
  else if 0xC2 ≤ b ∧ b ≤ 0xDF then
    ({ codePoint := b % 32, bytesNeeded := 1 }, [])
  else if 0xE0 ≤ b ∧ b ≤ 0xEF then
    ({ codePoint := b % 16, bytesNeeded := 2,
       lower := if b = 0xE0 then 0xA0 else 0x80,
       upper := if b = 0xED then 0x9F else 0xBF }, [])
  else if 0xF0 ≤ b ∧ b ≤ 0xF4 then
    ({ codePoint := b % 8, bytesNeeded := 3,
       lower := if b = 0xF0 then 0x90 else 0x80,
       upper := if b = 0xF4 then 0x8F else 0xBF }, [])
  else ({}, [0xFFFD])

/-- One step of the decoder: the new state and the code points emitted. -/
def utf8Step (s : Utf8State) (b : Nat) : Utf8State × List Nat :=
  if s.bytesNeeded = 0 then utf8Start b
  else if b < s.lower ∨ s.upper < b then
    let r := utf8Start b
    (r.1, 0xFFFD :: r.2)
  else
    let cp := s.codePoint * 64 + b % 64
    if s.bytesSeen + 1 = s.bytesNeeded then ({}, [cp])
    else ({ codePoint := cp, bytesSeen := s.bytesSeen + 1,
            bytesNeeded := s.bytesNeeded }, [])

/-- The decoder run over a byte sequence: the code points it emits. -/
def utf8Run : Utf8State → List Nat → List Nat
  | s, [] => if s.bytesNeeded = 0 then [] else [0xFFFD]
  | s, b :: bs => (utf8Step s b).2 ++ utf8Run (utf8Step s b).1 bs

/-- The UTF-16 code units of one code point. -/
def utf16Units (cp : Nat) : List Nat :=
  if cp < 0x10000 then [cp]
  else [0xD800 + (cp - 0x10000) / 1024, 0xDC00 + (cp - 0x10000) % 1024]

/-- `buf.toString('utf8', 0, len)`: `len` is clamped to the buffer's length. -/
def bufToString (b : Buffer) (len : Nat) : JsString :=
  (utf8Run {} (b.take len)).flatMap utf16Units

/-! ## The aggregate records and the `Map` -/

/-- The object `{min, max, sum, count}` of `CalcResultsCont`. -/
structure Rec where
  min : JsVal
  max : JsVal
  sum : JsVal
  count : Int
  deriving DecidableEq, Repr

/-- A JavaScript `Map<string, Rec>`: its entries in insertion order.  The
operations below keep the keys distinct. -/
abbrev JsMap := List (JsString × Rec)

namespace JsMap

/-- The method `map.get(key)`, `none` for `undefined`. -/
def get (m : JsMap) (k : JsString) : Option Rec :=
  match m with
  | [] => none
  | (k', v) :: rest => if k' = k then some v else get rest k

/-- The method `map.set(key, value)`: a present key keeps its position, a new
key goes last. -/
def set (m : JsMap) (k : JsString) (v : Rec) : JsMap :=
  match m with
  | [] => [(k, v)]
  | (k', v') :: rest => if k' = k then (k', v) :: rest else (k', v') :: set rest k v

/-- The method `map.keys()`, in insertion order. -/
def keys (m : JsMap) : List JsString := m.map Prod.fst

end JsMap

/-! ## The parser (index.js lines 176-296) -/

/-- Function `parseOneDigit(char)` = `char - 0x30`. -/
def parseOneDigit (char : JsVal) : JsVal := char.sub (JsVal.num 0x30)

/-- Function `parseFloatBufferIntoInt(b, length)`.  The function has no `throw`
and no `default` case: when no `case` of a `switch (length)` matches, control
leaves the `switch` and the function body, and the call evaluates to
`undefined`. -/
def parseFloatBufferIntoInt (b : Buffer) (length : Nat) : JsVal :=
  if bufGet b 0 = JsVal.num CHAR_MINUS then
    if length = 4 then
      (((parseOneDigit (bufGet b 1)).mul (JsVal.num 10)).add
        (parseOneDigit (bufGet b 3))).neg
    else if length = 5 then
      ((((parseOneDigit (bufGet b 1)).mul (JsVal.num 100)).add
        ((parseOneDigit (bufGet b 2)).mul (JsVal.num 10))).add
        (parseOneDigit (bufGet b 4))).neg
    else JsVal.undefined
  else
    if length = 3 then
      ((parseOneDigit (bufGet b 0)).mul (JsVal.num 10)).add
        (parseOneDigit (bufGet b 2))
    else if length = 4 then
      (((parseOneDigit (bufGet b 0)).mul (JsVal.num 100)).add
        ((parseOneDigit (bufGet b 1)).mul (JsVal.num 10))).add
        (parseOneDigit (bufGet b 3))
    else JsVal.undefined

/-- The variables closed over by `parseChunk` (index.js lines 177-188). -/
structure ParserState where
  readingToken : Nat
  stationName : Buffer
  stationNameLen : Nat
  temperature : Buffer
  temperatureLen : Nat
  map : JsMap
  deriving DecidableEq, Repr

/-- The state set up by `parseStream` before the first `data` event; `junk1`
and `junk2` are the unspecified contents of the two `allocUnsafe` buffers. -/
def initState (junk1 junk2 : List Nat) : ParserState :=
  { readingToken := TOKEN_STATION_NAME
    stationName := allocUnsafe 100 junk1
    stationNameLen := 0
    temperature := allocUnsafe 5 junk2
    temperatureLen := 0
    map := [] }

/-- The update of an existing record (index.js lines 215-220). -/
def updateRec (existing : Rec) (temperatureFloat : JsVal) : Rec :=
  { min := if existing.min.lt temperatureFloat then existing.min else temperatureFloat
    max := if existing.max.gt temperatureFloat then existing.max else temperatureFloat
    sum := existing.sum.add temperatureFloat
    count := existing.count + 1 }

/-- The record of a key seen for the first time (index.js lines 222-227). -/
def newRec (temperatureFloat : JsVal) : Rec :=
  { min := temperatureFloat, max := temperatureFloat, sum := temperatureFloat, count := 1 }

/-- The aggregation step of the newline branch (index.js lines 212-228). -/
def aggregate (map : JsMap) (stationNameStr : JsString) (temperatureFloat : JsVal) : JsMap :=
  match map.get stationNameStr with
  | some existing => map.set stationNameStr (updateRec existing temperatureFloat)
  | none => map.set stationNameStr (newRec temperatureFloat)

/-- The body of the `for` loop of `parseChunk` for one byte (index.js lines
196-239).  The `try`/`catch` around `parseFloatBufferIntoInt` is never entered:
the callee has no `throw` and every operation in it is defined on all inputs. -/
def parseByte (st : ParserState) (c : Nat) : ParserState :=
  if c = CHAR_SEMICOLON then
    { st with readingToken := TOKEN_TEMPERATURE }
  else if c = CHAR_NEWLINE then
    let stationNameStr := bufToString st.stationName st.stationNameLen
    let temperatureFloat := parseFloatBufferIntoInt st.temperature st.temperatureLen
    { st with
      map := aggregate st.map stationNameStr temperatureFloat
      readingToken := TOKEN_STATION_NAME
      stationNameLen := 0
      temperatureLen := 0 }
  else if st.readingToken = TOKEN_STATION_NAME then
    { st with
      stationName := bufSet st.stationName st.stationNameLen c
      stationNameLen := st.stationNameLen + 1 }
  else
    { st with
      temperature := bufSet st.temperature st.temperatureLen c
      temperatureLen := st.temperatureLen + 1 }

/-- Function `parseChunk(chunk)`: the loop over the bytes of one `data` event. -/
def parseChunk (st : ParserState) (chunk : List Nat) : ParserState :=
  chunk.foldl parseByte st

/-- Function `parseStream(readStream)`: every `data` event goes through
`parseChunk`, the `end` event posts the map as it then is. -/
def parseStream (junk1 junk2 : List Nat) (dataEvents : List (List Nat)) : JsMap :=
  (dataEvents.foldl parseChunk (initState junk1 junk2)).map

/-! ## The orchestrator (index.js lines 21-118) -/

/-- The read `file.read(bufFindNl, 0, MAX_LINE_LENGTH, offset)` into the
zero-filled buffer: the bytes of the file from `offset` on, at most
`MAX_LINE_LENGTH` of them, the rest of the buffer staying zero. -/
def readWindow (file : List Nat) (offset : Nat) : Buffer :=
  let got := (file.drop offset).take MAX_LINE_LENGTH
  got ++ List.replicate (MAX_LINE_LENGTH - got.length) 0

/-- The call `bufFindNl.indexOf(10)`, `none` for `-1`. -/
def indexOfNl : Buffer → Option Nat
  | [] => none
  | b :: bs => if b = 10 then some 0 else (indexOfNl bs).map (· + 1)

/-- The `while (true)` loop of index.js lines 38-58, entered with the given
`offset` and the offsets pushed so far.  `fuel` bounds the number of
iterations; `none` means the bound was too small. -/
def boundaryLoop (file : List Nat) (chunkSize : Nat) :
    Nat → Nat → List Nat → Option (List Nat)
  | 0, _, _ => none
  | fuel + 1, offset, chunkOffsets =>
    let offset1 := offset + chunkSize
    if offset1 ≥ file.length then
      some (chunkOffsets ++ [file.length])
    else
      match indexOfNl (readWindow file offset1) with
      | none => some (chunkOffsets ++ [file.length])
      | some nlPos =>
        boundaryLoop file chunkSize fuel (offset1 + nlPos + 1)
          (chunkOffsets ++ [offset1 + nlPos + 1])

/-- The array `chunkOffsets` of the main thread (index.js lines 26-58) for a
file and `threadsCount = os.cpus().length`. -/
def chunkOffsets (file : List Nat) (threadsCount : Nat) : Option (List Nat) :=
  boundaryLoop file (file.length / threadsCount) (file.length + 1) 0 []

/-- The `start` of worker `i` (index.js line 75). -/
def workerStart (offs : List Nat) (i : Nat) : Nat :=
  if i = 0 then 0 else offs.getD (i - 1) 0

/-- The `end` of worker `i` (index.js line 76). -/
def workerEnd (offs : List Nat) (i : Nat) : Nat := offs.getD i 0

/-- The merge of two records in the `message` handler (index.js lines 90-93). -/
def mergeRec (existing value : Rec) : Rec :=
  { min := existing.min.mathMin value.min
    max := existing.max.mathMax value.max
    sum := existing.sum.add value.sum
    count := existing.count + value.count }

/-- One iteration of the `for` loop of the `message` handler (lines 88-96). -/
def mergeEntry (compiledResults : JsMap) (e : JsString × Rec) : JsMap :=
  match compiledResults.get e.1 with
  | some existing => compiledResults.set e.1 (mergeRec existing e.2)
  | none => compiledResults.set e.1 e.2

/-- The `message` handler (index.js lines 81-99): the entries of the posted map
are merged in their insertion order. -/
def onMessage (compiledResults : JsMap) (message : JsMap) : JsMap :=
  message.foldl mergeEntry compiledResults

/-! ## The formatter (index.js lines 136-171) -/

/-- The decimal digits of `n` in front of `acc`, most significant first;
`fuel` bounds the number of digits. -/
def natDigitsAux : Nat → Nat → List Nat → List Nat
  | 0, _, acc => acc
  | fuel + 1, n, acc =>
    if n < 10 then (48 + n) :: acc
    else natDigitsAux fuel (n / 10) ((48 + n % 10) :: acc)

/-- The decimal representation of a natural number without leading zeros, as
code units. -/
def natDigits (n : Nat) : JsString := natDigitsAux (n + 1) n []

/-- The call `x.toFixed(1)` of a finite number below `10^21` in magnitude: the
integer `n` with `n / 10` nearest to `|x|` (the larger one on a tie), written
with one fractional digit and with the sign of `x`. -/
def toFixed1 (x : ℚ) : JsString :=
  let n := (⌊|x| * 10 + 1 / 2⌋).toNat
  (if x < 0 then [45] else []) ++ natDigits (n / 10) ++ [46] ++ natDigits (n % 10)

/-- The call `Math.round(x)`: the nearest integer, a tie going up. -/
def mathRound (x : ℚ) : ℤ := ⌊x + 1 / 2⌋

/-- The integer nearest to `y`, a tie going to the even one. -/
def roundTiesEven (y : ℚ) : ℤ :=
  if y - ⌊y⌋ < 1 / 2 then ⌊y⌋
  else if 1 / 2 < y - ⌊y⌋ then ⌊y⌋ + 1
  else if ⌊y⌋ % 2 = 0 then ⌊y⌋ else ⌊y⌋ + 1

/-- The double nearest to the real number `x` (IEEE 754 binary64, rounding to
nearest, ties to even): with `e` the binary exponent of `x`, not below the
least exponent -1022 of a normal double, `x` is rounded to a multiple of
`2^(e - 52)`.  Overflow to `Infinity` is not modelled; the formatter stays far
below `2^1024`. -/
def toDouble (x : ℚ) : ℚ :=
  if x = 0 then 0
  else
    let e : ℤ := max (Int.log 2 |x|) (-1022)
    (roundTiesEven (x / 2 ^ (e - 52)) : ℚ) * 2 ^ (e - 52)

/-- The JavaScript division `a / b` of two doubles, `b` not zero. -/
def jsDiv (a b : ℚ) : ℚ := toDouble (a / b)

/-- The JavaScript multiplication `a * b` of two doubles. -/
def jsMul (a b : ℚ) : ℚ := toDouble (a * b)

/-- Function `round(num)` (index.js lines 167-171). -/
def round (num : ℚ) : JsString :=
  let fixed : ℚ := jsDiv (mathRound (jsMul 10 num) : ℚ) 10
  toFixed1 fixed

/-- The code units of `"NaN"`. -/
def strNaN : JsString := [78, 97, 78]

/-- The expression `round(v / 10)` for a record field. -/
def roundField (v : JsVal) : JsString :=
  match v with
  | JsVal.num n => round (jsDiv (n : ℚ) 10)
  | _ => strNaN

/-- The expression `round(data.sum / 10 / data.count)`: two divisions of
doubles, from left to right. -/
def roundMean (sum : JsVal) (count : Int) : JsString :=
  match sum with
  | JsVal.num s => round (jsDiv (jsDiv (s : ℚ) 10) (count : ℚ))
  | _ => strNaN

/-- The comparison of `Array.prototype.sort()` without comparator, on strings:
lexicographic on the UTF-16 code units. -/
def strLt : JsString → JsString → Bool
  | [], [] => false
  | [], _ :: _ => true
  | _ :: _, [] => false
  | a :: as, b :: bs => decide (a < b) || (decide (a = b) && strLt as bs)

/-- The relation `a` sorts before or with `b`. -/
def strLe (a b : JsString) : Prop := strLt b a = false

instance : DecidableRel strLe := fun a b => by unfold strLe; infer_instance

/-- The expression `Array.from(compiledResults.keys()).sort()`. -/
def sortedStations (compiledResults : JsMap) : List JsString :=
  (compiledResults.keys).insertionSort strLe

/-- What the loop body of `printCompiledResults` writes for one station
(index.js lines 144-153).  The stations are keys of the map, so `get` finds
a record; the `none` branch is never taken. -/
def printEntry (compiledResults : JsMap) (station : JsString) : JsString :=
  match compiledResults.get station with
  | some data =>
    station ++ [61] ++ roundField data.min ++ [47] ++ roundMean data.sum data.count
      ++ [47] ++ roundField data.max
  | none => station ++ [61]

/-- The writes of the `for` loop of `printCompiledResults`, from index `i` on. -/
def printLoop (compiledResults : JsMap) : Bool → List JsString → JsString
  | _, [] => []
  | first, s :: rest =>
    (if first then [] else [44, 32]) ++ printEntry compiledResults s
      ++ printLoop compiledResults false rest

/-- Function `printCompiledResults`: everything written to `process.stdout`. -/
def printCompiledResults (compiledResults : JsMap) : JsString :=
  [123] ++ printLoop compiledResults true (sortedStations compiledResults) ++ [125, 10]

/-- The UTF-16 code units of a Lean string. -/
def js (s : String) : JsString := s.toList.flatMap (fun c => utf16Units c.toNat)

/-- The UTF-8 bytes of one code point. -/
def utf8Bytes (cp : Nat) : List Nat :=
  if cp < 0x80 then [cp]
  else if cp < 0x800 then [0xC0 + cp / 64, 0x80 + cp % 64]
  else if cp < 0x10000 then [0xE0 + cp / 4096, 0x80 + cp / 64 % 64, 0x80 + cp % 64]
  else [0xF0 + cp / 262144, 0x80 + cp / 4096 % 64, 0x80 + cp / 64 % 64, 0x80 + cp % 64]

/-- The UTF-8 bytes of a Lean string. -/
def bytes (s : String) : List Nat := s.toList.flatMap (fun c => utf8Bytes c.toNat)

end OneBrc

namespace OneBrc

/-! ## The input format, after the specification -/

/-- A decimal digit byte, `'0'` to `'9'`. -/
def isDigit (c : Nat) : Bool := decide (48 ≤ c) && decide (c ≤ 57)

/-- An unsigned value token: one or two digits, `.`, one digit. -/
def isUnsignedToken : List Nat → Bool
  | [d, p, f] => isDigit d && decide (p = 46) && isDigit f
  | [d1, d2, p, f] => isDigit d1 && isDigit d2 && decide (p = 46) && isDigit f
  | _ => false

/-- The value token grammar of the specification: an optional leading `-`, one
or two integer digits, a decimal point, exactly one fractional digit. -/
def isValueToken (tok : List Nat) : Bool :=
  if tok.head? = some 45 then isUnsignedToken tok.tail else isUnsignedToken tok

/-- The natural number written by a string of decimal digits. -/
def digitsValue (ds : List Nat) : Nat := ds.foldl (fun acc d => acc * 10 + (d - 48)) 0

/-- The decimal value of an unsigned token: the integer part before the `.`
plus the fractional digits after it. -/
def unsignedDecimal (tok : List Nat) : ℚ :=
  let intPart := tok.takeWhile (fun c => c != 46)
  let fracPart := (tok.dropWhile (fun c => c != 46)).tail
  (digitsValue intPart : ℚ) + (digitsValue fracPart : ℚ) / 10 ^ fracPart.length

/-- The decimal value of a value token. -/
def tokenDecimal (tok : List Nat) : ℚ :=
  if tok.head? = some 45 then - unsignedDecimal tok.tail else unsignedDecimal tok

/-- The fixed-point value of a token: the integer written by its digits once
the decimal point is dropped, with the token's sign. -/
def tokenTimes10 (tok : List Nat) : Int :=
  if tok.head? = some 45 then - (digitsValue (tok.tail.filter (fun c => c != 46)) : Int)
  else (digitsValue (tok.filter (fun c => c != 46)) : Int)

/-- One input record, the line `key;value\n` without its punctuation. -/
structure Record where
  key : List Nat
  tok : List Nat
  deriving DecidableEq, Repr

/-- The bytes of a record in the file, terminator included. -/
def Record.render (r : Record) : List Nat :=
  r.key ++ [CHAR_SEMICOLON] ++ r.tok ++ [CHAR_NEWLINE]

/-- The bytes of a sequence of newline-terminated records. -/
def renderAll (rs : List Record) : List Nat := rs.flatMap Record.render

/-- A well-formed record: a key of 1 to 100 bytes without `;` and `\n`, and a
value that matches the token grammar. -/
def Record.wellFormed (r : Record) : Bool :=
  decide (1 ≤ r.key.length) && decide (r.key.length ≤ 100) &&
    r.key.all (fun c => c != CHAR_SEMICOLON && c != CHAR_NEWLINE) && isValueToken r.tok

/-- The string a key is decoded to, `stationName.toString('utf8', 0, len)` on
the bytes of the key. -/
def keyString (key : List Nat) : JsString := (utf8Run {} key).flatMap utf16Units

/-- The fixed-point values of the records whose key decodes to `s`, in input
order. -/
def valuesOf (rs : List Record) (s : JsString) : List Int :=
  (rs.filter (fun r => keyString r.key = s)).map (fun r => tokenTimes10 r.tok)

/-- Bytes written one after the other into a buffer from position `n` on
(the proof-side view of the repeated `buf[len] = c; len++`). -/
def writeBytes (b : Buffer) (n : Nat) : List Nat → Buffer
  | [] => b
  | c :: cs => writeBytes (bufSet b n c) (n + 1) cs

/-- A parser state between two records. -/
def AtLineStart (st : ParserState) : Prop :=
  st.readingToken = TOKEN_STATION_NAME ∧ st.stationNameLen = 0 ∧ st.temperatureLen = 0 ∧
    st.stationName.length = 100 ∧ st.temperature.length = 5

/-- The map after the records `rs` have been finalized in order. -/
def aggregateAll (m : JsMap) (rs : List Record) : JsMap :=
  rs.foldl (fun acc r => aggregate acc (keyString r.key) (JsVal.num (tokenTimes10 r.tok))) m

/-- The fixed-point values of the records with the byte key `key`, in input
order. -/
def valuesByKey (rs : List Record) (key : List Nat) : List Int :=
  (rs.filter (fun r => r.key = key)).map (fun r => tokenTimes10 r.tok)

/-- The aggregation of one more value into an optional record: what the newline
branch of `parseChunk` does to the entry of the finalized key. -/
def aggStep (o : Option Rec) (v : JsVal) : Option Rec :=
  match o with
  | some existing => some (updateRec existing v)
  | none => some (newRec v)

/-- A record that is the summary of the values `vals`: integer fields, `min`
the least and `max` the greatest of the values, `sum` their sum and `count`
their number. -/
def Summarizes (rec : Rec) (vals : List Int) : Prop :=
  ∃ mn mx : Int, rec = ⟨JsVal.num mn, JsVal.num mx, JsVal.num vals.sum, vals.length⟩ ∧
    mn ∈ vals ∧ (∀ v ∈ vals, mn ≤ v) ∧ mx ∈ vals ∧ (∀ v ∈ vals, v ≤ mx)

/-- The map `m` holds the per-key aggregates of the records `rs`: its keys are
distinct and are exactly the decoded keys of the input, and the record of each
key summarizes the values of that key. -/
def PerKeyAggregates (rs : List Record) (m : JsMap) : Prop :=
  m.keys.Nodup ∧ (∀ s, s ∈ m.keys ↔ ∃ r ∈ rs, keyString r.key = s) ∧
    ∀ r ∈ rs, ∃ rec, m.get (keyString r.key) = some rec ∧
      Summarizes rec (valuesByKey rs r.key)

/-- The merge of two optional entries: an absent entry is replaced by the
other one (`compiledResults.set(key, value)`), two present ones are merged by
`mergeRec`. -/
def mergeOpt : Option Rec → Option Rec → Option Rec
  | none, o => o
  | some a, none => some a
  | some a, some b => some (mergeRec a b)

/-- What a posted map contributes to the key `k`: its entries for `k`, merged
in order. -/
def collect (message : JsMap) (k : JsString) : Option Rec :=
  message.foldl (fun o e => if e.1 = k then mergeOpt o (some e.2) else o) none

/-- One worker of a run: the unspecified contents of its two scratch buffers
and the bytes of its chunk. -/
structure WorkerRun where
  junk1 : List Nat
  junk2 : List Nat
  chunk : List Nat
  deriving DecidableEq, Repr

/-- The map a worker posts: its chunk read by a fresh parser. -/
def WorkerRun.posted (w : WorkerRun) : JsMap := parseStream w.junk1 w.junk2 [w.chunk]

/-- The decimal numeral of `m / 10` with exactly one fractional digit: a `-`
for a negative number, the integer part, `.`, one digit. -/
def fmtTenths (m : ℤ) : JsString :=
  (if m < 0 then [45] else []) ++ natDigits (m.natAbs / 10) ++ [46] ++ natDigits (m.natAbs % 10)

/-- The number of tenths nearest to `x`, a tie going away from zero (the
rounding rule of the specification). -/
def roundHalfAway (x : ℚ) : ℤ :=
  if 0 ≤ x then ⌊x * 10 + 1 / 2⌋ else -⌊-x * 10 + 1 / 2⌋

/-- The number of tenths nearest to `x`, a tie going up. -/
def roundHalfUp (x : ℚ) : ℤ := ⌊x * 10 + 1 / 2⌋

/-- A `GlobalAggregate` of the data model: distinct keys, integer `min`, `max`
and `sum`, and `count >= 1`. -/
def IsAggregate (m : JsMap) : Prop :=
  m.keys.Nodup ∧ ∀ e ∈ m, (∃ a b s : ℤ, e.2.min = JsVal.num a ∧ e.2.max = JsVal.num b ∧
    e.2.sum = JsVal.num s) ∧ 1 ≤ e.2.count

/-- A numeral with exactly one digit after its only decimal point. -/
def HasOneFractionDigit (f : JsString) : Prop :=
  ∃ pre d, f = pre ++ [46, d] ∧ 46 ∉ pre ∧ 48 ≤ d ∧ d ≤ 57

/-- The code points of a JavaScript string: a high surrogate followed by a low
surrogate is one code point, every other code unit is a code point of its
own. -/
def codePoints : JsString → List Nat
  | [] => []
  | [u] => [u]
  | u :: v :: rest =>
    if 0xD800 ≤ u ∧ u < 0xDC00 ∧ 0xDC00 ≤ v ∧ v < 0xE000 then
      (0x10000 + (u - 0xD800) * 1024 + (v - 0xDC00)) :: codePoints rest
    else u :: codePoints (v :: rest)

/-- The UTF-8 bytes of a JavaScript string. -/
def utf8Of (s : JsString) : List Nat := (codePoints s).flatMap utf8Bytes

/-- A code unit that is a character of the Basic Multilingual Plane, not a
surrogate. -/
def isBmpScalar (u : Nat) : Prop := u < 0xD800 ∨ (0xE000 ≤ u ∧ u < 0x10000)

/-- A Unicode scalar value: a code point that is not a surrogate. -/
def isScalar (cp : Nat) : Prop := cp < 0xD800 ∨ (0xE000 ≤ cp ∧ cp < 0x110000)

/-- Well-formed UTF-8: the encoding of a sequence of scalar values. -/
def IsValidUtf8 (key : List Nat) : Prop :=
  ∃ cps : List Nat, (∀ c ∈ cps, isScalar c) ∧ key = cps.flatMap utf8Bytes

/-! ## The worker entry (index.js lines 119-131) -/

/-- What the worker thread does with its `workerData`: it posts `new Map()`
without opening the file, or it calls `fs.createReadStream(fileName, {start,
end})` with the given inclusive bounds. -/
inductive WorkerAction where
  | postEmpty
  | readStream (start : Int) (endInclusive : Int)
  deriving DecidableEq, Repr

/-- The branch of the worker (index.js lines 120-130) for `start` and `end`. -/
def workerEntry (start end_ : Int) : WorkerAction :=
  if start > end_ - 1 then WorkerAction.postEmpty
  else WorkerAction.readStream start (end_ - 1)

/-- The bytes a stream `createReadStream(fileName, {start, end})` delivers: the
bytes of the file at the positions `start` to `end`, both included, as far as
the file reaches.  Node accepts the call for `0 <= start <= end`. -/
def streamBytes (file : List Nat) (start endInclusive : Int) : List Nat :=
  (file.drop start.toNat).take (endInclusive + 1 - start).toNat

/-- The map the worker posts for its interval; `slice` is the way the stream
cuts its bytes into `data` events. -/
def workerPosted (file junk1 junk2 : List Nat) (slice : List Nat → List (List Nat))
    (start end_ : Int) : JsMap :=
  match workerEntry start end_ with
  | WorkerAction.postEmpty => []
  | WorkerAction.readStream s e => parseStream junk1 junk2 (slice (streamBytes file s e))

/-- The invariant of an aggregate record: integer fields, `count >= 1`,
`min <= max` and `min * count <= sum <= max * count`. -/
def RecInvariant (r : Rec) : Prop :=
  ∃ mn mx s : Int, r.min = JsVal.num mn ∧ r.max = JsVal.num mx ∧ r.sum = JsVal.num s ∧
    1 ≤ r.count ∧ mn ≤ mx ∧ mn * r.count ≤ s ∧ s ≤ mx * r.count

/-- Every record of the map satisfies the record invariant. -/
def MapInvariant (m : JsMap) : Prop := ∀ e ∈ m, RecInvariant e.2

/-- The map after a sequence of record finalizations with integer values. -/
def finalizeAll (m : JsMap) (kvs : List (JsString × Int)) : JsMap :=
  kvs.foldl (fun acc kv => aggregate acc kv.1 (JsVal.num kv.2)) m

/-- One iteration of the boundary loop (index.js lines 39-57) entered with
`offset`: `none` when the iteration pushes the file size and breaks, the new
value of `offset`, which it pushes, when the loop goes on. -/
def boundaryIter (file : List Nat) (chunkSize offset : Nat) : Option Nat :=
  if offset + chunkSize ≥ file.length then none
  else
    match indexOfNl (readWindow file (offset + chunkSize)) with
    | none => none
    | some nlPos => some (offset + chunkSize + nlPos + 1)

/-- A record with a key of 100 bytes and a value of 5 bytes: a line of 107
bytes. -/
def longRecord : Record := ⟨List.replicate 100 107, [45, 49, 50, 46, 51]⟩

/-- The byte `c`, read in the state `st`, is not written outside a scratch
buffer: when it is a key byte (index.js line 234) `stationNameLen < 100`, when
it is a value byte (line 237) `temperatureLen < 5`. -/
def writeInBounds (st : ParserState) (c : Nat) : Bool :=
  if c = CHAR_SEMICOLON then true
  else if c = CHAR_NEWLINE then true
  else if st.readingToken = TOKEN_STATION_NAME then decide (st.stationNameLen < 100)
  else decide (st.temperatureLen < 5)

/-- Every write that `parseChunk` makes on `chunk` from the state `st` is in
bounds. -/
def allWritesInBounds : ParserState → List Nat → Bool
  | _, [] => true
  | st, c :: cs => writeInBounds st c && allWritesInBounds (parseByte st c) cs

/-- The key bytes and the value bytes that `parseChunk` finalizes on `chunk`
from the state `st`: at each `\n`, the live parts of the two scratch buffers,
`stationName[0, stationNameLen)` and `temperature[0, temperatureLen)`, that are
handed to `toString` and to `parseFloatBufferIntoInt`. -/
def finalized : ParserState → List Nat → List (List Nat × List Nat)
  | _, [] => []
  | st, c :: cs =>
    if c = CHAR_NEWLINE then
      (st.stationName.take st.stationNameLen, st.temperature.take st.temperatureLen) ::
        finalized (parseByte st c) cs
    else finalized (parseByte st c) cs

/-! ## The baseline (`src/main/nodejs/baseline/index.js`) -/

/-- The text that `readline` sees: the bytes of the read stream decoded as
UTF-8 by its `StringDecoder`, which replaces ill-formed sequences as
`toString('utf8')` does. -/
def streamText (file : List Nat) : JsString := (utf8Run {} file).flatMap utf16Units

/-- The lines that `readline.createInterface(stream)` emits for a text: a line
ends at `\n` and at `\r` (a `\n` that follows at once belongs to the same line
ending), and at no other character; the characters after the last line ending
are emitted at the end of the stream when there are any.  `cur` is the line
being collected, `afterCR` tells that the character before was a `\r`. -/
def readlineSplit : JsString → JsString → Bool → List JsString
  | [], cur, _ => if cur = [] then [] else [cur]
  | c :: rest, cur, afterCR =>
    if c = 10 then
      if afterCR then readlineSplit rest cur false
      else cur :: readlineSplit rest [] false
    else if c = 13 then cur :: readlineSplit rest [] true
    else readlineSplit rest (cur ++ [c]) false

/-- The lines of the `for await` loop of the baseline (lines 5-10). -/
def baselineLines (file : List Nat) : List JsString := readlineSplit (streamText file) [] false

/-- The call `s.split(sep)` for a separator of one code unit; `cur` is the
part being collected. -/
def jsSplit (sep : Nat) : JsString → JsString → List JsString
  | [], cur => [cur]
  | c :: rest, cur => if c = sep then cur :: jsSplit sep rest [] else jsSplit sep rest (cur ++ [c])

/-- The call `parseFloat(x)`, `none` for `NaN`: `NaN` for `undefined`; for a
string, the value of its longest prefix of the form sign, digits, `.`, digits,
and `NaN` when that prefix has no digit.  Leading white space, exponents and
`Infinity` are not modelled. -/
def parseFloat : Option JsString → Option ℚ
  | none => none
  | some s =>
    let neg := decide (s.head? = some 45)
    let body := if s.head? = some 45 ∨ s.head? = some 43 then s.tail else s
    let intDigits := body.takeWhile isDigit
    let afterInt := body.dropWhile isDigit
    let fracDigits := if afterInt.head? = some 46 then afterInt.tail.takeWhile isDigit else []
    if intDigits = [] ∧ fracDigits = [] then none
    else
      let v : ℚ := (digitsValue intDigits : ℚ) +
        (digitsValue fracDigits : ℚ) / 10 ^ fracDigits.length
      some (if neg then -v else v)

/-- The expression `Math.floor(parseFloat(temperatureStr) * 10)` of line 14,
taken in exact arithmetic, as the specification takes it. -/
def baselineTemperature (temperatureStr : Option JsString) : JsVal :=
  match parseFloat temperatureStr with
  | none => JsVal.nan
  | some x => JsVal.num ⌊x * 10⌋

/-- The update of an existing record in the baseline (lines 19-22). -/
def baselineUpdate (existing : Rec) (temperature : JsVal) : Rec :=
  { min := existing.min.mathMin temperature
    max := existing.max.mathMax temperature
    sum := existing.sum.add temperature
    count := existing.count + 1 }

/-- The body of the `for await` loop of the baseline for one line (lines
11-30). -/
def baselineStep (aggregations : JsMap) (line : JsString) : JsMap :=
  let parts := jsSplit 59 line []
  let stationName := parts.headD []
  let temperatureStr := parts.tail.head?
  let temperature := baselineTemperature temperatureStr
  match aggregations.get stationName with
  | some existing => aggregations.set stationName (baselineUpdate existing temperature)
  | none => aggregations.set stationName (newRec temperature)

/-- The map `aggregations` of the baseline after its loop. -/
def baselineAggregations (file : List Nat) : JsMap :=
  (baselineLines file).foldl baselineStep []

/-- The template string of the baseline for one station (lines 47-50). -/
def baselineEntry (aggregations : JsMap) (station : JsString) : JsString :=
  match aggregations.get station with
  | some data =>
    station ++ [61] ++ roundField data.min ++ [47] ++ roundMean data.sum data.count
      ++ [47] ++ roundField data.max
  | none => station ++ [61]

/-- Function `printCompiledResults` of the baseline (lines 40-56): what
`console.log(result)` writes, the string `result` and a newline. -/
def baselinePrint (aggregations : JsMap) : JsString :=
  ([123] ++ List.intercalate [44, 32]
    ((sortedStations aggregations).map (baselineEntry aggregations)) ++ [125]) ++ [10]

/-- A key without the character that `readline` takes for a line ending
besides `\n`: no `\r` in the decoded key. -/
def noLineEnding (key : List Nat) : Bool :=
  (keyString key).all (fun u => u != 13)

/-- The states the UTF-8 decoder reaches: no sequence is pending, or the
bounds of the next byte lie in the continuation range and the code point
collected so far will end at `0x80` or above. -/
def Utf8Inv (s : Utf8State) : Prop :=
  s.bytesNeeded = 0 ∨ (0x80 ≤ s.lower ∧ s.upper ≤ 0xBF ∧
    (2 ≤ s.codePoint ∨ (s.bytesSeen + 2 ≤ s.bytesNeeded ∧ (1 ≤ s.codePoint ∨ 0x90 ≤ s.lower))))

/-- The line that `readline` emits for a record. -/
def Record.line (r : Record) : JsString := keyString r.key ++ 59 :: r.tok

/-! ## `parseFloatBufferIntoInt` on grammatical tokens -/

theorem isDigit_iff {c : Nat} : isDigit c = true ↔ 48 ≤ c ∧ c ≤ 57 := by
  simp [isDigit]

/-- On a buffer that starts with a grammatical token, the parser returns the
token's fixed-point value. -/
theorem parseFloat_token (tok rest : List Nat) (h : isValueToken tok = true) :
    parseFloatBufferIntoInt (tok ++ rest) tok.length = JsVal.num (tokenTimes10 tok) := by
  unfold isValueToken at h
  match tok, h with
  | [d, p, f], h =>
    have hd : d ≠ 45 := by
      intro hd; subst hd; simp [isUnsignedToken, isDigit] at h
    simp [hd, isUnsignedToken, isDigit_iff] at h
    obtain ⟨⟨⟨h1, h2⟩, hp⟩, h3, h4⟩ := h
    subst hp
    have e1 : d ≠ 46 := by omega
    have e3 : f ≠ 46 := by omega
    have hd' : ¬ ((d : Int) = 45) := by exact_mod_cast hd
    simp [parseFloatBufferIntoInt, bufGet, CHAR_MINUS, hd, hd', parseOneDigit, JsVal.sub,
      JsVal.mul, JsVal.add, tokenTimes10, digitsValue, e1, e3]
    omega
  | [d1, d2, p, f], h =>
    by_cases hd : d1 = 45
    · subst hd
      simp [isUnsignedToken, isDigit_iff] at h
      obtain ⟨⟨⟨h1, h2⟩, hp⟩, h3, h4⟩ := h
      subst hp
      have e1 : d2 ≠ 46 := by omega
      have e3 : f ≠ 46 := by omega
      simp [parseFloatBufferIntoInt, bufGet, CHAR_MINUS, parseOneDigit, JsVal.sub, JsVal.mul,
        JsVal.add, JsVal.neg, tokenTimes10, digitsValue, e1, e3]
      omega
    · simp [hd, isUnsignedToken, isDigit_iff] at h
      obtain ⟨⟨⟨⟨h1, h2⟩, h3, h4⟩, hp⟩, h5, h6⟩ := h
      subst hp
      have e1 : d1 ≠ 46 := by omega
      have e2 : d2 ≠ 46 := by omega
      have e3 : f ≠ 46 := by omega
      have hd' : ¬ ((d1 : Int) = 45) := by exact_mod_cast hd
      simp [parseFloatBufferIntoInt, bufGet, CHAR_MINUS, hd, hd', parseOneDigit, JsVal.sub,
        JsVal.mul, JsVal.add, tokenTimes10, digitsValue, e1, e2, e3]
      omega
  | [m, d1, d2, p, f], h =>
    by_cases hd : m = 45
    · subst hd
      simp [isUnsignedToken, isDigit_iff] at h
      obtain ⟨⟨⟨⟨h1, h2⟩, h3, h4⟩, hp⟩, h5, h6⟩ := h
      subst hp
      have e1 : d1 ≠ 46 := by omega
      have e2 : d2 ≠ 46 := by omega
      have e3 : f ≠ 46 := by omega
      simp [parseFloatBufferIntoInt, bufGet, CHAR_MINUS, parseOneDigit, JsVal.sub, JsVal.mul,
        JsVal.add, JsVal.neg, tokenTimes10, digitsValue, e1, e2, e3]
      omega
    · simp [hd, isUnsignedToken] at h
  | [], h => simp [isUnsignedToken] at h
  | [_], h => simp [isUnsignedToken] at h
  | [_, _], h => simp [isUnsignedToken] at h
  | _ :: _ :: _ :: _ :: _ :: _ :: _, h =>
    simp [isUnsignedToken] at h

end OneBrc

namespace OneBrc

/-! ## The parser on well-formed records -/

theorem length_writeBytes (cs : List Nat) : ∀ (b : Buffer) (n : Nat),
    (writeBytes b n cs).length = b.length := by
  induction cs with
  | nil => intro b n; rfl
  | cons c cs ih => intro b n; simp [writeBytes, ih, bufSet]

theorem take_writeBytes (cs : List Nat) : ∀ (b : Buffer) (n : Nat),
    n + cs.length ≤ b.length → (writeBytes b n cs).take (n + cs.length) = b.take n ++ cs := by
  induction cs with
  | nil => intro b n _; simp [writeBytes]
  | cons c cs ih =>
    intro b n h
    simp only [List.length_cons] at h
    have h1 : n + 1 + cs.length ≤ (bufSet b n c).length := by simp [bufSet]; omega
    have h2 := ih (bufSet b n c) (n + 1) h1
    have h3 : (bufSet b n c).take (n + 1) = b.take n ++ [c] := by
      have hn : n < b.length := by omega
      rw [bufSet, List.take_succ, List.set_take, List.set_eq_of_length_le (by simp)]
      simp [hn]
    simp only [writeBytes, List.length_cons]
    rw [show n + (cs.length + 1) = n + 1 + cs.length by omega, h2, h3]
    simp

theorem parseChunk_nil (st : ParserState) : parseChunk st [] = st := rfl

theorem parseChunk_cons (st : ParserState) (c : Nat) (cs : List Nat) :
    parseChunk st (c :: cs) = parseChunk (parseByte st c) cs := rfl

theorem parseChunk_append (st : ParserState) (a b : List Nat) :
    parseChunk st (a ++ b) = parseChunk (parseChunk st a) b := by
  simp [parseChunk, List.foldl_append]

/-- Key bytes are appended to the key buffer. -/
theorem parseChunk_key (cs : List Nat) : ∀ (st : ParserState),
    (∀ c ∈ cs, c ≠ CHAR_SEMICOLON ∧ c ≠ CHAR_NEWLINE) →
    st.readingToken = TOKEN_STATION_NAME →
    parseChunk st cs =
      { st with stationName := writeBytes st.stationName st.stationNameLen cs
                stationNameLen := st.stationNameLen + cs.length } := by
  induction cs with
  | nil => intro st _ _; simp [parseChunk_nil, writeBytes]
  | cons c cs ih =>
    intro st hc ht
    have h1 := hc c (List.mem_cons_self _ _)
    have hstep : parseByte st c =
        { st with stationName := bufSet st.stationName st.stationNameLen c
                  stationNameLen := st.stationNameLen + 1 } := by
      simp [parseByte, h1.1, h1.2, ht]
    rw [parseChunk_cons, hstep, ih _ (fun x hx => hc x (List.mem_cons_of_mem _ hx)) (by simpa using ht)]
    simp [writeBytes, Nat.add_assoc, Nat.add_comm 1]

/-- Value bytes are appended to the value buffer. -/
theorem parseChunk_value (cs : List Nat) : ∀ (st : ParserState),
    (∀ c ∈ cs, c ≠ CHAR_SEMICOLON ∧ c ≠ CHAR_NEWLINE) →
    st.readingToken = TOKEN_TEMPERATURE →
    parseChunk st cs =
      { st with temperature := writeBytes st.temperature st.temperatureLen cs
                temperatureLen := st.temperatureLen + cs.length } := by
  induction cs with
  | nil => intro st _ _; simp [parseChunk_nil, writeBytes]
  | cons c cs ih =>
    intro st hc ht
    have h1 := hc c (List.mem_cons_self _ _)
    have hstep : parseByte st c =
        { st with temperature := bufSet st.temperature st.temperatureLen c
                  temperatureLen := st.temperatureLen + 1 } := by
      simp [parseByte, h1.1, h1.2, ht, TOKEN_TEMPERATURE, TOKEN_STATION_NAME]
    rw [parseChunk_cons, hstep, ih _ (fun x hx => hc x (List.mem_cons_of_mem _ hx)) (by simpa using ht)]
    simp [writeBytes, Nat.add_assoc, Nat.add_comm 1]

theorem isUnsignedToken_bytes {tok : List Nat} (h : isUnsignedToken tok = true) :
    tok.length ≤ 4 ∧ ∀ c ∈ tok, c ≠ CHAR_SEMICOLON ∧ c ≠ CHAR_NEWLINE := by
  match tok, h with
  | [d, p, f], h =>
    simp [isUnsignedToken, isDigit_iff] at h
    simp [CHAR_SEMICOLON, CHAR_NEWLINE]; omega
  | [d1, d2, p, f], h =>
    simp [isUnsignedToken, isDigit_iff] at h
    simp [CHAR_SEMICOLON, CHAR_NEWLINE]; omega
  | [], h => simp [isUnsignedToken] at h
  | [_], h => simp [isUnsignedToken] at h
  | [_, _], h => simp [isUnsignedToken] at h
  | _ :: _ :: _ :: _ :: _ :: _, h => simp [isUnsignedToken] at h

theorem isValueToken_bytes {tok : List Nat} (h : isValueToken tok = true) :
    tok.length ≤ 5 ∧ ∀ c ∈ tok, c ≠ CHAR_SEMICOLON ∧ c ≠ CHAR_NEWLINE := by
  unfold isValueToken at h
  split at h
  · rename_i h0
    cases tok with
    | nil => simp at h0
    | cons c cs =>
      simp at h0; subst h0
      have := isUnsignedToken_bytes h
      simp at this ⊢
      refine ⟨by omega, by simp [CHAR_SEMICOLON, CHAR_NEWLINE], this.2⟩
  · have := isUnsignedToken_bytes h
    exact ⟨by omega, this.2⟩

end OneBrc

namespace OneBrc

theorem wellFormed_iff {r : Record} : r.wellFormed = true ↔
    (1 ≤ r.key.length ∧ r.key.length ≤ 100) ∧
      (∀ c ∈ r.key, c ≠ CHAR_SEMICOLON ∧ c ≠ CHAR_NEWLINE) ∧ isValueToken r.tok = true := by
  simp [Record.wellFormed, and_assoc]

/-- One well-formed record, read from a line start: the parser is at a line
start again and the record has been aggregated under its decoded key with its
fixed-point value. -/
theorem parseChunk_record (st : ParserState) (r : Record) (hst : AtLineStart st)
    (hr : r.wellFormed = true) :
    AtLineStart (parseChunk st r.render) ∧
      (parseChunk st r.render).map =
        aggregate st.map (keyString r.key) (JsVal.num (tokenTimes10 r.tok)) := by
  obtain ⟨ht, hn, hv, hlen1, hlen2⟩ := hst
  obtain ⟨⟨_, hk100⟩, hkey, htok⟩ := wellFormed_iff.1 hr
  obtain ⟨htl, htb⟩ := isValueToken_bytes htok
  have e1 := parseChunk_key r.key st hkey ht
  have e2 : (writeBytes st.stationName 0 r.key).take r.key.length = r.key := by
    have := take_writeBytes r.key st.stationName 0 (by omega)
    simpa using this
  have e3 : (writeBytes st.temperature 0 r.tok).take r.tok.length = r.tok := by
    have := take_writeBytes r.tok st.temperature 0 (by omega)
    simpa using this
  have e4 : parseFloatBufferIntoInt (writeBytes st.temperature 0 r.tok) r.tok.length =
      JsVal.num (tokenTimes10 r.tok) := by
    have h := parseFloat_token r.tok ((writeBytes st.temperature 0 r.tok).drop r.tok.length) htok
    have e : r.tok ++ (writeBytes st.temperature 0 r.tok).drop r.tok.length =
        writeBytes st.temperature 0 r.tok := by
      have h0 := List.take_append_drop r.tok.length (writeBytes st.temperature 0 r.tok)
      rw [e3] at h0
      exact h0
    rw [e] at h
    exact h
  have e5 : bufToString (writeBytes st.stationName 0 r.key) r.key.length = keyString r.key := by
    simp [bufToString, keyString, e2]
  simp only [Record.render, parseChunk_append, e1, hn]
  rw [show ∀ s : ParserState, parseChunk s [CHAR_SEMICOLON] = parseByte s CHAR_SEMICOLON from
    fun s => rfl]
  rw [show ∀ s : ParserState, parseByte s CHAR_SEMICOLON =
    { s with readingToken := TOKEN_TEMPERATURE } from fun s => by simp [parseByte]]
  rw [parseChunk_value r.tok _ htb rfl]
  rw [show ∀ s : ParserState, parseChunk s [CHAR_NEWLINE] = parseByte s CHAR_NEWLINE from
    fun s => rfl]
  simp only [parseByte, CHAR_NEWLINE, CHAR_SEMICOLON, if_neg (show ¬ (10 = 59) by decide),
    if_true]
  simp only [hv, Nat.zero_add, e4, e5]
  refine ⟨⟨rfl, rfl, rfl, ?_, ?_⟩, trivial⟩
  · simp [length_writeBytes, hlen1]
  · simp [length_writeBytes, hlen2]

/-- A sequence of well-formed records, read from a line start. -/
theorem parseChunk_renderAll (rs : List Record) : ∀ (st : ParserState), AtLineStart st →
    (∀ r ∈ rs, r.wellFormed = true) →
    AtLineStart (parseChunk st (renderAll rs)) ∧
      (parseChunk st (renderAll rs)).map = aggregateAll st.map rs := by
  induction rs with
  | nil => intro st hst _; exact ⟨hst, rfl⟩
  | cons r rs ih =>
    intro st hst hwf
    have h1 := parseChunk_record st r hst (hwf r (List.mem_cons_self _ _))
    have h2 := ih (parseChunk st r.render) h1.1 (fun x hx => hwf x (List.mem_cons_of_mem _ hx))
    have e : renderAll (r :: rs) = r.render ++ renderAll rs := by simp [renderAll]
    rw [e, parseChunk_append]
    refine ⟨h2.1, ?_⟩
    rw [h2.2, h1.2]
    rfl

theorem atLineStart_initState (junk1 junk2 : List Nat) : AtLineStart (initState junk1 junk2) := by
  refine ⟨rfl, rfl, rfl, ?_, ?_⟩ <;> simp [initState, allocUnsafe]

/-- The map posted for a stream of well-formed records delivered in one
`data` event. -/
theorem parseStream_renderAll (junk1 junk2 : List Nat) (rs : List Record)
    (hwf : ∀ r ∈ rs, r.wellFormed = true) :
    parseStream junk1 junk2 [renderAll rs] = aggregateAll [] rs := by
  have h := parseChunk_renderAll rs (initState junk1 junk2) (atLineStart_initState junk1 junk2) hwf
  simp only [parseStream, List.foldl_cons, List.foldl_nil]
  rw [h.2]
  rfl

end OneBrc

namespace OneBrc

/-! ## The `Map` operations -/

theorem get_set (m : JsMap) (k : JsString) (v : Rec) (k' : JsString) :
    (m.set k v).get k' = if k = k' then some v else m.get k' := by
  induction m with
  | nil => simp [JsMap.set, JsMap.get]
  | cons e m ih =>
    obtain ⟨k0, v0⟩ := e
    by_cases h0 : k0 = k
    · subst h0
      by_cases h1 : k0 = k' <;> simp [JsMap.set, JsMap.get, h1]
    · by_cases h1 : k0 = k'
      · subst h1
        have : ¬ (k = k0) := fun h => h0 h.symm
        simp [JsMap.set, JsMap.get, h0, this]
      · simp [JsMap.set, JsMap.get, h0, h1, ih]

theorem get_eq_none_iff (m : JsMap) (k : JsString) : m.get k = none ↔ k ∉ m.keys := by
  induction m with
  | nil => simp [JsMap.get, JsMap.keys]
  | cons e m ih =>
    obtain ⟨k0, v0⟩ := e
    by_cases h0 : k0 = k
    · simp [JsMap.get, JsMap.keys, h0]
    · have h1 : ¬ (k = k0) := fun h => h0 h.symm
      simp only [JsMap.keys] at ih
      simp [JsMap.get, JsMap.keys, h0, h1, ih]

theorem keys_set (m : JsMap) (k : JsString) (v : Rec) :
    (m.set k v).keys = if k ∈ m.keys then m.keys else m.keys ++ [k] := by
  induction m with
  | nil => simp [JsMap.set, JsMap.keys]
  | cons e m ih =>
    obtain ⟨k0, v0⟩ := e
    simp only [JsMap.keys] at ih
    by_cases h0 : k0 = k
    · simp [JsMap.set, JsMap.keys, h0]
    · have h1 : ¬ (k = k0) := fun h => h0 h.symm
      by_cases h2 : k ∈ List.map Prod.fst m
      · simp [JsMap.set, JsMap.keys, h0, h1, h2, ih]
      · simp [JsMap.set, JsMap.keys, h0, h1, h2, ih]

theorem mem_keys_set (m : JsMap) (k : JsString) (v : Rec) (k' : JsString) :
    k' ∈ (m.set k v).keys ↔ k' = k ∨ k' ∈ m.keys := by
  rw [keys_set]
  split
  · constructor
    · exact Or.inr
    · rintro (h | h)
      · subst h; assumption
      · exact h
  · simp [or_comm]

theorem nodup_keys_set (m : JsMap) (k : JsString) (v : Rec) (h : m.keys.Nodup) :
    (m.set k v).keys.Nodup := by
  rw [keys_set]
  split
  · exact h
  · rename_i hk
    rw [List.nodup_append]
    refine ⟨h, List.nodup_singleton _, ?_⟩
    intro a ha hb
    simp at hb
    subst hb
    exact hk ha

/-! ## The aggregation step -/

theorem get_aggregate (m : JsMap) (k : JsString) (v : JsVal) (k' : JsString) :
    (aggregate m k v).get k' = if k = k' then aggStep (m.get k) v else m.get k' := by
  unfold aggregate
  cases h : m.get k <;> simp [get_set, aggStep]

theorem mem_keys_aggregate (m : JsMap) (k : JsString) (v : JsVal) (k' : JsString) :
    k' ∈ (aggregate m k v).keys ↔ k' = k ∨ k' ∈ m.keys := by
  unfold aggregate
  cases h : m.get k <;> simp [mem_keys_set]

theorem nodup_keys_aggregate (m : JsMap) (k : JsString) (v : JsVal) (h : m.keys.Nodup) :
    (aggregate m k v).keys.Nodup := by
  unfold aggregate
  cases h' : m.get k <;> simp [nodup_keys_set, h]

theorem nodup_keys_aggregateAll (rs : List Record) : ∀ (m : JsMap), m.keys.Nodup →
    (aggregateAll m rs).keys.Nodup := by
  induction rs with
  | nil => intro m h; exact h
  | cons r rs ih =>
    intro m h
    exact ih _ (nodup_keys_aggregate m _ _ h)

theorem mem_keys_aggregateAll (rs : List Record) : ∀ (m : JsMap) (s : JsString),
    s ∈ (aggregateAll m rs).keys ↔ s ∈ m.keys ∨ ∃ r ∈ rs, keyString r.key = s := by
  induction rs with
  | nil => intro m s; simp [aggregateAll]
  | cons r rs ih =>
    intro m s
    have h := ih (aggregate m (keyString r.key) (JsVal.num (tokenTimes10 r.tok))) s
    simp only [aggregateAll, List.foldl_cons] at h ⊢
    rw [h, mem_keys_aggregate]
    simp only [List.mem_cons, exists_eq_or_imp]
    constructor
    · rintro ((h1 | h1) | h1)
      · exact Or.inr (Or.inl h1.symm)
      · exact Or.inl h1
      · exact Or.inr (Or.inr h1)
    · rintro (h1 | h1 | h1)
      · exact Or.inl (Or.inr h1)
      · exact Or.inl (Or.inl h1.symm)
      · exact Or.inr h1

/-- The entry of a key after the records `rs`: the values of the records that
decode to the key, folded in input order into the entry it had before. -/
theorem get_aggregateAll (rs : List Record) : ∀ (m : JsMap) (s : JsString),
    (aggregateAll m rs).get s =
      ((valuesOf rs s).map JsVal.num).foldl aggStep (m.get s) := by
  induction rs with
  | nil => intro m s; rfl
  | cons r rs ih =>
    intro m s
    have h := ih (aggregate m (keyString r.key) (JsVal.num (tokenTimes10 r.tok))) s
    simp only [aggregateAll, List.foldl_cons] at h ⊢
    rw [h, get_aggregate]
    by_cases hk : keyString r.key = s
    · subst hk
      simp [valuesOf, List.filter_cons]
    · simp [valuesOf, List.filter_cons, hk]

end OneBrc

namespace OneBrc

/-! ## Folding integer values into a record -/

theorem updateRec_num (a b s c v : Int) :
    updateRec ⟨JsVal.num a, JsVal.num b, JsVal.num s, c⟩ (JsVal.num v) =
      ⟨JsVal.num (min a v), JsVal.num (max b v), JsVal.num (s + v), c + 1⟩ := by
  have h1 : (if a < v then JsVal.num a else JsVal.num v) = JsVal.num (min a v) := by
    split
    · rw [min_eq_left (by omega)]
    · rw [min_eq_right (by omega)]
  have h2 : (if b > v then JsVal.num b else JsVal.num v) = JsVal.num (max b v) := by
    split
    · rw [max_eq_left (by omega)]
    · rw [max_eq_right (by omega)]
  simp [updateRec, JsVal.lt, JsVal.gt, JsVal.add, h1, h2]

theorem foldl_aggStep_num (vs : List Int) : ∀ (a b s c : Int),
    (vs.map JsVal.num).foldl aggStep (some ⟨JsVal.num a, JsVal.num b, JsVal.num s, c⟩) =
      some ⟨JsVal.num (vs.foldl min a), JsVal.num (vs.foldl max b), JsVal.num (s + vs.sum),
        c + vs.length⟩ := by
  induction vs with
  | nil => intro a b s c; simp
  | cons v vs ih =>
    intro a b s c
    simp only [List.map_cons, List.foldl_cons, aggStep, updateRec_num, ih]
    simp [add_assoc]
    omega

theorem foldl_min_spec (vs : List Int) : ∀ (a : Int),
    (vs.foldl min a = a ∨ vs.foldl min a ∈ vs) ∧ vs.foldl min a ≤ a ∧
      ∀ v ∈ vs, vs.foldl min a ≤ v := by
  induction vs with
  | nil => intro a; simp
  | cons v vs ih =>
    intro a
    obtain ⟨h1, h2, h3⟩ := ih (min a v)
    simp only [List.foldl_cons, List.mem_cons]
    refine ⟨?_, le_trans h2 (min_le_left _ _), ?_⟩
    · rcases h1 with h1 | h1
      · rw [h1]
        rcases min_choice a v with h | h
        · exact Or.inl h
        · exact Or.inr (Or.inl h)
      · exact Or.inr (Or.inr h1)
    · intro x hx
      rcases hx with hx | hx
      · subst hx; exact le_trans h2 (min_le_right _ _)
      · exact h3 x hx

theorem foldl_max_spec (vs : List Int) : ∀ (a : Int),
    (vs.foldl max a = a ∨ vs.foldl max a ∈ vs) ∧ a ≤ vs.foldl max a ∧
      ∀ v ∈ vs, v ≤ vs.foldl max a := by
  induction vs with
  | nil => intro a; simp
  | cons v vs ih =>
    intro a
    obtain ⟨h1, h2, h3⟩ := ih (max a v)
    simp only [List.foldl_cons, List.mem_cons]
    refine ⟨?_, le_trans (le_max_left _ _) h2, ?_⟩
    · rcases h1 with h1 | h1
      · rw [h1]
        rcases max_choice a v with h | h
        · exact Or.inl h
        · exact Or.inr (Or.inl h)
      · exact Or.inr (Or.inr h1)
    · intro x hx
      rcases hx with hx | hx
      · subst hx; exact le_trans (le_max_right _ _) h2
      · exact h3 x hx

/-- Folding a non-empty list of integer values into an absent entry gives the
summary of the values. -/
theorem foldl_aggStep_summarizes (v : Int) (vs : List Int) :
    ∃ rec, ((v :: vs).map JsVal.num).foldl aggStep none = some rec ∧
      Summarizes rec (v :: vs) := by
  refine ⟨⟨JsVal.num (vs.foldl min v), JsVal.num (vs.foldl max v), JsVal.num (v + vs.sum),
    1 + vs.length⟩, ?_, vs.foldl min v, vs.foldl max v, ?_, ?_, ?_, ?_, ?_⟩
  · simp only [List.map_cons, List.foldl_cons, aggStep, newRec]
    exact foldl_aggStep_num vs v v v 1
  · simp [add_comm]
  · rcases (foldl_min_spec vs v).1 with h | h
    · rw [h]; exact List.mem_cons_self _ _
    · exact List.mem_cons_of_mem _ h
  · intro x hx
    rcases List.mem_cons.1 hx with hx | hx
    · subst hx; exact (foldl_min_spec vs x).2.1
    · exact (foldl_min_spec vs v).2.2 x hx
  · rcases (foldl_max_spec vs v).1 with h | h
    · rw [h]; exact List.mem_cons_self _ _
    · exact List.mem_cons_of_mem _ h
  · intro x hx
    rcases List.mem_cons.1 hx with hx | hx
    · subst hx; exact (foldl_max_spec vs x).2.1
    · exact (foldl_max_spec vs v).2.2 x hx

/-- The entry of a decoded key that occurs in `rs`, in the map aggregated from
the empty map. -/
theorem get_aggregateAll_summarizes (rs : List Record) (r : Record) (hr : r ∈ rs) :
    ∃ rec, (aggregateAll [] rs).get (keyString r.key) = some rec ∧
      Summarizes rec (valuesOf rs (keyString r.key)) := by
  rw [get_aggregateAll]
  have hne : valuesOf rs (keyString r.key) ≠ [] := by
    intro h
    have : tokenTimes10 r.tok ∈ valuesOf rs (keyString r.key) := by
      simp only [valuesOf, List.mem_map, List.mem_filter]
      exact ⟨r, ⟨hr, by simp⟩, rfl⟩
    rw [h] at this
    exact List.not_mem_nil _ this
  cases hv : valuesOf rs (keyString r.key) with
  | nil => exact absurd hv hne
  | cons v vs => exact foldl_aggStep_summarizes v vs

end OneBrc

namespace OneBrc

/-! ## The fixed-point value and the decimal value of a token -/

theorem unsigned_times10 {tok : List Nat} (h : isUnsignedToken tok = true) :
    ((digitsValue (tok.filter (fun c => c != 46)) : Int) : ℚ) = unsignedDecimal tok * 10 := by
  match tok, h with
  | [d, p, f], h =>
    simp [isUnsignedToken, isDigit_iff] at h
    obtain ⟨⟨⟨h1, h2⟩, hp⟩, h3, h4⟩ := h
    subst hp
    have e1 : d ≠ 46 := by omega
    have e3 : f ≠ 46 := by omega
    simp [unsignedDecimal, digitsValue, List.takeWhile_cons, List.dropWhile_cons, e1, e3]
    ring
  | [d1, d2, p, f], h =>
    simp [isUnsignedToken, isDigit_iff] at h
    obtain ⟨⟨⟨⟨h1, h2⟩, h3, h4⟩, hp⟩, h5, h6⟩ := h
    subst hp
    have e1 : d1 ≠ 46 := by omega
    have e2 : d2 ≠ 46 := by omega
    have e3 : f ≠ 46 := by omega
    simp [unsignedDecimal, digitsValue, List.takeWhile_cons, List.dropWhile_cons, e1, e2, e3]
    ring
  | [], h => simp [isUnsignedToken] at h
  | [_], h => simp [isUnsignedToken] at h
  | [_, _], h => simp [isUnsignedToken] at h
  | _ :: _ :: _ :: _ :: _ :: _, h => simp [isUnsignedToken] at h

/-- The fixed-point value of a grammatical token is ten times its decimal
value. -/
theorem tokenTimes10_eq {tok : List Nat} (h : isValueToken tok = true) :
    ((tokenTimes10 tok : Int) : ℚ) = tokenDecimal tok * 10 := by
  unfold isValueToken at h
  unfold tokenTimes10 tokenDecimal
  split at h
  · rename_i h0
    rw [if_pos h0, if_pos h0]
    have := unsigned_times10 h
    push_cast at this ⊢
    rw [this]; ring
  · rename_i h0
    rw [if_neg h0, if_neg h0]
    exact unsigned_times10 h

end OneBrc

namespace OneBrc

/-! ## Claims C1 and C2 -/

/-- C1 (as amended): for every sequence of well-formed, newline-terminated
records `key;value\n` (key of 1 to 100 bytes without `;` and `\n`, value
matching the token grammar) in which distinct keys decode to distinct strings,
the map built by `parseChunk` from the initial state has exactly the decoded
keys of the input as keys, each once, and the record of each key has `min` the
minimum, `max` the maximum, `sum` the sum and `count` the number of the values
of that key, each value taken as the integer value times ten. -/
theorem parseChunk_perKeyAggregates (junk1 junk2 : List Nat) (rs : List Record)
    (hwf : ∀ r ∈ rs, r.wellFormed = true)
    (hinj : ∀ r1 ∈ rs, ∀ r2 ∈ rs, keyString r1.key = keyString r2.key → r1.key = r2.key) :
    PerKeyAggregates rs (parseChunk (initState junk1 junk2) (renderAll rs)).map := by
  have h := parseChunk_renderAll rs (initState junk1 junk2)
    (atLineStart_initState junk1 junk2) hwf
  rw [h.2]
  have h0 : (initState junk1 junk2).map = [] := rfl
  rw [h0]
  refine ⟨nodup_keys_aggregateAll rs [] List.nodup_nil, ?_, ?_⟩
  · intro s
    rw [mem_keys_aggregateAll]
    simp [JsMap.keys]
  · intro r hr
    obtain ⟨rec, h1, h2⟩ := get_aggregateAll_summarizes rs r hr
    refine ⟨rec, h1, ?_⟩
    have e : valuesOf rs (keyString r.key) = valuesByKey rs r.key := by
      unfold valuesOf valuesByKey
      congr 1
      apply List.filter_congr
      intro x hx
      by_cases hk : x.key = r.key
      · simp [hk]
      · have : keyString x.key ≠ keyString r.key := fun hh => hk (hinj x hx r hr hh)
        simp [hk, this]
    rw [← e]
    exact h2

/-- Witness for C1 on the three records of the end-to-end example. -/
theorem parseChunk_perKeyAggregates_witness :
    PerKeyAggregates
      [⟨bytes "Hamburg", bytes "12.0"⟩, ⟨bytes "Hamburg", bytes "14.0"⟩,
        ⟨bytes "Berlin", bytes "-5.5"⟩]
      (parseChunk (initState [] [])
        (renderAll [⟨bytes "Hamburg", bytes "12.0"⟩, ⟨bytes "Hamburg", bytes "14.0"⟩,
          ⟨bytes "Berlin", bytes "-5.5"⟩])).map :=
  parseChunk_perKeyAggregates [] [] _ (by decide) (by decide)

/-- C1 (counterexample): the two well-formed records `\xFF;1.0\n` and
`\xFE;2.0\n` have different keys, both of which `toString('utf8')` decodes to
U+FFFD; the map gets one entry with `count = 2`, not the summary of the single
value of the key `\xFF`. -/
theorem parseChunk_perKeyAggregates_invalid_utf8 :
    (∀ r ∈ [(⟨[0xFF], bytes "1.0"⟩ : Record), ⟨[0xFE], bytes "2.0"⟩], r.wellFormed = true) ∧
    (parseChunk (initState [] [])
        (renderAll [⟨[0xFF], bytes "1.0"⟩, ⟨[0xFE], bytes "2.0"⟩])).map =
      [([0xFFFD], ⟨JsVal.num 10, JsVal.num 20, JsVal.num 30, 2⟩)] ∧
    ¬ PerKeyAggregates [⟨[0xFF], bytes "1.0"⟩, ⟨[0xFE], bytes "2.0"⟩]
      (parseChunk (initState [] [])
        (renderAll [⟨[0xFF], bytes "1.0"⟩, ⟨[0xFE], bytes "2.0"⟩])).map := by
  refine ⟨by decide, by decide, ?_⟩
  intro h
  obtain ⟨rec, h1, mn, mx, h2, _⟩ := h.2.2 ⟨[0xFF], bytes "1.0"⟩ (List.mem_cons_self _ _)
  have e : (parseChunk (initState [] [])
      (renderAll [⟨[0xFF], bytes "1.0"⟩, ⟨[0xFE], bytes "2.0"⟩])).map.get
        (keyString [0xFF]) = some ⟨JsVal.num 10, JsVal.num 20, JsVal.num 30, 2⟩ := by decide
  rw [e] at h1
  have e2 : rec.count = 2 := by
    injection h1 with h1; rw [← h1]
  have e3 : rec.count = 1 := by
    have e4 : ((valuesByKey [⟨[0xFF], bytes "1.0"⟩, ⟨[0xFE], bytes "2.0"⟩] [0xFF]).length : Int)
        = 1 := by decide
    rw [h2]; exact e4
  omega

/-- C2: for every value token `tok` of the grammar (optional `-`, one or two
digits, `.`, one digit) stored in the first `length` bytes of the buffer,
`parseFloatBufferIntoInt(b, length)` returns the integer equal to the decimal
value of the token multiplied by ten; `-3.4` gives -34, `0.0` gives 0, `99.9`
gives 999 and `-99.9` gives -999, whatever follows the token in the buffer. -/
theorem parseFloatBufferIntoInt_correct (b : Buffer) (tok : List Nat)
    (htok : isValueToken tok = true) (hb : b.take tok.length = tok) :
    (∃ n : Int, parseFloatBufferIntoInt b tok.length = JsVal.num n ∧
        (n : ℚ) = tokenDecimal tok * 10) ∧
      (∀ rest, parseFloatBufferIntoInt (bytes "-3.4" ++ rest) 4 = JsVal.num (-34)) ∧
      (∀ rest, parseFloatBufferIntoInt (bytes "0.0" ++ rest) 3 = JsVal.num 0) ∧
      (∀ rest, parseFloatBufferIntoInt (bytes "99.9" ++ rest) 4 = JsVal.num 999) ∧
      (∀ rest, parseFloatBufferIntoInt (bytes "-99.9" ++ rest) 5 = JsVal.num (-999)) := by
  refine ⟨⟨tokenTimes10 tok, ?_, tokenTimes10_eq htok⟩, ?_, ?_, ?_, ?_⟩
  · have h := parseFloat_token tok (b.drop tok.length) htok
    have e := List.take_append_drop tok.length b
    rw [hb] at e
    rw [e] at h
    exact h
  · intro rest; exact parseFloat_token (bytes "-3.4") rest (by decide)
  · intro rest; exact parseFloat_token (bytes "0.0") rest (by decide)
  · intro rest; exact parseFloat_token (bytes "99.9") rest (by decide)
  · intro rest; exact parseFloat_token (bytes "-99.9") rest (by decide)

/-- Witness for C2 on the token `-3.4` in a five-byte buffer. -/
theorem parseFloatBufferIntoInt_correct_witness :
    ∃ n : Int, parseFloatBufferIntoInt (bytes "-3.4" ++ [0]) 4 = JsVal.num n ∧
      (n : ℚ) = tokenDecimal (bytes "-3.4") * 10 :=
  (parseFloatBufferIntoInt_correct (bytes "-3.4" ++ [0]) (bytes "-3.4") (by decide)
    (by decide)).1

end OneBrc

namespace OneBrc

/-! ## The merge of the orchestrator -/

theorem mathMin_comm (a b : JsVal) : a.mathMin b = b.mathMin a := by
  cases a <;> cases b <;> simp [JsVal.mathMin, min_comm]

theorem mathMax_comm (a b : JsVal) : a.mathMax b = b.mathMax a := by
  cases a <;> cases b <;> simp [JsVal.mathMax, max_comm]

theorem jsAdd_comm (a b : JsVal) : a.add b = b.add a := by
  cases a <;> cases b <;> simp [JsVal.add, add_comm]

theorem mathMin_assoc (a b c : JsVal) : (a.mathMin b).mathMin c = a.mathMin (b.mathMin c) := by
  cases a <;> cases b <;> cases c <;> simp [JsVal.mathMin, min_assoc]

theorem mathMax_assoc (a b c : JsVal) : (a.mathMax b).mathMax c = a.mathMax (b.mathMax c) := by
  cases a <;> cases b <;> cases c <;> simp [JsVal.mathMax, max_assoc]

theorem jsAdd_assoc (a b c : JsVal) : (a.add b).add c = a.add (b.add c) := by
  cases a <;> cases b <;> cases c <;> simp [JsVal.add, add_assoc]

theorem mergeRec_comm (a b : Rec) : mergeRec a b = mergeRec b a := by
  simp [mergeRec, mathMin_comm a.min, mathMax_comm a.max, jsAdd_comm a.sum, add_comm a.count]

theorem mergeRec_assoc (a b c : Rec) :
    mergeRec (mergeRec a b) c = mergeRec a (mergeRec b c) := by
  simp [mergeRec, mathMin_assoc, mathMax_assoc, jsAdd_assoc, add_assoc]

theorem mergeOpt_none_right (o : Option Rec) : mergeOpt o none = o := by
  cases o <;> rfl

theorem mergeOpt_comm (a b : Option Rec) : mergeOpt a b = mergeOpt b a := by
  cases a <;> cases b <;> simp [mergeOpt, mergeRec_comm]

theorem mergeOpt_assoc (a b c : Option Rec) :
    mergeOpt (mergeOpt a b) c = mergeOpt a (mergeOpt b c) := by
  cases a <;> cases b <;> cases c <;> simp [mergeOpt, mergeRec_assoc]

theorem get_mergeEntry (g : JsMap) (e : JsString × Rec) (k : JsString) :
    (mergeEntry g e).get k = if e.1 = k then mergeOpt (g.get k) (some e.2) else g.get k := by
  unfold mergeEntry
  by_cases h : e.1 = k
  · subst h
    cases hg : g.get e.1 <;> simp [get_set, mergeOpt]
  · cases hg : g.get e.1 <;> simp [get_set, h]

theorem mem_keys_mergeEntry (g : JsMap) (e : JsString × Rec) (k : JsString) :
    k ∈ (mergeEntry g e).keys ↔ k = e.1 ∨ k ∈ g.keys := by
  unfold mergeEntry
  cases hg : g.get e.1 <;> simp [mem_keys_set]

theorem nodup_keys_mergeEntry (g : JsMap) (e : JsString × Rec) (h : g.keys.Nodup) :
    (mergeEntry g e).keys.Nodup := by
  unfold mergeEntry
  cases hg : g.get e.1 <;> simp [nodup_keys_set, h]

theorem nodup_keys_onMessage (m : JsMap) : ∀ (g : JsMap), g.keys.Nodup →
    (onMessage g m).keys.Nodup := by
  induction m with
  | nil => intro g h; exact h
  | cons e m ih => intro g h; exact ih _ (nodup_keys_mergeEntry g e h)

theorem nodup_keys_foldl_onMessage (ms : List JsMap) : ∀ (g : JsMap), g.keys.Nodup →
    (ms.foldl onMessage g).keys.Nodup := by
  induction ms with
  | nil => intro g h; exact h
  | cons m ms ih => intro g h; exact ih _ (nodup_keys_onMessage m g h)

theorem foldl_collect (m : JsMap) (k : JsString) : ∀ (o : Option Rec),
    m.foldl (fun o e => if e.1 = k then mergeOpt o (some e.2) else o) o =
      mergeOpt o (collect m k) := by
  induction m with
  | nil => intro o; simp [collect, mergeOpt_none_right]
  | cons e m ih =>
    intro o
    unfold collect
    simp only [List.foldl_cons]
    rw [ih, ih (if e.1 = k then mergeOpt none (some e.2) else none)]
    by_cases h : e.1 = k
    · simp only [h, if_true]
      rw [← mergeOpt_assoc]
      rfl
    · simp [h, mergeOpt]

theorem collect_cons (e : JsString × Rec) (m : JsMap) (k : JsString) :
    collect (e :: m) k = mergeOpt (if e.1 = k then some e.2 else none) (collect m k) := by
  have h := foldl_collect m k (if e.1 = k then mergeOpt none (some e.2) else none)
  have e1 : collect (e :: m) k =
      m.foldl (fun o e => if e.1 = k then mergeOpt o (some e.2) else o)
        (if e.1 = k then mergeOpt none (some e.2) else none) := rfl
  rw [e1, h]
  rfl

/-- The entry of a key after a message has been merged: the entry before,
merged with what the message holds for the key. -/
theorem get_onMessage (m : JsMap) : ∀ (g : JsMap) (k : JsString),
    (onMessage g m).get k = mergeOpt (g.get k) (collect m k) := by
  induction m with
  | nil => intro g k; simp [onMessage, collect, mergeOpt_none_right]
  | cons e m ih =>
    intro g k
    have h := ih (mergeEntry g e) k
    simp only [onMessage, List.foldl_cons] at h ⊢
    rw [h, get_mergeEntry, collect_cons]
    by_cases hk : e.1 = k
    · rw [if_pos hk, if_pos hk, mergeOpt_assoc]
    · rw [if_neg hk, if_neg hk]
      rfl

/-- A map with distinct keys contributes its own entry. -/
theorem collect_eq_get (m : JsMap) (k : JsString) (h : m.keys.Nodup) :
    collect m k = m.get k := by
  induction m with
  | nil => rfl
  | cons e m ih =>
    obtain ⟨k0, v0⟩ := e
    simp only [JsMap.keys, List.map_cons, List.nodup_cons] at h
    have ih' := ih h.2
    rw [collect_cons, ih']
    by_cases hk : k0 = k
    · subst hk
      have hn : JsMap.get m k0 = none := (get_eq_none_iff m k0).2 h.1
      rw [hn]
      simp [JsMap.get, mergeOpt]
    · simp [JsMap.get, hk, mergeOpt]

/-- The entry of a key after a list of messages, in arrival order. -/
theorem get_foldl_onMessage (ms : List JsMap) : ∀ (g : JsMap) (k : JsString),
    (ms.foldl onMessage g).get k =
      ms.foldl (fun o m => mergeOpt o (collect m k)) (g.get k) := by
  induction ms with
  | nil => intro g k; rfl
  | cons m ms ih =>
    intro g k
    simp only [List.foldl_cons]
    rw [ih, get_onMessage]

/-- The entries of the merged map do not depend on the arrival order. -/
theorem get_foldl_onMessage_perm {ms ms' : List JsMap} (hp : ms.Perm ms') (g : JsMap)
    (k : JsString) : (ms.foldl onMessage g).get k = (ms'.foldl onMessage g).get k := by
  rw [get_foldl_onMessage, get_foldl_onMessage]
  apply List.Perm.foldl_eq' hp
  intro x _ y _ z
  rw [mergeOpt_assoc, mergeOpt_assoc, mergeOpt_comm (collect x k)]

theorem mem_keys_iff_get {m : JsMap} {k : JsString} : k ∈ m.keys ↔ m.get k ≠ none := by
  rw [Ne, get_eq_none_iff]; simp

end OneBrc

namespace OneBrc

/-! ## Claim C5 -/

/-- C5: for every finite list of posted maps and every permutation of it,
folding the `message` handler over the list from an empty `compiledResults`
gives the same key-to-record mapping: the same entry for every key, hence the
same key set.  The merge of two records is associative and commutative, and on
integer fields it is `min`, `max`, sum of the sums and sum of the counts. -/
theorem onMessage_perm_invariant (ms ms' : List JsMap) (hp : ms.Perm ms') :
    (∀ k, (ms.foldl onMessage []).get k = (ms'.foldl onMessage []).get k) ∧
      (∀ k, k ∈ (ms.foldl onMessage []).keys ↔ k ∈ (ms'.foldl onMessage []).keys) ∧
      (∀ a b c : Rec, mergeRec (mergeRec a b) c = mergeRec a (mergeRec b c)) ∧
      (∀ a b : Rec, mergeRec a b = mergeRec b a) ∧
      (∀ a1 b1 s1 c1 a2 b2 s2 c2 : Int,
        mergeRec ⟨JsVal.num a1, JsVal.num b1, JsVal.num s1, c1⟩
            ⟨JsVal.num a2, JsVal.num b2, JsVal.num s2, c2⟩ =
          ⟨JsVal.num (min a1 a2), JsVal.num (max b1 b2), JsVal.num (s1 + s2), c1 + c2⟩) := by
  refine ⟨fun k => get_foldl_onMessage_perm hp [] k, ?_, mergeRec_assoc, mergeRec_comm, ?_⟩
  · intro k
    rw [mem_keys_iff_get, mem_keys_iff_get, get_foldl_onMessage_perm hp [] k]
  · intro a1 b1 s1 c1 a2 b2 s2 c2
    rfl

/-- Witness for C5: two posted maps that share the key `a`, in both orders. -/
theorem onMessage_perm_invariant_witness :
    ([[(js "a", ⟨JsVal.num 1, JsVal.num 5, JsVal.num 6, 2⟩)],
          [(js "b", ⟨JsVal.num 3, JsVal.num 3, JsVal.num 3, 1⟩),
            (js "a", ⟨JsVal.num (-2), JsVal.num 0, JsVal.num (-2), 2⟩)]].foldl
          onMessage []).get (js "a") =
      ([[(js "b", ⟨JsVal.num 3, JsVal.num 3, JsVal.num 3, 1⟩),
            (js "a", ⟨JsVal.num (-2), JsVal.num 0, JsVal.num (-2), 2⟩)],
          [(js "a", ⟨JsVal.num 1, JsVal.num 5, JsVal.num 6, 2⟩)]].foldl
          onMessage []).get (js "a") :=
  (onMessage_perm_invariant _ _ (List.Perm.swap _ _ [])).1 (js "a")

/-! ## The order of `Array.prototype.sort()` -/

theorem strLt_asymm (a : JsString) : ∀ (b : JsString), strLt a b = true → strLt b a = false := by
  induction a with
  | nil => intro b; cases b <;> simp [strLt]
  | cons x xs ih =>
    intro b
    cases b with
    | nil => simp [strLt]
    | cons y ys =>
      simp only [strLt, Bool.or_eq_true, Bool.and_eq_true, decide_eq_true_eq, Bool.or_eq_false_iff,
        Bool.and_eq_false_iff, decide_eq_false_iff_not]
      rintro (h | ⟨h1, h2⟩)
      · exact ⟨by omega, Or.inl (by omega)⟩
      · exact ⟨by omega, Or.inr (ih ys h2)⟩

theorem strLt_trichotomy (a : JsString) : ∀ (b : JsString),
    strLt a b = false → strLt b a = false → a = b := by
  induction a with
  | nil => intro b; cases b <;> simp [strLt]
  | cons x xs ih =>
    intro b
    cases b with
    | nil => simp [strLt]
    | cons y ys =>
      simp only [strLt, Bool.or_eq_false_iff, Bool.and_eq_false_iff, decide_eq_false_iff_not]
      rintro ⟨h1, h2⟩ ⟨h3, h4⟩
      have hxy : x = y := by omega
      subst hxy
      rcases h2 with h2 | h2
      · exact absurd rfl h2
      · rcases h4 with h4 | h4
        · exact absurd rfl h4
        · rw [ih ys h2 h4]

theorem strLt_trans (a : JsString) : ∀ (b c : JsString),
    strLt a b = true → strLt b c = true → strLt a c = true := by
  induction a with
  | nil => intro b c; cases b <;> cases c <;> simp [strLt]
  | cons x xs ih =>
    intro b c
    cases b with
    | nil => simp [strLt]
    | cons y ys =>
      cases c with
      | nil => simp [strLt]
      | cons z zs =>
        simp only [strLt, Bool.or_eq_true, Bool.and_eq_true, decide_eq_true_eq]
        rintro (h1 | ⟨h1, h2⟩) (h3 | ⟨h3, h4⟩)
        · exact Or.inl (by omega)
        · exact Or.inl (by omega)
        · exact Or.inl (by omega)
        · exact Or.inr ⟨by omega, ih ys zs h2 h4⟩

theorem strLe_isTotal : IsTotal JsString strLe where
  total a b := by
    unfold strLe
    cases h : strLt b a
    · exact Or.inl rfl
    · exact Or.inr (strLt_asymm b a h)

theorem strLe_isAntisymm : IsAntisymm JsString strLe where
  antisymm a b h1 h2 := strLt_trichotomy a b h2 h1

theorem strLe_isTrans : IsTrans JsString strLe where
  trans a b c h1 h2 := by
    unfold strLe at h1 h2 ⊢
    cases h : strLt c a
    · rfl
    · cases h3 : strLt a b
      · have e := strLt_trichotomy a b h3 h1
        subst e
        rw [h] at h2
        exact h2
      · rw [strLt_trans c a b h h3] at h2
        exact h2

/-- The list `sortedStations` is sorted for the comparison of `sort()`. -/
theorem sorted_sortedStations (m : JsMap) : (sortedStations m).Sorted strLe :=
  haveI := strLe_isTotal
  haveI := strLe_isTrans
  List.sorted_insertionSort _ _

end OneBrc

namespace OneBrc

/-! ## Chunks cut after a newline -/

theorem render_eq_body (r : Record) (hr : r.wellFormed = true) :
    ∃ body, r.render = body ++ [CHAR_NEWLINE] ∧ CHAR_NEWLINE ∉ body := by
  obtain ⟨_, hkey, htok⟩ := wellFormed_iff.1 hr
  obtain ⟨_, htb⟩ := isValueToken_bytes htok
  refine ⟨r.key ++ [CHAR_SEMICOLON] ++ r.tok, rfl, ?_⟩
  simp only [List.mem_append, List.mem_singleton, not_or]
  refine ⟨⟨fun h => (hkey _ h).2 rfl, by decide⟩, fun h => (htb _ h).2 rfl⟩

/-- A leading part of a sequence of well-formed records that is empty or ends
with a newline is itself a sequence of records. -/
theorem split_at_newline (rs : List Record) (hwf : ∀ r ∈ rs, r.wellFormed = true) :
    ∀ (c rest : List Nat), c ++ rest = renderAll rs →
      (c = [] ∨ c.getLast? = some CHAR_NEWLINE) →
      ∃ rs1 rs2, rs = rs1 ++ rs2 ∧ c = renderAll rs1 ∧ rest = renderAll rs2 := by
  induction rs with
  | nil =>
    intro c rest h _
    simp [renderAll] at h
    exact ⟨[], [], rfl, by simp [renderAll, h.1], by simp [renderAll, h.2]⟩
  | cons r rs ih =>
    intro c rest h hc
    rcases hc with hc | hc
    · subst hc
      exact ⟨[], r :: rs, rfl, rfl, by simpa using h⟩
    · obtain ⟨c0, hc0⟩ := List.getLast?_eq_some_iff.1 hc
      obtain ⟨body, hb1, hb2⟩ := render_eq_body r (hwf r (List.mem_cons_self _ _))
      have hR : renderAll (r :: rs) = body ++ CHAR_NEWLINE :: renderAll rs := by
        simp [renderAll, hb1]
      rw [hR, hc0, List.append_assoc, List.singleton_append] at h
      have ih' := ih (fun x hx => hwf x (List.mem_cons_of_mem _ hx))
      rcases List.append_eq_append_iff.1 h with ⟨a', h1, h2⟩ | ⟨c', h1, h2⟩
      · cases a' with
        | nil =>
          simp at h1 h2
          refine ⟨[r], rs, rfl, ?_, h2⟩
          simp [renderAll, hb1, hc0, h1]
        | cons x a'' =>
          simp at h2
          exfalso
          apply hb2
          rw [h1, h2.1]
          simp
      · cases c' with
        | nil =>
          simp at h1 h2
          refine ⟨[r], rs, rfl, ?_, h2.symm⟩
          simp [renderAll, hb1, hc0, h1]
        | cons x c'' =>
          simp at h2
          obtain ⟨hx, h3⟩ := h2
          subst hx
          obtain ⟨rs1, rs2, e1, e2, e3⟩ := ih' (c'' ++ [CHAR_NEWLINE]) rest
            (by rw [h3]; simp) (Or.inr (by simp))
          refine ⟨r :: rs1, rs2, by simp [e1], ?_, e3⟩
          rw [hc0, h1]
          simp only [renderAll, List.flatMap_cons, hb1] at e2 ⊢
          rw [← e2]
          simp

/-- A split of a sequence of well-formed records into chunks that are empty or
end with a newline is a split of the records. -/
theorem split_chunks (chunks : List (List Nat)) : ∀ (rs : List Record),
    (∀ r ∈ rs, r.wellFormed = true) → chunks.flatten = renderAll rs →
    (∀ c ∈ chunks, c = [] ∨ c.getLast? = some CHAR_NEWLINE) →
    ∃ rss : List (List Record), rss.flatten = rs ∧ chunks = rss.map renderAll := by
  induction chunks with
  | nil =>
    intro rs hwf h _
    have e : rs = [] := by
      cases rs with
      | nil => rfl
      | cons r rs => simp [renderAll, Record.render] at h
    exact ⟨[], by simp [e], rfl⟩
  | cons c chunks ih =>
    intro rs hwf h hc
    simp only [List.flatten_cons] at h
    obtain ⟨rs1, rs2, e1, e2, e3⟩ := split_at_newline rs hwf c chunks.flatten h
      (hc c (List.mem_cons_self _ _))
    subst e1
    obtain ⟨rss, e4, e5⟩ := ih rs2 (fun x hx => hwf x (List.mem_append_right _ hx)) e3
      (fun x hx => hc x (List.mem_cons_of_mem _ hx))
    exact ⟨rs1 :: rss, by simp [e4], by simp [e2, e5]⟩

end OneBrc

namespace OneBrc

/-! ## Parsing the chunks and merging equals parsing the whole -/

theorem foldl_min_assoc (vs : List Int) : ∀ (a v : Int),
    vs.foldl min (min a v) = min a (vs.foldl min v) := by
  induction vs with
  | nil => intro a v; rfl
  | cons w vs ih => intro a v; simp only [List.foldl_cons]; rw [min_assoc, ih]

theorem foldl_max_assoc (vs : List Int) : ∀ (a v : Int),
    vs.foldl max (max a v) = max a (vs.foldl max v) := by
  induction vs with
  | nil => intro a v; rfl
  | cons w vs ih => intro a v; simp only [List.foldl_cons]; rw [max_assoc, ih]

/-- The closed form of the record folded from a non-empty list of values. -/
theorem foldl_aggStep_cons (v : Int) (vs : List Int) :
    ((v :: vs).map JsVal.num).foldl aggStep none =
      some ⟨JsVal.num (vs.foldl min v), JsVal.num (vs.foldl max v), JsVal.num (v + vs.sum),
        1 + vs.length⟩ := by
  simp only [List.map_cons, List.foldl_cons, aggStep, newRec]
  exact foldl_aggStep_num vs v v v 1

/-- Folding two lists of values one after the other is merging their
records. -/
theorem foldl_aggStep_append (a b : List Int) :
    ((a ++ b).map JsVal.num).foldl aggStep none =
      mergeOpt ((a.map JsVal.num).foldl aggStep none) ((b.map JsVal.num).foldl aggStep none) := by
  cases a with
  | nil => rfl
  | cons x xs =>
    cases b with
    | nil => simp [mergeOpt_none_right]
    | cons y ys =>
      rw [List.cons_append, foldl_aggStep_cons, foldl_aggStep_cons, foldl_aggStep_cons]
      simp only [mergeOpt, mergeRec, JsVal.mathMin, JsVal.mathMax, JsVal.add, List.foldl_append,
        List.foldl_cons, List.sum_append, List.sum_cons, List.length_append, List.length_cons,
        foldl_min_assoc, foldl_max_assoc]
      have e1 : x + (xs.sum + (y + ys.sum)) = x + xs.sum + (y + ys.sum) := by ring
      have e2 : (1 : Int) + ((xs.length + (ys.length + 1) : Nat) : Int) =
          1 + (xs.length : Int) + (1 + (ys.length : Int)) := by push_cast; ring
      rw [e1, e2]

theorem valuesOf_append (rs1 rs2 : List Record) (s : JsString) :
    valuesOf (rs1 ++ rs2) s = valuesOf rs1 s ++ valuesOf rs2 s := by
  simp [valuesOf]

theorem get_aggregateAll_append (rs1 rs2 : List Record) (k : JsString) :
    (aggregateAll [] (rs1 ++ rs2)).get k =
      mergeOpt ((aggregateAll [] rs1).get k) ((aggregateAll [] rs2).get k) := by
  rw [get_aggregateAll, get_aggregateAll, get_aggregateAll, valuesOf_append]
  exact foldl_aggStep_append _ _

theorem foldl_mergeOpt_aggregateAll (rss : List (List Record)) (k : JsString) :
    ∀ (rs0 : List Record),
      rss.foldl (fun o rsi => mergeOpt o ((aggregateAll [] rsi).get k))
          ((aggregateAll [] rs0).get k) =
        (aggregateAll [] (rs0 ++ rss.flatten)).get k := by
  induction rss with
  | nil => intro rs0; simp
  | cons rsi rss ih =>
    intro rs0
    simp only [List.foldl_cons, List.flatten_cons]
    rw [← get_aggregateAll_append, ih, List.append_assoc]

/-- The maps of the chunks, merged in chunk order, have the entries of the map
of the whole input. -/
theorem get_merge_chunks (rss : List (List Record)) (k : JsString) :
    ((rss.map (aggregateAll [])).foldl onMessage []).get k =
      (aggregateAll [] rss.flatten).get k := by
  rw [get_foldl_onMessage, List.foldl_map]
  have h := foldl_mergeOpt_aggregateAll rss k []
  simp only [List.nil_append] at h
  rw [← h]
  congr 1
  funext o rsi
  rw [collect_eq_get _ _ (nodup_keys_aggregateAll rsi [] List.nodup_nil)]

end OneBrc

namespace OneBrc

/-! ## The output depends on the mapping only -/

theorem printLoop_congr (m1 m2 : JsMap) (h : ∀ k, m1.get k = m2.get k) (l : List JsString) :
    ∀ (first : Bool), printLoop m1 first l = printLoop m2 first l := by
  induction l with
  | nil => intro first; rfl
  | cons s l ih =>
    intro first
    simp only [printLoop, printEntry, h s, ih]

theorem keys_perm_of_get_eq (m1 m2 : JsMap) (h1 : m1.keys.Nodup) (h2 : m2.keys.Nodup)
    (h : ∀ k, m1.get k = m2.get k) : m1.keys.Perm m2.keys := by
  rw [List.perm_ext_iff_of_nodup h1 h2]
  intro k
  rw [mem_keys_iff_get, mem_keys_iff_get, h k]

theorem sortedStations_congr (m1 m2 : JsMap) (hp : m1.keys.Perm m2.keys) :
    sortedStations m1 = sortedStations m2 := by
  unfold sortedStations
  haveI := strLe_isAntisymm
  apply List.eq_of_perm_of_sorted (r := strLe)
  · exact (List.perm_insertionSort _ _).trans (hp.trans (List.perm_insertionSort _ _).symm)
  · exact sorted_sortedStations m1
  · exact sorted_sortedStations m2

/-- Two maps with the same entries are printed alike, whatever their insertion
orders. -/
theorem printCompiledResults_congr (m1 m2 : JsMap) (h1 : m1.keys.Nodup) (h2 : m2.keys.Nodup)
    (h : ∀ k, m1.get k = m2.get k) : printCompiledResults m1 = printCompiledResults m2 := by
  unfold printCompiledResults
  rw [sortedStations_congr m1 m2 (keys_perm_of_get_eq m1 m2 h1 h2 h), printLoop_congr m1 m2 h]

/-- Workers whose chunks are sequences of well-formed records post the
aggregates of these records. -/
theorem posted_of_chunks (ws : List WorkerRun) : ∀ (rss : List (List Record)),
    ws.map WorkerRun.chunk = rss.map renderAll →
    (∀ rsi ∈ rss, ∀ r ∈ rsi, r.wellFormed = true) →
    ws.map WorkerRun.posted = rss.map (aggregateAll []) := by
  induction ws with
  | nil =>
    intro rss h _
    cases rss with
    | nil => rfl
    | cons a l => simp at h
  | cons w ws ih =>
    intro rss h hwf
    cases rss with
    | nil => simp at h
    | cons rsi rss =>
      simp only [List.map_cons, List.cons.injEq] at h ⊢
      refine ⟨?_, ih rss h.2 (fun x hx => hwf x (List.mem_cons_of_mem _ hx))⟩
      unfold WorkerRun.posted
      rw [h.1]
      exact parseStream_renderAll _ _ rsi (hwf rsi (List.mem_cons_self _ _))

/-! ## Claim C3 -/

/-- C3: for every input of well-formed records and every split of it into
consecutive chunks whose boundaries fall immediately after a `\n` (every chunk
is empty or ends with `\n`), parsing each chunk with a fresh parser and merging
the posted maps with the `message` handler, in any arrival order, yields the
same key-to-record mapping as parsing the whole input as one chunk, and
`printCompiledResults` writes the same output. -/
theorem split_invariance (rs : List Record) (hwf : ∀ r ∈ rs, r.wellFormed = true)
    (ws : List WorkerRun) (hcat : (ws.map WorkerRun.chunk).flatten = renderAll rs)
    (hnl : ∀ w ∈ ws, w.chunk = [] ∨ w.chunk.getLast? = some CHAR_NEWLINE)
    (arrived : List JsMap) (harr : arrived.Perm (ws.map WorkerRun.posted))
    (junk1 junk2 : List Nat) :
    (∀ k, (arrived.foldl onMessage []).get k =
        (parseStream junk1 junk2 [renderAll rs]).get k) ∧
      (∀ k, k ∈ (arrived.foldl onMessage []).keys ↔
        k ∈ (parseStream junk1 junk2 [renderAll rs]).keys) ∧
      printCompiledResults (arrived.foldl onMessage []) =
        printCompiledResults (parseStream junk1 junk2 [renderAll rs]) := by
  obtain ⟨rss, e1, e2⟩ := split_chunks (ws.map WorkerRun.chunk) rs hwf hcat
    (by
      intro c hc
      obtain ⟨w, hw, rfl⟩ := List.mem_map.1 hc
      exact hnl w hw)
  have hwf' : ∀ rsi ∈ rss, ∀ r ∈ rsi, r.wellFormed = true := by
    intro rsi hi r hr
    apply hwf
    rw [← e1]
    exact List.mem_flatten.2 ⟨rsi, hi, hr⟩
  have hposted : ws.map WorkerRun.posted = rss.map (aggregateAll []) :=
    posted_of_chunks ws rss e2 hwf'
  have hget : ∀ k, (arrived.foldl onMessage []).get k =
      (parseStream junk1 junk2 [renderAll rs]).get k := by
    intro k
    rw [get_foldl_onMessage_perm harr [] k, hposted, get_merge_chunks, e1,
      parseStream_renderAll junk1 junk2 rs hwf]
  have hn1 : (arrived.foldl onMessage []).keys.Nodup :=
    nodup_keys_foldl_onMessage arrived [] List.nodup_nil
  have hn2 : (parseStream junk1 junk2 [renderAll rs]).keys.Nodup := by
    rw [parseStream_renderAll junk1 junk2 rs hwf]
    exact nodup_keys_aggregateAll rs [] List.nodup_nil
  refine ⟨hget, ?_, printCompiledResults_congr _ _ hn1 hn2 hget⟩
  intro k
  rw [mem_keys_iff_get, mem_keys_iff_get, hget k]

end OneBrc

namespace OneBrc

/-- Witness for C3: the three records of the end-to-end example, cut after the
first record, the second worker answering first. -/
theorem split_invariance_witness :
    printCompiledResults
        ([WorkerRun.posted ⟨[7], [], bytes "Hamburg;14.0\nBerlin;-5.5\n"⟩,
          WorkerRun.posted ⟨[], [9, 9], bytes "Hamburg;12.0\n"⟩].foldl onMessage []) =
      printCompiledResults (parseStream [] []
        [renderAll [⟨bytes "Hamburg", bytes "12.0"⟩, ⟨bytes "Hamburg", bytes "14.0"⟩,
          ⟨bytes "Berlin", bytes "-5.5"⟩]]) :=
  (split_invariance
    [⟨bytes "Hamburg", bytes "12.0"⟩, ⟨bytes "Hamburg", bytes "14.0"⟩,
      ⟨bytes "Berlin", bytes "-5.5"⟩]
    (by decide)
    [⟨[], [9, 9], bytes "Hamburg;12.0\n"⟩, ⟨[7], [], bytes "Hamburg;14.0\nBerlin;-5.5\n"⟩]
    (by decide) (by decide)
    [WorkerRun.posted ⟨[7], [], bytes "Hamburg;14.0\nBerlin;-5.5\n"⟩,
      WorkerRun.posted ⟨[], [9, 9], bytes "Hamburg;12.0\n"⟩]
    (List.Perm.swap _ _ []) [] []).2.2

end OneBrc

namespace OneBrc

/-! ## The boundary loop -/

theorem indexOfNl_some (l : Buffer) : ∀ (p : Nat), indexOfNl l = some p →
    l[p]? = some 10 ∧ ∀ q, q < p → l[q]? ≠ some 10 := by
  induction l with
  | nil => intro p h; simp [indexOfNl] at h
  | cons b bs ih =>
    intro p h
    unfold indexOfNl at h
    split at h
    · rename_i hb
      simp at h
      subst h
      subst hb
      simp
    · rename_i hb
      cases h' : indexOfNl bs with
      | none => simp [h'] at h
      | some p' =>
        simp [h'] at h
        subst h
        obtain ⟨h1, h2⟩ := ih p' h'
        refine ⟨by simpa using h1, ?_⟩
        intro q hq
        cases q with
        | zero => simpa using hb
        | succ q => simpa using h2 q (by omega)

theorem indexOfNl_none (l : Buffer) : indexOfNl l = none → ∀ q : Nat, l[q]? ≠ some 10 := by
  induction l with
  | nil => intro _ q; simp
  | cons b bs ih =>
    intro h q
    unfold indexOfNl at h
    split at h
    · simp at h
    · rename_i hb
      cases h' : indexOfNl bs with
      | some p' => simp [h'] at h
      | none =>
        cases q with
        | zero => simpa using hb
        | succ q => simpa using ih h' q

theorem readWindow_getElem? (file : List Nat) (offset q : Nat) (v : Nat) (hv : v ≠ 0) :
    (readWindow file offset)[q]? = some v ↔ q < MAX_LINE_LENGTH ∧ file[offset + q]? = some v := by
  unfold readWindow
  simp only []
  by_cases hq : q < ((file.drop offset).take MAX_LINE_LENGTH).length
  · rw [List.getElem?_append_left hq, List.getElem?_take]
    have hq' : q < MAX_LINE_LENGTH := by
      simp at hq; exact hq.1
    simp [hq']
  · rw [List.getElem?_append_right (by omega)]
    simp only [List.length_take, List.length_drop, not_lt] at hq
    constructor
    · intro h
      rw [List.getElem?_replicate] at h
      split at h
      · simp at h; exact absurd h.symm hv
      · simp at h
    · rintro ⟨h1, h2⟩
      exfalso
      have : offset + q < file.length := by
        by_contra hc
        rw [List.getElem?_eq_none (by omega)] at h2
        simp at h2
      omega

/-- A newline found in the window is a newline of the file, the first one at
or after the offset. -/
theorem indexOfNl_readWindow (file : List Nat) (offset p : Nat)
    (h : indexOfNl (readWindow file offset) = some p) :
    file[offset + p]? = some 10 ∧ offset + p < file.length ∧
      ∀ q, q < p → file[offset + q]? ≠ some 10 := by
  obtain ⟨h1, h2⟩ := indexOfNl_some _ p h
  have h3 := (readWindow_getElem? file offset p 10 (by decide)).1 h1
  refine ⟨h3.2, ?_, ?_⟩
  · by_contra hc
    rw [List.getElem?_eq_none (by omega)] at h3
    simp at h3
  · intro q hq hf
    exact h2 q hq ((readWindow_getElem? file offset q 10 (by decide)).2 ⟨by omega, hf⟩)

end OneBrc

namespace OneBrc

/-- The loop entered at `offset` with enough fuel returns: it pushes a strictly
increasing run of offsets above `offset`, each just after a newline of the
file, and then the file size. -/
theorem boundaryLoop_spec (file : List Nat) (chunkSize : Nat) :
    ∀ (fuel offset : Nat) (acc : List Nat),
      offset ≤ file.length → file.length < offset + fuel →
      ∃ tail, boundaryLoop file chunkSize fuel offset acc = some (acc ++ tail ++ [file.length]) ∧
        List.Chain (· < ·) offset tail ∧
        ∀ t ∈ tail, t ≤ file.length ∧ file[t - 1]? = some 10 := by
  intro fuel
  induction fuel with
  | zero => intro offset acc h1 h2; omega
  | succ fuel ih =>
    intro offset acc h1 h2
    unfold boundaryLoop
    simp only []
    split
    · exact ⟨[], by simp, List.Chain.nil, by simp⟩
    · rename_i hlt
      cases hnl : indexOfNl (readWindow file (offset + chunkSize)) with
      | none => exact ⟨[], by simp, List.Chain.nil, by simp⟩
      | some nlPos =>
        obtain ⟨e1, e2, _⟩ := indexOfNl_readWindow file (offset + chunkSize) nlPos hnl
        obtain ⟨tail, t1, t2, t3⟩ := ih (offset + chunkSize + nlPos + 1)
          (acc ++ [offset + chunkSize + nlPos + 1]) (by omega) (by omega)
        refine ⟨(offset + chunkSize + nlPos + 1) :: tail, ?_, ?_, ?_⟩
        · simp only []
          rw [t1]
          simp
        · exact List.Chain.cons (by omega) t2
        · intro t ht
          rcases List.mem_cons.1 ht with ht | ht
          · subst ht
            exact ⟨by omega, by simpa using e1⟩
          · exact t3 t ht

theorem chain_le_of_chain_lt (tail : List Nat) : ∀ (a n : Nat), List.Chain (· < ·) a tail →
    (∀ t ∈ tail, t ≤ n) → a ≤ n → List.Chain (· ≤ ·) a (tail ++ [n]) := by
  induction tail with
  | nil => intro a n _ _ h; exact List.Chain.cons h List.Chain.nil
  | cons t tail ih =>
    intro a n hc hb _
    rw [List.chain_cons] at hc
    exact List.Chain.cons (by omega)
      (ih t n hc.2 (fun x hx => hb x (List.mem_cons_of_mem _ hx)) (hb t (List.mem_cons_self _ _)))

/-- The start of interval `i` of a boundary list that is preceded by the
boundary `a`. -/
theorem cover_of_chain (l : List Nat) : ∀ (a p : Nat), List.Chain (· ≤ ·) a l →
    a ≤ p → p < (a :: l).getLast (List.cons_ne_nil _ _) →
    ∃! i, i < l.length ∧ (if i = 0 then a else l.getD (i - 1) 0) ≤ p ∧ p < l.getD i 0 := by
  induction l with
  | nil => intro a p _ h1 h2; simp at h2; omega
  | cons b l ih =>
    intro a p hc h1 h2
    rw [List.chain_cons] at hc
    obtain ⟨hab, hc⟩ := hc
    by_cases hp : p < b
    · refine ⟨0, ⟨by simp, by simpa using h1, by simpa using hp⟩, ?_⟩
      rintro j ⟨hj1, hj2, _⟩
      by_contra hj
      have hj' : j - 1 < (b :: l).length := by simp at hj1 ⊢; omega
      rw [if_neg hj] at hj2
      have hmem : (b :: l).getD (j - 1) 0 ∈ b :: l := by
        rw [List.getD_eq_getElem _ _ hj']
        exact List.getElem_mem _
      have hge : b ≤ (b :: l).getD (j - 1) 0 := by
        rcases List.mem_cons.1 hmem with h | h
        · omega
        · have := (List.pairwise_cons.1 (List.chain_iff_pairwise.1 hc)).1 _ h
          omega
      omega
    · have h2' : p < (b :: l).getLast (List.cons_ne_nil _ _) := by
        rw [List.getLast_cons (List.cons_ne_nil _ _)] at h2
        exact h2
      obtain ⟨i, ⟨hi1, hi2, hi3⟩, hi4⟩ := ih b p hc (by omega) h2'
      refine ⟨i + 1, ⟨by simpa using hi1, ?_, by simpa using hi3⟩, ?_⟩
      · simp only [Nat.add_one_ne_zero, if_false, Nat.add_sub_cancel]
        cases i with
        | zero => simpa using hi2
        | succ i => simpa using hi2
      · rintro j ⟨hj1, hj2, hj3⟩
        cases j with
        | zero => simp at hj3; omega
        | succ j =>
          have := hi4 j ⟨by simpa using hj1, ?_, by simpa using hj3⟩
          · omega
          · simp only [Nat.add_one_ne_zero, if_false, Nat.add_sub_cancel] at hj2
            cases j with
            | zero => simpa using hj2
            | succ j => simpa using hj2

end OneBrc

namespace OneBrc

/-! ## Claim C4 -/

/-- C4: for every file content and every worker count of at least one, the
boundary loop returns; the list `chunkOffsets`, preceded by the implicit
boundary 0, is non-decreasing and ends with the file size, no offset exceeds the
file size, every byte position of the file lies in the interval
`[start, end)` of exactly one worker, and every offset but the last is at least
1 and follows a `\n` of the file. -/
theorem chunkOffsets_cover (file : List Nat) (threadsCount : Nat) (_hn : 1 ≤ threadsCount) :
    ∃ offs, chunkOffsets file threadsCount = some offs ∧
      (0 :: offs).Sorted (· ≤ ·) ∧
      offs.getLast? = some file.length ∧
      (∀ b ∈ offs, b ≤ file.length) ∧
      (∀ p, p < file.length →
        ∃! i, i < offs.length ∧ workerStart offs i ≤ p ∧ p < workerEnd offs i) ∧
      (∀ b ∈ offs.dropLast, 1 ≤ b ∧ file[b - 1]? = some 10) := by
  obtain ⟨tail, h1, h2, h3⟩ := boundaryLoop_spec file (file.length / threadsCount)
    (file.length + 1) 0 [] (Nat.zero_le _) (by omega)
  have hchain : List.Chain (· ≤ ·) 0 (tail ++ [file.length]) :=
    chain_le_of_chain_lt tail 0 file.length h2 (fun t ht => (h3 t ht).1) (Nat.zero_le _)
  refine ⟨tail ++ [file.length], by simpa [chunkOffsets] using h1,
    List.chain_iff_pairwise.1 hchain, by simp, ?_, ?_, ?_⟩
  · intro b hb
    rcases List.mem_append.1 hb with hb | hb
    · exact (h3 b hb).1
    · simp at hb; omega
  · intro p hp
    have hlast : (0 :: (tail ++ [file.length])).getLast (List.cons_ne_nil _ _) = file.length := by
      simp
    exact cover_of_chain (tail ++ [file.length]) 0 p hchain (Nat.zero_le _) (by rw [hlast]; exact hp)
  · intro b hb
    rw [List.dropLast_concat] at hb
    have hpos : 0 < b := (List.pairwise_cons.1 (List.chain_iff_pairwise.1 h2)).1 b hb
    exact ⟨hpos, (h3 b hb).2⟩

/-- Witness for C4: the three lines of the end-to-end example and two workers;
the offsets are 26 and 38. -/
theorem chunkOffsets_cover_witness :
    ∃ offs, chunkOffsets (bytes "Hamburg;12.0\nHamburg;14.0\nBerlin;-5.5\n") 2 = some offs ∧
      (0 :: offs).Sorted (· ≤ ·) ∧
      offs.getLast? = some (bytes "Hamburg;12.0\nHamburg;14.0\nBerlin;-5.5\n").length ∧
      (∀ b ∈ offs, b ≤ (bytes "Hamburg;12.0\nHamburg;14.0\nBerlin;-5.5\n").length) ∧
      (∀ p, p < (bytes "Hamburg;12.0\nHamburg;14.0\nBerlin;-5.5\n").length →
        ∃! i, i < offs.length ∧ workerStart offs i ≤ p ∧ p < workerEnd offs i) ∧
      (∀ b ∈ offs.dropLast,
        1 ≤ b ∧ (bytes "Hamburg;12.0\nHamburg;14.0\nBerlin;-5.5\n")[b - 1]? = some 10) :=
  chunkOffsets_cover (bytes "Hamburg;12.0\nHamburg;14.0\nBerlin;-5.5\n") 2 (by decide)

end OneBrc

namespace OneBrc

/-! ## Claims C6 and C7: the code at the failing inputs -/

/-- C6 (the code at failing inputs): the tokens `12` (wrong length), `a.5` (a
non-digit in a digit position), `1x5` (no `.` in the decimal-point position) and
the empty token are outside the grammar, yet `parseFloatBufferIntoInt` returns
normally on each of them, with `undefined` or with a number, and `parseChunk`
inserts a record for each line and goes on: the later records `q;1.5` and
`k;2.0` are aggregated, the latter into the record of the malformed `k;12`. -/
theorem parseChunk_malformed_token :
    isValueToken (bytes "12") = false ∧ isValueToken (bytes "a.5") = false ∧
      isValueToken (bytes "1x5") = false ∧ isValueToken [] = false ∧
      parseFloatBufferIntoInt (bytes "12" ++ [0, 0, 0]) 2 = JsVal.undefined ∧
      parseFloatBufferIntoInt (bytes "a.5" ++ [0, 0]) 3 = JsVal.num 495 ∧
      parseFloatBufferIntoInt (bytes "1x5" ++ [0, 0]) 3 = JsVal.num 15 ∧
      parseFloatBufferIntoInt [0, 0, 0, 0, 0] 0 = JsVal.undefined ∧
      parseStream [] [] [bytes "k;12\nl;a.5\nm;1x5\np;\nq;1.5\nk;2.0\n"] =
        [(js "k", ⟨JsVal.num 20, JsVal.num 20, JsVal.nan, 2⟩),
          (js "l", ⟨JsVal.num 495, JsVal.num 495, JsVal.num 495, 1⟩),
          (js "m", ⟨JsVal.num 15, JsVal.num 15, JsVal.num 15, 1⟩),
          (js "p", ⟨JsVal.undefined, JsVal.undefined, JsVal.undefined, 1⟩),
          (js "q", ⟨JsVal.num 15, JsVal.num 15, JsVal.num 15, 1⟩)] := by
  decide

/-- C7 (the code at the failing input): for the two well-formed records
`a;1.0` and `b;2.0`, the second one without its `\n`, the map posted at the end
of the stream holds the record of `a` only; with the `\n` appended it holds
both records. -/
theorem parseStream_drops_unterminated_record :
    parseStream [] [] [bytes "a;1.0\nb;2.0"] =
        [(js "a", ⟨JsVal.num 10, JsVal.num 10, JsVal.num 10, 1⟩)] ∧
      parseStream [] [] [bytes "a;1.0\nb;2.0" ++ [CHAR_NEWLINE]] =
        [(js "a", ⟨JsVal.num 10, JsVal.num 10, JsVal.num 10, 1⟩),
          (js "b", ⟨JsVal.num 20, JsVal.num 20, JsVal.num 20, 1⟩)] ∧
      parseStream [] [] [bytes "a;1.0\nb;2.0"] ≠
        parseStream [] [] [bytes "a;1.0\nb;2.0" ++ [CHAR_NEWLINE]] := by
  decide

end OneBrc

namespace OneBrc

/-! ## The formatter -/

theorem natDigitsAux_digits (fuel : Nat) : ∀ (n : Nat) (acc : List Nat),
    ∀ c ∈ natDigitsAux fuel n acc, c ∈ acc ∨ (48 ≤ c ∧ c ≤ 57) := by
  induction fuel with
  | zero => intro n acc c hc; exact Or.inl hc
  | succ fuel ih =>
    intro n acc c hc
    unfold natDigitsAux at hc
    split at hc
    · rcases List.mem_cons.1 hc with h | h
      · exact Or.inr (by omega)
      · exact Or.inl h
    · rcases ih _ _ c hc with h | h
      · rcases List.mem_cons.1 h with h | h
        · exact Or.inr (by omega)
        · exact Or.inl h
      · exact Or.inr h

theorem natDigits_digits (n : Nat) : ∀ c ∈ natDigits n, 48 ≤ c ∧ c ≤ 57 := by
  intro c hc
  rcases natDigitsAux_digits _ _ _ c hc with h | h
  · simp at h
  · exact h

theorem natDigits_lt_ten (n : Nat) (h : n < 10) : natDigits n = [48 + n] := by
  simp [natDigits, natDigitsAux, h]

/-- A numeral of `fmtTenths` has exactly one digit after its only decimal
point. -/
theorem fmtTenths_shape (m : ℤ) :
    ∃ pre d, fmtTenths m = pre ++ [46, d] ∧ 46 ∉ pre ∧ 48 ≤ d ∧ d ≤ 57 := by
  refine ⟨(if m < 0 then [45] else []) ++ natDigits (m.natAbs / 10), 48 + m.natAbs % 10, ?_, ?_,
    by omega, by omega⟩
  · rw [fmtTenths, natDigits_lt_ten _ (Nat.mod_lt _ (by decide))]
    simp
  · intro h
    rcases List.mem_append.1 h with h | h
    · split at h <;> simp at h
    · have := natDigits_digits _ _ h
      omega

theorem toFixed1_tenths (m : ℤ) : toFixed1 ((m : ℚ) / 10) = fmtTenths m := by
  have h1 : |(m : ℚ) / 10| * 10 = ((|m| : ℤ) : ℚ) := by
    rw [abs_div, abs_of_pos (show (0 : ℚ) < 10 by norm_num)]
    push_cast
    field_simp
  have h2 : ⌊((|m| : ℤ) : ℚ) + 1 / 2⌋ = |m| := by
    rw [Int.floor_eq_iff]
    constructor <;> norm_num
  have h3 : ((m : ℚ) / 10 < 0) ↔ m < 0 := by
    rw [div_neg_iff]
    constructor
    · rintro (⟨_, h⟩ | ⟨h, _⟩)
      · norm_num at h
      · exact_mod_cast h
    · intro h
      exact Or.inr ⟨by exact_mod_cast h, by norm_num⟩
  have h4 : |m|.toNat = m.natAbs := by
    have := Int.abs_eq_natAbs m
    omega
  unfold toFixed1 fmtTenths
  simp only [h1, h2, h3, h4]

/-- A numeral of `toFixed(1)` has exactly one digit after its only decimal
point. -/
theorem toFixed1_shape (x : ℚ) : HasOneFractionDigit (toFixed1 x) := by
  refine ⟨(if x < 0 then [45] else []) ++ natDigits ((⌊|x| * 10 + 1 / 2⌋).toNat / 10),
    48 + (⌊|x| * 10 + 1 / 2⌋).toNat % 10, ?_, ?_, by omega, by omega⟩
  · unfold toFixed1
    simp only []
    rw [natDigits_lt_ten _ (Nat.mod_lt _ (by decide))]
    simp
  · intro h
    rcases List.mem_append.1 h with h | h
    · split at h <;> simp at h
    · have := natDigits_digits _ _ h
      omega

/-- A number whose tenfold is less than one half away from the integer `m`, and
of the sign of `m`, is written by `toFixed(1)` as the numeral of `m / 10`. -/
theorem toFixed1_near (x : ℚ) (m : ℤ) (hs : x < 0 ↔ m < 0) (h : |x * 10 - m| < 1 / 2) :
    toFixed1 x = fmtTenths m := by
  have h1 : |(|x| * 10 - ((|m| : ℤ) : ℚ))| < 1 / 2 := by
    have e : |x| * 10 = |x * 10| := by
      rw [abs_mul, abs_of_pos (show (0 : ℚ) < 10 by norm_num)]
    rw [e, Int.cast_abs]
    exact lt_of_le_of_lt (abs_abs_sub_abs_le_abs_sub _ _) h
  rw [abs_lt] at h1
  have h2 : ⌊|x| * 10 + 1 / 2⌋ = |m| := by
    rw [Int.floor_eq_iff]
    constructor <;> linarith
  have h4 : |m|.toNat = m.natAbs := by
    have := Int.abs_eq_natAbs m
    omega
  unfold toFixed1 fmtTenths
  simp only [h2, hs, h4]

theorem roundTiesEven_near (y : ℚ) : |(roundTiesEven y : ℚ) - y| ≤ 1 / 2 := by
  have h1 := Int.floor_le y
  have h2 := Int.lt_floor_add_one y
  unfold roundTiesEven
  rw [abs_le]
  split_ifs <;> push_cast <;> constructor <;> linarith

/-- The rounding of a real that is less than one half away from an integer. -/
theorem roundTiesEven_of_near (y : ℚ) (M : ℤ) (h : |y - M| < 1 / 2) : roundTiesEven y = M := by
  rw [abs_lt] at h
  have h1 := Int.floor_le y
  have h2 := Int.lt_floor_add_one y
  unfold roundTiesEven
  split_ifs with c1 c2 c3
  · have a1 : ⌊y⌋ < M + 1 := by
      have : ((⌊y⌋ : ℤ) : ℚ) < ((M + 1 : ℤ) : ℚ) := by push_cast; linarith
      exact_mod_cast this
    have a2 : M - 1 < ⌊y⌋ := by
      have : ((M - 1 : ℤ) : ℚ) < ((⌊y⌋ : ℤ) : ℚ) := by push_cast; linarith
      exact_mod_cast this
    omega
  · have a1 : ⌊y⌋ < M := by
      have : ((⌊y⌋ : ℤ) : ℚ) < ((M : ℤ) : ℚ) := by linarith
      exact_mod_cast this
    have a2 : M - 2 < ⌊y⌋ := by
      have : ((M - 2 : ℤ) : ℚ) < ((⌊y⌋ : ℤ) : ℚ) := by push_cast; linarith
      exact_mod_cast this
    omega
  · exfalso
    have a1 : ⌊y⌋ < M := by
      have : ((⌊y⌋ : ℤ) : ℚ) < ((M : ℤ) : ℚ) := by linarith
      exact_mod_cast this
    have a2 : M - 1 < ⌊y⌋ := by
      have : ((M - 1 : ℤ) : ℚ) < ((⌊y⌋ : ℤ) : ℚ) := by push_cast; linarith
      exact_mod_cast this
    omega
  · exfalso
    have a1 : ⌊y⌋ < M := by
      have : ((⌊y⌋ : ℤ) : ℚ) < ((M : ℤ) : ℚ) := by linarith
      exact_mod_cast this
    have a2 : M - 1 < ⌊y⌋ := by
      have : ((M - 1 : ℤ) : ℚ) < ((⌊y⌋ : ℤ) : ℚ) := by push_cast; linarith
      exact_mod_cast this
    omega

theorem toDouble_zero : toDouble 0 = 0 := by simp [toDouble]

/-- The exponent that `toDouble` uses for a real of the normal range. -/
theorem toDouble_exponent (x : ℚ) (e : ℤ) (h1 : (2 : ℚ) ^ e ≤ |x|) (h2 : |x| < (2 : ℚ) ^ (e + 1))
    (h3 : -1022 ≤ e) : x ≠ 0 ∧ max (Int.log 2 |x|) (-1022) = e := by
  have hpos : (0 : ℚ) < |x| := lt_of_lt_of_le (zpow_pos (by norm_num) e) h1
  have hx : x ≠ 0 := abs_pos.1 hpos
  refine ⟨hx, ?_⟩
  have a1 : e ≤ Int.log 2 |x| := by
    rw [← Int.zpow_le_iff_le_log (by norm_num) hpos]
    exact_mod_cast h1
  have a2 : Int.log 2 |x| < e + 1 := by
    rw [← Int.lt_zpow_iff_log_lt (by norm_num) hpos]
    exact_mod_cast h2
  omega

/-- The double nearest to `x`, from its exponent `e` and a significand `M` less
than one half away from `x / 2^(e - 52)`. -/
theorem toDouble_eq_of_near (x : ℚ) (e M : ℤ) (h1 : (2 : ℚ) ^ e ≤ |x|)
    (h2 : |x| < (2 : ℚ) ^ (e + 1)) (h3 : -1022 ≤ e)
    (h4 : |x / 2 ^ (e - 52) - M| < 1 / 2) : toDouble x = M * 2 ^ (e - 52) := by
  obtain ⟨hx, he⟩ := toDouble_exponent x e h1 h2 h3
  unfold toDouble
  rw [if_neg hx]
  simp only [he]
  rw [roundTiesEven_of_near _ M h4]

/-- The relative error of `toDouble` in the normal range is at most `2^-53`. -/
theorem toDouble_err (x : ℚ) (hx : (2 : ℚ) ^ (-1022 : ℤ) ≤ |x|) :
    |toDouble x - x| ≤ |x| / 2 ^ 53 := by
  have hpos : (0 : ℚ) < |x| := lt_of_lt_of_le (zpow_pos (by norm_num) _) hx
  have hx0 : x ≠ 0 := abs_pos.1 hpos
  have a1 : (-1022 : ℤ) ≤ Int.log 2 |x| := by
    rw [← Int.zpow_le_iff_le_log (by norm_num) hpos]
    exact_mod_cast hx
  have a2 : ((2 : ℕ) : ℚ) ^ Int.log 2 |x| ≤ |x| := Int.zpow_log_le_self (by norm_num) hpos
  unfold toDouble
  rw [if_neg hx0]
  simp only [max_eq_left a1]
  generalize Int.log 2 |x| = e at a2
  have hq : (0 : ℚ) < 2 ^ (e - 52) := zpow_pos (by norm_num) _
  have h := roundTiesEven_near (x / 2 ^ (e - 52))
  have e1 : (roundTiesEven (x / 2 ^ (e - 52)) : ℚ) * 2 ^ (e - 52) - x =
      ((roundTiesEven (x / 2 ^ (e - 52)) : ℚ) - x / 2 ^ (e - 52)) * 2 ^ (e - 52) := by
    field_simp
  rw [e1, abs_mul, abs_of_pos hq]
  have e2 : (2 : ℚ) ^ (e - 52) = 2 ^ e / 2 ^ 52 := by
    rw [zpow_sub₀ (by norm_num)]
    norm_cast
  have a3 : (2 : ℚ) ^ e ≤ |x| := by exact_mod_cast a2
  calc |(roundTiesEven (x / 2 ^ (e - 52)) : ℚ) - x / 2 ^ (e - 52)| * 2 ^ (e - 52)
      ≤ 1 / 2 * 2 ^ (e - 52) := mul_le_mul_of_nonneg_right h hq.le
    _ = 2 ^ e / 2 ^ 53 := by rw [e2]; ring
    _ ≤ |x| / 2 ^ 53 := div_le_div_of_nonneg_right a3 (by norm_num)

/-- Rounding an approximation: if `x` is within the relative error `α` of `z`,
the double nearest to `x` is within `α + (1 + α) / 2^53` of `z`. -/
theorem toDouble_approx (x z α : ℚ) (hα : α ≤ 1 / 2)
    (hz : 1 / 2 ^ 60 ≤ |z|) (h : |x - z| ≤ α * |z|) :
    |toDouble x - z| ≤ (α + (1 + α) / 2 ^ 53) * |z| := by
  have hz0 : 0 ≤ |z| := abs_nonneg z
  have hx1 : |z| - |x - z| ≤ |x| := by
    have := abs_sub_abs_le_abs_sub z x
    rw [abs_sub_comm z x] at this
    linarith
  have hx2 : |x| ≤ |z| + |x - z| := by
    have := abs_add (x - z) z
    rw [sub_add_cancel] at this
    linarith
  have hαz : α * |z| ≤ 1 / 2 * |z| := mul_le_mul_of_nonneg_right hα hz0
  have hsmall : (2 : ℚ) ^ (-1022 : ℤ) ≤ 1 / 2 ^ 61 := by
    have e : (1 : ℚ) / 2 ^ 61 = 2 ^ (-61 : ℤ) := by
      rw [zpow_neg, one_div]
      norm_cast
    rw [e]
    exact zpow_le_zpow_right₀ (by norm_num) (by norm_num)
  have hnorm : (2 : ℚ) ^ (-1022 : ℤ) ≤ |x| := by
    have : (1 : ℚ) / 2 ^ 61 ≤ 1 / 2 * |z| := by
      have e : (1 : ℚ) / 2 ^ 61 = 1 / 2 * (1 / 2 ^ 60) := by norm_num
      rw [e]
      exact mul_le_mul_of_nonneg_left hz (by norm_num)
    exact le_trans hsmall (le_trans this (by linarith))
  have herr := toDouble_err x hnorm
  have h3 : |x| / 2 ^ 53 ≤ (1 + α) * |z| / 2 ^ 53 := by
    apply div_le_div_of_nonneg_right _ (by norm_num)
    nlinarith
  have h4 : |toDouble x - z| ≤ |toDouble x - x| + |x - z| := by
    have := abs_add (toDouble x - x) (x - z)
    rw [sub_add_sub_cancel] at this
    exact this
  calc |toDouble x - z| ≤ |toDouble x - x| + |x - z| := h4
    _ ≤ (1 + α) * |z| / 2 ^ 53 + α * |z| := by linarith
    _ = (α + (1 + α) / 2 ^ 53) * |z| := by ring

/-- A number that is nearer to `z` than to zero has the sign of `z`. -/
theorem neg_iff_of_near (d z : ℚ) (h : |d - z| < |z|) : d < 0 ↔ z < 0 := by
  rw [abs_lt] at h
  constructor
  · intro hd
    by_contra hz
    rw [abs_of_nonneg (not_lt.1 hz)] at h
    linarith
  · intro hz
    rw [abs_of_neg hz] at h
    linarith

/-- The double nearest to `z` is within `|z| / 2^53` of `z`. -/
theorem toDouble_near (z : ℚ) (hz : 1 / 2 ^ 60 ≤ |z|) : |toDouble z - z| ≤ |z| / 2 ^ 53 := by
  have h := toDouble_approx z z 0 (by norm_num) hz (by simp)
  have e : (0 + (1 + 0) / 2 ^ 53) * |z| = |z| / 2 ^ 53 := by ring
  rw [e] at h
  exact h

/-- The division `m / 10` of an integer below `2^51` in magnitude, as
`Math.round` returns it to `round`, is written by `toFixed(1)` as the numeral of
the tenths `m`. -/
theorem toFixed1_jsDiv (m : ℤ) (hm : |m| ≤ 2 ^ 51) : toFixed1 (jsDiv (m : ℚ) 10) = fmtTenths m := by
  unfold jsDiv
  by_cases h0 : m = 0
  · subst h0
    have := toFixed1_tenths 0
    simpa [toDouble_zero] using this
  · have hm1 : (1 : ℚ) ≤ |(m : ℚ)| := by
      have : (1 : ℤ) ≤ |m| := Int.one_le_abs h0
      exact_mod_cast this
    have hm2 : |(m : ℚ)| ≤ 2 ^ 51 := by exact_mod_cast hm
    have habs : |(m : ℚ) / 10| = |(m : ℚ)| / 10 := by
      rw [abs_div, abs_of_pos (show (0 : ℚ) < 10 by norm_num)]
    have hz : (1 : ℚ) / 2 ^ 60 ≤ |(m : ℚ) / 10| := by
      rw [habs]
      have : (1 : ℚ) / 2 ^ 60 ≤ 1 / 10 := by norm_num
      linarith
    have h := toDouble_near _ hz
    rw [habs] at h
    apply toFixed1_near
    · rw [neg_iff_of_near (toDouble ((m : ℚ) / 10)) ((m : ℚ) / 10)]
      · rw [div_neg_iff]
        constructor
        · rintro (⟨_, h⟩ | ⟨h, _⟩)
          · norm_num at h
          · exact_mod_cast h
        · intro h
          exact Or.inr ⟨by exact_mod_cast h, by norm_num⟩
      · rw [habs]
        have : |(m : ℚ)| / 10 / 2 ^ 53 < |(m : ℚ)| / 10 := by
          have : (0 : ℚ) < |(m : ℚ)| / 10 := by linarith
          have e : |(m : ℚ)| / 10 / 2 ^ 53 = |(m : ℚ)| / 10 * (1 / 2 ^ 53) := by ring
          rw [e]
          nlinarith
        linarith
    · have e : toDouble ((m : ℚ) / 10) * 10 - m = (toDouble ((m : ℚ) / 10) - (m : ℚ) / 10) * 10 := by
        ring
      rw [e, abs_mul, abs_of_pos (show (0 : ℚ) < 10 by norm_num)]
      have : |(m : ℚ)| / 10 / 2 ^ 53 * 10 < 1 / 2 := by
        have e : |(m : ℚ)| / 10 / 2 ^ 53 * 10 = |(m : ℚ)| / 2 ^ 53 := by ring
        rw [e, div_lt_iff₀ (by norm_num)]
        have : (2 : ℚ) ^ 51 < 1 / 2 * 2 ^ 53 := by norm_num
        linarith
      linarith

/-- Function `round` writes the numeral of the tenths that `Math.round` returns
for the double `10 * num`. -/
theorem round_spec (x : ℚ) (h : |mathRound (jsMul 10 x)| ≤ 2 ^ 51) :
    round x = fmtTenths (mathRound (jsMul 10 x)) := by
  unfold round
  simp only []
  exact toFixed1_jsDiv _ h

/-- The numerals of `round` have one fractional digit. -/
theorem round_shape (x : ℚ) : HasOneFractionDigit (round x) := toFixed1_shape _

/-- The call `Math.round` on a number less than one half away from an
integer. -/
theorem mathRound_of_near (y : ℚ) (n : ℤ) (h : |y - n| < 1 / 2) : mathRound y = n := by
  rw [abs_lt] at h
  unfold mathRound
  rw [Int.floor_eq_iff]
  constructor <;> linarith

/-- A field that holds the tenths `n`, below `2^50` in magnitude, is written as
the decimal numeral of `n / 10`: the rounding errors of the division by ten and
of the multiplication by ten in `round` stay below one half. -/
theorem roundField_num (n : ℤ) (hn : |n| ≤ 2 ^ 50) : roundField (JsVal.num n) = fmtTenths n := by
  unfold roundField
  simp only []
  have key : mathRound (jsMul 10 (jsDiv (n : ℚ) 10)) = n := by
    unfold jsMul jsDiv
    by_cases h0 : n = 0
    · subst h0
      simp [toDouble_zero, mathRound]
      norm_num
    · have hn1 : (1 : ℚ) ≤ |(n : ℚ)| := by
        have : (1 : ℤ) ≤ |n| := Int.one_le_abs h0
        exact_mod_cast this
      have hn2 : |(n : ℚ)| ≤ 2 ^ 50 := by exact_mod_cast hn
      have habs : |(n : ℚ) / 10| = |(n : ℚ)| / 10 := by
        rw [abs_div, abs_of_pos (show (0 : ℚ) < 10 by norm_num)]
      have hz : (1 : ℚ) / 2 ^ 60 ≤ |(n : ℚ) / 10| := by
        rw [habs]
        have : (1 : ℚ) / 2 ^ 60 ≤ 1 / 10 := by norm_num
        linarith
      have h1 := toDouble_near _ hz
      rw [habs] at h1
      have h2 : |10 * toDouble ((n : ℚ) / 10) - n| ≤ 1 / 2 ^ 53 * |(n : ℚ)| := by
        have e : 10 * toDouble ((n : ℚ) / 10) - n =
            10 * (toDouble ((n : ℚ) / 10) - (n : ℚ) / 10) := by ring
        rw [e, abs_mul, abs_of_pos (show (0 : ℚ) < 10 by norm_num)]
        linarith
      have h3 := toDouble_approx _ _ _ (by norm_num)
        (by have : (1 : ℚ) / 2 ^ 60 ≤ 1 := by norm_num
            linarith) h2
      apply mathRound_of_near
      have : (1 / 2 ^ 53 + (1 + 1 / 2 ^ 53) / 2 ^ 53) * |(n : ℚ)| < 1 / 2 := by
        have : (1 / 2 ^ 53 + (1 + 1 / 2 ^ 53) / 2 ^ 53) * |(n : ℚ)| ≤
            (1 / 2 ^ 53 + (1 + 1 / 2 ^ 53) / 2 ^ 53) * 2 ^ 50 :=
          mul_le_mul_of_nonneg_left hn2 (by norm_num)
        have : (1 / 2 ^ 53 + (1 + 1 / 2 ^ 53) / 2 ^ 53) * (2 : ℚ) ^ 50 < 1 / 2 := by norm_num
        linarith
      linarith
  have hb : |mathRound (jsMul 10 (jsDiv (n : ℚ) 10))| ≤ 2 ^ 51 := by
    rw [key]
    have : (2 : ℤ) ^ 50 ≤ 2 ^ 51 := by norm_num
    omega
  rw [round_spec _ hb, key]

theorem mathRound_near (y : ℚ) : |(mathRound y : ℚ) - y| ≤ 1 / 2 := by
  have h1 := Int.floor_le (y + 1 / 2)
  have h2 := Int.lt_floor_add_one (y + 1 / 2)
  unfold mathRound
  rw [abs_le]
  constructor <;> linarith

/-- The mean of a record with `sum` below `2^50` in magnitude and `count`
between 1 and `2^53` is written as the numeral of a number of tenths `m` that
is nearest to the exact mean: the rounding errors of the three double
operations are too small to move `Math.round` past a neighbour. -/
theorem roundMean_spec (s c : ℤ) (hs : |s| < 2 ^ 50) (h1 : 1 ≤ c) (h2 : c ≤ 2 ^ 53) :
    ∃ m : ℤ, roundMean (JsVal.num s) c = fmtTenths m ∧ |(m : ℚ) - (s : ℚ) / c| ≤ 1 / 2 := by
  unfold roundMean
  simp only []
  by_cases h0 : s = 0
  · subst h0
    have e1 : jsDiv (jsDiv ((0 : ℤ) : ℚ) 10) (c : ℚ) = 0 := by simp [jsDiv, toDouble_zero]
    have e2 : mathRound (jsMul 10 0) = 0 := by
      simp [jsMul, toDouble_zero, mathRound]
      norm_num
    refine ⟨0, ?_, by norm_num⟩
    rw [e1, round_spec _ (by rw [e2]; norm_num), e2]
  · have hc1 : (1 : ℚ) ≤ c := by exact_mod_cast h1
    have hc2 : (c : ℚ) ≤ 2 ^ 53 := by exact_mod_cast h2
    have hc0 : (0 : ℚ) < c := by linarith
    have hs1 : (1 : ℚ) ≤ |(s : ℚ)| := by
      have : (1 : ℤ) ≤ |s| := Int.one_le_abs h0
      exact_mod_cast this
    have hs2 : |(s : ℚ)| < 2 ^ 50 := by exact_mod_cast hs
    have ht : |(s : ℚ) / c| = |(s : ℚ)| / c := by rw [abs_div, abs_of_pos hc0]
    have hz1 : |(s : ℚ) / 10| = |(s : ℚ)| / 10 := by
      rw [abs_div, abs_of_pos (show (0 : ℚ) < 10 by norm_num)]
    have hz2 : |(s : ℚ) / 10 / c| = |(s : ℚ)| / c / 10 := by
      rw [abs_div, hz1, abs_of_pos hc0]
      ring
    have ht_lo : (1 : ℚ) / 2 ^ 53 ≤ |(s : ℚ)| / c :=
      le_trans (one_div_le_one_div_of_le hc0 hc2) (div_le_div_of_nonneg_right hs1 hc0.le)
    have ht_hi : |(s : ℚ)| / c ≤ |(s : ℚ)| := div_le_self (abs_nonneg _) hc1
    have ha := toDouble_near ((s : ℚ) / 10) (by
      rw [hz1]
      have : (1 : ℚ) / 2 ^ 60 ≤ 1 / 10 := by norm_num
      linarith)
    rw [hz1] at ha
    have hx2 : |toDouble ((s : ℚ) / 10) / c - (s : ℚ) / 10 / c| ≤
        1 / 2 ^ 53 * |(s : ℚ) / 10 / c| := by
      rw [← sub_div, abs_div, abs_of_pos hc0, hz2]
      calc |toDouble ((s : ℚ) / 10) - (s : ℚ) / 10| / c ≤ |(s : ℚ)| / 10 / 2 ^ 53 / c :=
            div_le_div_of_nonneg_right ha hc0.le
        _ = 1 / 2 ^ 53 * (|(s : ℚ)| / c / 10) := by ring
    have hb : |toDouble (toDouble ((s : ℚ) / 10) / c) - (s : ℚ) / 10 / c| ≤
        (1 / 2 ^ 53 + (1 + 1 / 2 ^ 53) / 2 ^ 53) * |(s : ℚ) / 10 / c| :=
      toDouble_approx _ _ _ (by norm_num) (by
        rw [hz2]
        have : (1 : ℚ) / 2 ^ 60 ≤ 1 / 2 ^ 53 / 10 := by norm_num
        linarith) hx2
    unfold jsDiv
    generalize toDouble (toDouble ((s : ℚ) / 10) / c) = B at hb ⊢
    have hx3 : |10 * B - (s : ℚ) / c| ≤
        (1 / 2 ^ 53 + (1 + 1 / 2 ^ 53) / 2 ^ 53) * |(s : ℚ) / c| := by
      have e : 10 * B - (s : ℚ) / c = 10 * (B - (s : ℚ) / 10 / c) := by ring
      rw [e, abs_mul, abs_of_pos (show (0 : ℚ) < 10 by norm_num), ht]
      rw [hz2] at hb
      linarith
    have hy : |toDouble (10 * B) - (s : ℚ) / c| ≤
        (1 / 2 ^ 53 + (1 + 1 / 2 ^ 53) / 2 ^ 53 +
          (1 + (1 / 2 ^ 53 + (1 + 1 / 2 ^ 53) / 2 ^ 53)) / 2 ^ 53) * |(s : ℚ) / c| :=
      toDouble_approx _ _ _ (by norm_num) (by
        rw [ht]
        have : (1 : ℚ) / 2 ^ 60 ≤ 1 / 2 ^ 53 := by norm_num
        linarith) hx3
    rw [ht] at hy
    have hy2 : |toDouble (10 * B) - (s : ℚ) / c| ≤ |(s : ℚ)| / c / 2 ^ 51 := by
      have hnn : (0 : ℚ) ≤ |(s : ℚ)| / c := div_nonneg (abs_nonneg _) hc0.le
      have : (1 / 2 ^ 53 + (1 + 1 / 2 ^ 53) / 2 ^ 53 +
          (1 + (1 / 2 ^ 53 + (1 + 1 / 2 ^ 53) / 2 ^ 53)) / 2 ^ 53) * (|(s : ℚ)| / c) ≤
          1 / 2 ^ 51 * (|(s : ℚ)| / c) := mul_le_mul_of_nonneg_right (by norm_num) hnn
      linarith
    have hjs : jsMul 10 B = toDouble (10 * B) := rfl
    generalize toDouble (10 * B) = Y at hy2 hjs
    have hm := mathRound_near Y
    have hmt : |(mathRound Y : ℚ) - (s : ℚ) / c| ≤ 1 / 2 + |(s : ℚ)| / c / 2 ^ 51 := by
      have := abs_add ((mathRound Y : ℚ) - Y) (Y - (s : ℚ) / c)
      rw [sub_add_sub_cancel] at this
      linarith
    have hmabs : |mathRound Y| ≤ 2 ^ 51 := by
      have h3 : |(mathRound Y : ℚ)| ≤ |(mathRound Y : ℚ) - (s : ℚ) / c| + |(s : ℚ) / c| := by
        have := abs_add ((mathRound Y : ℚ) - (s : ℚ) / c) ((s : ℚ) / c)
        rw [sub_add_cancel] at this
        exact this
      rw [ht] at h3
      have h4 : |(s : ℚ)| / c / 2 ^ 51 ≤ 1 := by
        rw [div_le_iff₀ (by norm_num)]
        have : (2 : ℚ) ^ 50 ≤ 1 * 2 ^ 51 := by norm_num
        linarith
      have h5 : ((|mathRound Y| : ℤ) : ℚ) ≤ (2 : ℚ) ^ 51 := by
        rw [Int.cast_abs]
        have : (2 : ℚ) ^ 50 + 1 / 2 + 1 ≤ (2 : ℚ) ^ 51 := by norm_num
        linarith
      exact_mod_cast h5
    refine ⟨mathRound Y, ?_, ?_⟩
    · rw [round_spec B (by rw [hjs]; exact hmabs), hjs]
    · have e2 : ((2 * c * mathRound Y - 2 * s : ℤ) : ℚ) =
          2 * c * ((mathRound Y : ℚ) - (s : ℚ) / c) := by
        push_cast
        field_simp
        ring
      have hN : ((|2 * c * mathRound Y - 2 * s| : ℤ) : ℚ) < ((c + 1 : ℤ) : ℚ) := by
        rw [Int.cast_abs, e2, abs_mul, abs_of_pos (show (0 : ℚ) < 2 * c by linarith)]
        push_cast
        have e3 : 2 * (c : ℚ) * (1 / 2 + |(s : ℚ)| / c / 2 ^ 51) = c + |(s : ℚ)| / 2 ^ 50 := by
          field_simp
          ring
        have h6 : 2 * (c : ℚ) * |(mathRound Y : ℚ) - (s : ℚ) / c| ≤
            2 * (c : ℚ) * (1 / 2 + |(s : ℚ)| / c / 2 ^ 51) :=
          mul_le_mul_of_nonneg_left hmt (by linarith)
        have h7 : |(s : ℚ)| / 2 ^ 50 < 1 := by
          rw [div_lt_iff₀ (by norm_num)]
          linarith
        linarith
      have hN2 : |2 * c * mathRound Y - 2 * s| ≤ c := by
        have : |2 * c * mathRound Y - 2 * s| < c + 1 := by exact_mod_cast hN
        omega
      have hN3 : |((2 * c * mathRound Y - 2 * s : ℤ) : ℚ)| ≤ c := by
        rw [← Int.cast_abs]
        exact_mod_cast hN2
      rw [e2, abs_mul, abs_of_pos (show (0 : ℚ) < 2 * c by linarith)] at hN3
      have : 2 * (c : ℚ) * |(mathRound Y : ℚ) - (s : ℚ) / c| ≤ 2 * c * (1 / 2) := by linarith
      exact le_of_mul_le_mul_left this (by linarith)

/-- A mean that is a whole number of tenths is written as its numeral. -/
theorem roundMean_of_dvd (s c k : ℤ) (hs : |s| < 2 ^ 50) (h1 : 1 ≤ c) (h2 : c ≤ 2 ^ 53)
    (h : s = k * c) : roundMean (JsVal.num s) c = fmtTenths k := by
  obtain ⟨m, e, hm⟩ := roundMean_spec s c hs h1 h2
  have hc0 : (c : ℚ) ≠ 0 := by
    have : (1 : ℚ) ≤ c := by exact_mod_cast h1
    linarith
  have e1 : (s : ℚ) / c = k := by
    rw [h]
    push_cast
    field_simp
  rw [e1] at hm
  have h3 : ((|m - k| : ℤ) : ℚ) < ((1 : ℤ) : ℚ) := by
    rw [Int.cast_abs]
    push_cast
    linarith
  have h4 : |m - k| < 1 := by exact_mod_cast h3
  have h5 : m = k := by
    have := abs_nonneg (m - k)
    have h6 : |m - k| = 0 := by omega
    have := abs_eq_zero.1 h6
    omega
  rw [e, h5]

/-- The mean of a record, from the doubles of the three operations of
`round(sum / 10 / count)`. -/
theorem roundMean_eval (s c : ℤ) (a b y : ℚ) (m : ℤ) (ha : toDouble ((s : ℚ) / 10) = a)
    (hb : toDouble (a / c) = b) (hy : toDouble (10 * b) = y) (hm : mathRound y = m)
    (hm2 : |m| ≤ 2 ^ 51) : roundMean (JsVal.num s) c = fmtTenths m := by
  unfold roundMean
  simp only []
  have e : jsDiv (jsDiv (s : ℚ) 10) c = b := by
    unfold jsDiv
    rw [ha, hb]
  have e2 : mathRound (jsMul 10 b) = m := by
    unfold jsMul
    rw [hy, hm]
  rw [e, round_spec b (by rw [e2]; exact hm2), e2]

end OneBrc

namespace OneBrc

/-! ## Claim C8 -/

/-- The two rounding rules agree except on a negative tie. -/
theorem roundHalfUp_eq_roundHalfAway (x : ℚ) (h : 0 ≤ x ∨ ¬ ∃ k : ℤ, x * 10 + 1 / 2 = k) :
    roundHalfUp x = roundHalfAway x := by
  unfold roundHalfUp roundHalfAway
  by_cases hx : 0 ≤ x
  · rw [if_pos hx]
  · rw [if_neg hx]
    have htie : ¬ ∃ k : ℤ, x * 10 + 1 / 2 = k := by
      rcases h with h | h
      · exact absurd h hx
      · exact h
    rw [Int.floor_eq_iff]
    have h1 := Int.floor_le (-x * 10 + 1 / 2)
    have h2 := Int.lt_floor_add_one (-x * 10 + 1 / 2)
    push_cast
    constructor
    · linarith
    · rcases lt_or_eq_of_le (show x * 10 + 1 / 2 ≤ -(⌊-x * 10 + 1 / 2⌋ : ℚ) + 1 by linarith)
        with h3 | h3
      · exact h3
      · exfalso
        apply htie
        refine ⟨-⌊-x * 10 + 1 / 2⌋ + 1, ?_⟩
        push_cast
        exact h3

/-- The mean 1.25 (`sum = 25`, `count = 2`): every operation is exact, the tie goes up. -/
theorem roundMean_tie_25_2 : roundMean (JsVal.num 25) 2 = js "1.3" := by
  have ha : toDouble (((25 : ℤ) : ℚ) / 10) = (5 / 2 : ℚ) := by
    rw [toDouble_eq_of_near _ 1 5629499534213120 (by rw [abs_of_pos (by norm_num)]; norm_num)
      (by rw [abs_of_pos (by norm_num)]; norm_num) (by norm_num)
      (by rw [abs_lt]; constructor <;> norm_num)]
    norm_num
  have hb : toDouble ((5 / 2 : ℚ) / ((2 : ℤ) : ℚ)) = (5 / 4 : ℚ) := by
    rw [toDouble_eq_of_near _ 0 5629499534213120 (by rw [abs_of_pos (by norm_num)]; norm_num)
      (by rw [abs_of_pos (by norm_num)]; norm_num) (by norm_num)
      (by rw [abs_lt]; constructor <;> norm_num)]
    norm_num
  have hy : toDouble (10 * (5 / 4 : ℚ)) = (25 / 2 : ℚ) := by
    rw [toDouble_eq_of_near _ 3 7036874417766400 (by rw [abs_of_pos (by norm_num)]; norm_num)
      (by rw [abs_of_pos (by norm_num)]; norm_num) (by norm_num)
      (by rw [abs_lt]; constructor <;> norm_num)]
    norm_num
  have hm : mathRound (25 / 2 : ℚ) = 13 := by
    unfold mathRound
    rw [Int.floor_eq_iff]
    constructor <;> norm_num
  rw [roundMean_eval 25 2 _ _ _ 13 ha hb hy hm (by norm_num)]
  decide

/-- The mean 1.55 (`sum = 31`, `count = 2`): the double `10 * (3.1 / 2)` is 15.5. -/
theorem roundMean_tie_31_2 : roundMean (JsVal.num 31) 2 = js "1.6" := by
  have ha : toDouble (((31 : ℤ) : ℚ) / 10) = (6980579422424269 / 2251799813685248 : ℚ) := by
    rw [toDouble_eq_of_near _ 1 6980579422424269 (by rw [abs_of_pos (by norm_num)]; norm_num)
      (by rw [abs_of_pos (by norm_num)]; norm_num) (by norm_num)
      (by rw [abs_lt]; constructor <;> norm_num)]
    norm_num
  have hb : toDouble ((6980579422424269 / 2251799813685248 : ℚ) / ((2 : ℤ) : ℚ)) = (6980579422424269 / 4503599627370496 : ℚ) := by
    rw [toDouble_eq_of_near _ 0 6980579422424269 (by rw [abs_of_pos (by norm_num)]; norm_num)
      (by rw [abs_of_pos (by norm_num)]; norm_num) (by norm_num)
      (by rw [abs_lt]; constructor <;> norm_num)]
    norm_num
  have hy : toDouble (10 * (6980579422424269 / 4503599627370496 : ℚ)) = (31 / 2 : ℚ) := by
    rw [toDouble_eq_of_near _ 3 8725724278030336 (by rw [abs_of_pos (by norm_num)]; norm_num)
      (by rw [abs_of_pos (by norm_num)]; norm_num) (by norm_num)
      (by rw [abs_lt]; constructor <;> norm_num)]
    norm_num
  have hm : mathRound (31 / 2 : ℚ) = 16 := by
    unfold mathRound
    rw [Int.floor_eq_iff]
    constructor <;> norm_num
  rw [roundMean_eval 31 2 _ _ _ 16 ha hb hy hm (by norm_num)]
  decide

/-- The mean -1.55 (`sum = -31`, `count = 2`): the double `10 * (-3.1 / 2)` is
-15.5, which `Math.round` takes up to -15. -/
theorem roundMean_tie_neg_31_2 : roundMean (JsVal.num (-31)) 2 = js "-1.5" := by
  have ha : toDouble ((((-31) : ℤ) : ℚ) / 10) = (-6980579422424269 / 2251799813685248 : ℚ) := by
    rw [toDouble_eq_of_near _ 1 (-6980579422424269) (by rw [abs_of_neg (by norm_num)]; norm_num)
      (by rw [abs_of_neg (by norm_num)]; norm_num) (by norm_num)
      (by rw [abs_lt]; constructor <;> norm_num)]
    norm_num
  have hb : toDouble ((-6980579422424269 / 2251799813685248 : ℚ) / ((2 : ℤ) : ℚ)) = (-6980579422424269 / 4503599627370496 : ℚ) := by
    rw [toDouble_eq_of_near _ 0 (-6980579422424269) (by rw [abs_of_neg (by norm_num)]; norm_num)
      (by rw [abs_of_neg (by norm_num)]; norm_num) (by norm_num)
      (by rw [abs_lt]; constructor <;> norm_num)]
    norm_num
  have hy : toDouble (10 * (-6980579422424269 / 4503599627370496 : ℚ)) = (-31 / 2 : ℚ) := by
    rw [toDouble_eq_of_near _ 3 (-8725724278030336) (by rw [abs_of_neg (by norm_num)]; norm_num)
      (by rw [abs_of_neg (by norm_num)]; norm_num) (by norm_num)
      (by rw [abs_lt]; constructor <;> norm_num)]
    norm_num
  have hm : mathRound (-31 / 2 : ℚ) = (-15) := by
    unfold mathRound
    rw [Int.floor_eq_iff]
    constructor <;> norm_num
  rw [roundMean_eval (-31) 2 _ _ _ (-15) ha hb hy hm (by norm_num)]
  decide

/-- The mean 0.05 (`sum = 3`, `count = 6`): the double `10 * (0.3 / 6)` is
`0.49999999999999994`, below the tie. -/
theorem roundMean_tie_3_6 : roundMean (JsVal.num 3) 6 = js "0.0" := by
  have ha : toDouble (((3 : ℤ) : ℚ) / 10) = (5404319552844595 / 18014398509481984 : ℚ) := by
    rw [toDouble_eq_of_near _ (-2) 5404319552844595 (by rw [abs_of_pos (by norm_num)]; norm_num)
      (by rw [abs_of_pos (by norm_num)]; norm_num) (by norm_num)
      (by rw [abs_lt]; constructor <;> norm_num)]
    norm_num
  have hb : toDouble ((5404319552844595 / 18014398509481984 : ℚ) / ((6 : ℤ) : ℚ)) = (7205759403792793 / 144115188075855872 : ℚ) := by
    rw [toDouble_eq_of_near _ (-5) 7205759403792793 (by rw [abs_of_pos (by norm_num)]; norm_num)
      (by rw [abs_of_pos (by norm_num)]; norm_num) (by norm_num)
      (by rw [abs_lt]; constructor <;> norm_num)]
    norm_num
  have hy : toDouble (10 * (7205759403792793 / 144115188075855872 : ℚ)) = (9007199254740991 / 18014398509481984 : ℚ) := by
    rw [toDouble_eq_of_near _ (-2) 9007199254740991 (by rw [abs_of_pos (by norm_num)]; norm_num)
      (by rw [abs_of_pos (by norm_num)]; norm_num) (by norm_num)
      (by rw [abs_lt]; constructor <;> norm_num)]
    norm_num
  have hm : mathRound (9007199254740991 / 18014398509481984 : ℚ) = 0 := by
    unfold mathRound
    rw [Int.floor_eq_iff]
    constructor <;> norm_num
  rw [roundMean_eval 3 6 _ _ _ 0 ha hb hy hm (by norm_num)]
  decide

/-- The mean -0.35 (`sum = -21`, `count = 6`): the double `10 * (-2.1 / 6)` is
`-3.5000000000000004`, below the tie. -/
theorem roundMean_tie_neg_21_6 : roundMean (JsVal.num (-21)) 6 = js "-0.4" := by
  have ha : toDouble ((((-21) : ℤ) : ℚ) / 10) = (-4728779608739021 / 2251799813685248 : ℚ) := by
    rw [toDouble_eq_of_near _ 1 (-4728779608739021) (by rw [abs_of_neg (by norm_num)]; norm_num)
      (by rw [abs_of_neg (by norm_num)]; norm_num) (by norm_num)
      (by rw [abs_lt]; constructor <;> norm_num)]
    norm_num
  have hb : toDouble ((-4728779608739021 / 2251799813685248 : ℚ) / ((6 : ℤ) : ℚ)) = (-6305039478318695 / 18014398509481984 : ℚ) := by
    rw [toDouble_eq_of_near _ (-2) (-6305039478318695) (by rw [abs_of_neg (by norm_num)]; norm_num)
      (by rw [abs_of_neg (by norm_num)]; norm_num) (by norm_num)
      (by rw [abs_lt]; constructor <;> norm_num)]
    norm_num
  have hy : toDouble (10 * (-6305039478318695 / 18014398509481984 : ℚ)) = (-7881299347898369 / 2251799813685248 : ℚ) := by
    rw [toDouble_eq_of_near _ 1 (-7881299347898369) (by rw [abs_of_neg (by norm_num)]; norm_num)
      (by rw [abs_of_neg (by norm_num)]; norm_num) (by norm_num)
      (by rw [abs_lt]; constructor <;> norm_num)]
    norm_num
  have hm : mathRound (-7881299347898369 / 2251799813685248 : ℚ) = (-4) := by
    unfold mathRound
    rw [Int.floor_eq_iff]
    constructor <;> norm_num
  rw [roundMean_eval (-21) 6 _ _ _ (-4) ha hb hy hm (by norm_num)]
  decide

/-- C8 (as amended): for every record with an integer `sum` below `2^50` in
magnitude and a `count` between 1 and `2^53`, the mean rendered by the
formatter, `round(sum / 10 / count)` computed in doubles, is the decimal
numeral of a number of tenths `m` that is nearest to the exact rational
`sum / (10 * count)`.  When the exact mean is not a tie (not halfway between
two tenths), this is the exact mean rounded to one fractional digit, as the
specification says.  On a tie the formatter writes one of the two neighbouring
tenths; which one depends on the rounding errors of the double operations and
on `Math.round`, which takes a tie up: a mean of 1.25 renders `1.3`, 1.55
renders `1.6`, -1.55 (`sum = -31`, `count = 2`) renders `-1.5`, 0.05
(`sum = 3`, `count = 6`) renders `0.0` and -0.35 (`sum = -21`, `count = 6`)
renders `-0.4`. -/
theorem roundMean_nearest_tenth (sum count : ℤ) (hs : |sum| < 2 ^ 50) (h1 : 1 ≤ count)
    (h2 : count ≤ 2 ^ 53) :
    (∃ m : ℤ, roundMean (JsVal.num sum) count = fmtTenths m ∧
        |(m : ℚ) / 10 - (sum : ℚ) / (10 * count)| ≤ 1 / 20 ∧
        ((¬ ∃ k : ℤ, (sum : ℚ) / (10 * count) * 10 + 1 / 2 = k) →
          m = roundHalfAway ((sum : ℚ) / (10 * count)))) ∧
      roundMean (JsVal.num 25) 2 = js "1.3" ∧ roundMean (JsVal.num 31) 2 = js "1.6" ∧
      roundMean (JsVal.num (-31)) 2 = js "-1.5" ∧ roundMean (JsVal.num 3) 6 = js "0.0" ∧
      roundMean (JsVal.num (-21)) 6 = js "-0.4" := by
  have hc : (0 : ℚ) < count := by exact_mod_cast (by omega : (0 : ℤ) < count)
  obtain ⟨m, e, hm⟩ := roundMean_spec sum count hs h1 h2
  have et : (sum : ℚ) / (10 * count) * 10 = (sum : ℚ) / count := by
    field_simp
    ring
  refine ⟨⟨m, e, ?_, ?_⟩, roundMean_tie_25_2, roundMean_tie_31_2, roundMean_tie_neg_31_2,
    roundMean_tie_3_6, roundMean_tie_neg_21_6⟩
  · have e1 : (m : ℚ) / 10 - (sum : ℚ) / (10 * count) = ((m : ℚ) - (sum : ℚ) / count) / 10 := by
      field_simp
      ring
    rw [e1, abs_div, abs_of_pos (show (0 : ℚ) < 10 by norm_num)]
    linarith
  · intro htie
    rw [← roundHalfUp_eq_roundHalfAway _ (Or.inr htie)]
    unfold roundHalfUp
    rw [et]
    rw [et] at htie
    rw [abs_le] at hm
    symm
    rw [Int.floor_eq_iff]
    constructor
    · linarith
    · rcases lt_or_eq_of_le (show (sum : ℚ) / count + 1 / 2 ≤ (m : ℚ) + 1 by linarith)
        with h3 | h3
      · exact h3
      · exfalso
        apply htie
        refine ⟨m + 1, ?_⟩
        push_cast
        exact h3

/-- Witness for C8 at `sum = -31`, `count = 2`. -/
theorem roundMean_nearest_tenth_witness :
    ∃ m : ℤ, roundMean (JsVal.num (-31)) 2 = fmtTenths m ∧
      |(m : ℚ) / 10 - ((-31 : ℤ) : ℚ) / (10 * ((2 : ℤ) : ℚ))| ≤ 1 / 20 :=
  let ⟨m, h1, h2, _⟩ :=
    (roundMean_nearest_tenth (-31) 2 (by decide) (by decide) (by decide)).1
  ⟨m, h1, h2⟩

/-- C8 (counterexample): the record with `sum = -31` and `count = 2` has the
mean -1.55; the formatter writes `-1.5`, rounding half away from zero gives
`-1.6`.  The record with `sum = 3` and `count = 6` has the mean 0.05; the
formatter writes `0.0`, rounding half away from zero gives `0.1`. -/
theorem roundMean_ties_not_away :
    roundMean (JsVal.num (-31)) 2 = js "-1.5" ∧
      fmtTenths (roundHalfAway (((-31 : ℤ) : ℚ) / (10 * ((2 : ℤ) : ℚ)))) = js "-1.6" ∧
      roundMean (JsVal.num (-31)) 2 ≠
        fmtTenths (roundHalfAway (((-31 : ℤ) : ℚ) / (10 * ((2 : ℤ) : ℚ)))) ∧
      roundMean (JsVal.num 3) 6 = js "0.0" ∧
      fmtTenths (roundHalfAway (((3 : ℤ) : ℚ) / (10 * ((6 : ℤ) : ℚ)))) = js "0.1" ∧
      roundMean (JsVal.num 3) 6 ≠
        fmtTenths (roundHalfAway (((3 : ℤ) : ℚ) / (10 * ((6 : ℤ) : ℚ)))) := by
  have e2 : roundHalfAway (((-31 : ℤ) : ℚ) / (10 * ((2 : ℤ) : ℚ))) = -16 := by
    unfold roundHalfAway
    norm_num
  have e4 : roundHalfAway (((3 : ℤ) : ℚ) / (10 * ((6 : ℤ) : ℚ))) = 1 := by
    unfold roundHalfAway
    norm_num
  refine ⟨roundMean_tie_neg_31_2, ?_, ?_, roundMean_tie_3_6, ?_, ?_⟩
  · rw [e2]; decide
  · rw [roundMean_tie_neg_31_2, e2]; decide
  · rw [e4]; decide
  · rw [roundMean_tie_3_6, e4]; decide

end OneBrc

namespace OneBrc

/-! ## Claim C9 -/

theorem printLoop_false (m : JsMap) (l : List JsString) :
    printLoop m false l = (l.map (fun s => [44, 32] ++ printEntry m s)).flatten := by
  induction l with
  | nil => rfl
  | cons s l ih => simp [printLoop, ih]

theorem intercalate_cons (sep x : JsString) (xs : List JsString) :
    List.intercalate sep (x :: xs) = x ++ (xs.map (fun s => sep ++ s)).flatten := by
  induction xs generalizing x with
  | nil => simp [List.intercalate]
  | cons y ys ih =>
    have h := ih y
    simp only [List.intercalate, List.intersperse, List.flatten_cons, List.map_cons] at h ⊢
    rw [h]
    simp

/-- The loop of `printCompiledResults` writes the entries separated by `, `. -/
theorem printLoop_true (m : JsMap) (l : List JsString) :
    printLoop m true l = List.intercalate [44, 32] (l.map (printEntry m)) := by
  cases l with
  | nil => rfl
  | cons s l =>
    rw [List.map_cons, intercalate_cons, List.map_map]
    simp only [printLoop, printLoop_false, if_true, List.nil_append]
    rfl

theorem get_of_mem (m : JsMap) (h : m.keys.Nodup) (e : JsString × Rec) (he : e ∈ m) :
    m.get e.1 = some e.2 := by
  induction m with
  | nil => simp at he
  | cons e0 m ih =>
    obtain ⟨k0, v0⟩ := e0
    simp only [JsMap.keys, List.map_cons, List.nodup_cons] at h
    rcases List.mem_cons.1 he with he | he
    · subst he; simp [JsMap.get]
    · have hne : k0 ≠ e.1 := by
        intro hk
        apply h.1
        rw [hk]
        exact List.mem_map_of_mem _ he
      simp only [JsMap.get, if_neg hne]
      exact ih h.2 he

theorem mem_of_get (m : JsMap) (k : JsString) (v : Rec) (h : m.get k = some v) : (k, v) ∈ m := by
  induction m with
  | nil => simp [JsMap.get] at h
  | cons e0 m ih =>
    obtain ⟨k0, v0⟩ := e0
    by_cases hk : k0 = k
    · simp [JsMap.get, hk] at h
      simp [hk, h]
    · simp only [JsMap.get, if_neg hk] at h
      exact List.mem_cons_of_mem _ (ih h)

/-- The entry written for a record with integer fields, `min` and `max` below
`2^50` in magnitude. -/
theorem printEntry_int (m : JsMap) (s : JsString) (a b sm c : ℤ) (ha : |a| ≤ 2 ^ 50)
    (hb : |b| ≤ 2 ^ 50) (h : m.get s = some ⟨JsVal.num a, JsVal.num b, JsVal.num sm, c⟩) :
    printEntry m s = s ++ [61] ++ fmtTenths a ++ [47] ++
      roundMean (JsVal.num sm) c ++ [47] ++ fmtTenths b := by
  unfold printEntry
  rw [h]
  simp only [roundField_num a ha, roundField_num b hb]

/-- C9: for every aggregate with integer fields and counts of at least one,
`printCompiledResults` writes `{`, then one entry `key=min/mean/max` for each
key of the map (the stations are a duplicate-free rearrangement of its keys),
the entries separated by `, `, then `}` and a newline; each of the three
numeric fields has exactly one digit after its decimal point, `min` and `max`
being the decimal numerals of the stored tenths when these are below `2^50` in
magnitude, the range in which the double operations of `round` return the
tenths they were given (the parser stores tenths between -999 and 999).  For
the aggregate of the records `Hamburg;12.0`, `Hamburg;14.0`, `Berlin;-5.5` the
output is `{Berlin=B, Hamburg=12.0/13.0/14.0}` and a newline, where `B` stands
for `-5.5` written three times with `/` in between. -/
theorem printCompiledResults_format (m : JsMap) (hm : IsAggregate m) :
    (∃ stations : List JsString, stations.Perm m.keys ∧ stations.Nodup ∧
        printCompiledResults m =
          [123] ++ List.intercalate [44, 32] (stations.map (printEntry m)) ++ [125, 10] ∧
        ∀ s ∈ stations, ∃ (a b : ℤ) (fmin mean fmax : JsString) (rec : Rec),
          m.get s = some rec ∧ rec.min = JsVal.num a ∧ rec.max = JsVal.num b ∧
          printEntry m s = s ++ [61] ++ fmin ++ [47] ++ mean ++ [47] ++ fmax ∧
          HasOneFractionDigit fmin ∧ HasOneFractionDigit mean ∧ HasOneFractionDigit fmax ∧
          (|a| ≤ 2 ^ 50 → fmin = fmtTenths a) ∧ (|b| ≤ 2 ^ 50 → fmax = fmtTenths b)) ∧
      printCompiledResults
          (parseStream [] [] [bytes "Hamburg;12.0\nHamburg;14.0\nBerlin;-5.5\n"]) =
        js "\x7bBerlin=-5.5/-5.5/-5.5, Hamburg=12.0/13.0/14.0\x7d\n" := by
  constructor
  · have hperm : (sortedStations m).Perm m.keys := List.perm_insertionSort _ _
    refine ⟨sortedStations m, hperm, hperm.nodup_iff.2 hm.1, ?_, ?_⟩
    · rw [printCompiledResults, printLoop_true]
    · intro s hs
      have hs' : s ∈ m.keys := hperm.mem_iff.1 hs
      obtain ⟨e, he, rfl⟩ := List.mem_map.1 hs'
      obtain ⟨⟨a, b, sm, h1, h2, h3⟩, _⟩ := hm.2 e he
      have hg := get_of_mem m hm.1 e he
      refine ⟨a, b, roundField (JsVal.num a), roundMean (JsVal.num sm) e.2.count,
        roundField (JsVal.num b), e.2, hg, h1, h2, ?_, round_shape _, round_shape _,
        round_shape _, fun ha => roundField_num a ha, fun hb => roundField_num b hb⟩
      unfold printEntry
      rw [hg]
      simp only [h1, h2, h3]
  · have hmap : parseStream [] [] [bytes "Hamburg;12.0\nHamburg;14.0\nBerlin;-5.5\n"] =
        [(js "Hamburg", ⟨JsVal.num 120, JsVal.num 140, JsVal.num 260, 2⟩),
          (js "Berlin", ⟨JsVal.num (-55), JsVal.num (-55), JsVal.num (-55), 1⟩)] := by decide
    have hsort : sortedStations
        [(js "Hamburg", ⟨JsVal.num 120, JsVal.num 140, JsVal.num 260, 2⟩),
          (js "Berlin", ⟨JsVal.num (-55), JsVal.num (-55), JsVal.num (-55), 1⟩)] =
        [js "Berlin", js "Hamburg"] := by decide
    rw [hmap, printCompiledResults, hsort]
    simp only [printLoop]
    rw [printEntry_int _ (js "Berlin") (-55) (-55) (-55) 1 (by decide) (by decide) (by decide),
      printEntry_int _ (js "Hamburg") 120 140 260 2 (by decide) (by decide) (by decide),
      roundMean_of_dvd (-55) 1 (-55) (by decide) (by decide) (by decide) (by decide),
      roundMean_of_dvd 260 2 130 (by decide) (by decide) (by decide) (by decide)]
    decide

end OneBrc

namespace OneBrc

/-! ## Claim C10 -/

theorem strLt_append_left (p u v : List Nat) : strLt (p ++ u) (p ++ v) = strLt u v := by
  induction p with
  | nil => rfl
  | cons c p ih => simp [strLt, ih]

theorem utf8Bytes_ne_nil (c : Nat) : utf8Bytes c ≠ [] := by
  unfold utf8Bytes
  split
  · simp
  · split
    · simp
    · split <;> simp

/-- The UTF-8 encoding is monotone on code points below `0x10000`, and the two
encodings differ inside both. -/
theorem strLt_utf8Bytes (c d : Nat) (hcd : c < d) (hd : d < 0x10000) (u v : List Nat) :
    strLt (utf8Bytes c ++ u) (utf8Bytes d ++ v) = true := by
  unfold utf8Bytes
  by_cases c1 : c < 0x80
  · by_cases d1 : d < 0x80
    · simp [c1, d1, strLt, hcd]
    · by_cases d2 : d < 0x800
      · simp only [c1, d1, d2, if_true, if_false, List.cons_append, List.nil_append, strLt]
        simp; omega
      · have d3 : d < 0x10000 := hd
        simp only [c1, d1, d2, d3, if_true, if_false, List.cons_append, List.nil_append, strLt]
        simp; omega
  · have d1 : ¬ d < 0x80 := by omega
    by_cases c2 : c < 0x800
    · by_cases d2 : d < 0x800
      · simp only [c1, c2, d1, d2, if_true, if_false, List.cons_append, List.nil_append, strLt]
        by_cases h1 : c / 64 < d / 64
        · simp; omega
        · have e1 : c / 64 = d / 64 := by omega
          have e2 : c % 64 < d % 64 := by omega
          simp [e1, e2]
      · have d3 : d < 0x10000 := hd
        simp only [c1, c2, d1, d2, d3, if_true, if_false, List.cons_append, List.nil_append,
          strLt]
        simp; omega
    · have d2 : ¬ d < 0x800 := by omega
      have d3 : d < 0x10000 := hd
      have c3 : c < 0x10000 := by omega
      simp only [c1, c2, c3, d1, d2, d3, if_true, if_false, List.cons_append, List.nil_append,
        strLt]
      by_cases h1 : c / 4096 < d / 4096
      · simp; omega
      · have e1 : c / 4096 = d / 4096 := by omega
        by_cases h2 : c / 64 % 64 < d / 64 % 64
        · simp [e1, h2]
        · have e2 : c / 64 % 64 = d / 64 % 64 := by omega
          have e3 : c % 64 < d % 64 := by omega
          simp [e1, e2, e3]

/-- On strings of code units below `0x10000`, encoded unit by unit, the UTF-8
byte order is the code unit order. -/
theorem strLt_flatMap_utf8Bytes (a : List Nat) : ∀ (b : List Nat), (∀ u ∈ b, u < 0x10000) →
    strLt a b = true → strLt (a.flatMap utf8Bytes) (b.flatMap utf8Bytes) = true := by
  induction a with
  | nil =>
    intro b _ h
    cases b with
    | nil => simp [strLt] at h
    | cons d bs =>
      simp only [List.flatMap_cons, List.flatMap_nil]
      cases hd : utf8Bytes d with
      | nil => exact absurd hd (utf8Bytes_ne_nil d)
      | cons x xs => simp [strLt]
  | cons c as ih =>
    intro b hb h
    cases b with
    | nil => simp [strLt] at h
    | cons d bs =>
      simp only [strLt, Bool.or_eq_true, Bool.and_eq_true, decide_eq_true_eq] at h
      simp only [List.flatMap_cons]
      rcases h with h | ⟨h1, h2⟩
      · exact strLt_utf8Bytes c d h (hb d (List.mem_cons_self _ _)) _ _
      · subst h1
        rw [strLt_append_left]
        exact ih bs (fun u hu => hb u (List.mem_cons_of_mem _ hu)) h2

theorem codePoints_of_bmp (s : JsString) : (∀ u ∈ s, isBmpScalar u) → codePoints s = s := by
  induction s with
  | nil => intro _; rfl
  | cons u tl ih =>
    intro h
    cases tl with
    | nil => rfl
    | cons v rest =>
      have hu : isBmpScalar u := h u (List.mem_cons_self _ _)
      have hne : ¬ (0xD800 ≤ u ∧ u < 0xDC00 ∧ 0xDC00 ≤ v ∧ v < 0xE000) := by
        unfold isBmpScalar at hu
        omega
      unfold codePoints
      rw [if_neg hne, ih (fun x hx => h x (List.mem_cons_of_mem _ hx))]

/-- The stations are written in strictly ascending code unit order. -/
theorem sortedStations_strict (m : JsMap) (hm : m.keys.Nodup) :
    (sortedStations m).Sorted (fun a b => strLt a b = true) := by
  have h1 : (sortedStations m).Sorted strLe := sorted_sortedStations m
  have h2 : (sortedStations m).Nodup := (List.perm_insertionSort _ _).nodup_iff.2 hm
  exact (List.Pairwise.and h1 h2).imp (fun {a b} h => by
    cases hlt : strLt a b
    · exact absurd (strLt_trichotomy a b hlt h.1) h.2
    · rfl)

end OneBrc

namespace OneBrc

/-- C10 (as amended): for every aggregate, the keys appear in the output of
`printCompiledResults` in strictly ascending order of their UTF-16 code unit
sequences, each key once; when no key has a character outside the Basic
Multilingual Plane, this is the strictly ascending order of their code point
sequences and of their UTF-8 byte sequences. -/
theorem sortedStations_ascending (m : JsMap) (hm : m.keys.Nodup) :
    printCompiledResults m =
        [123] ++ List.intercalate [44, 32] ((sortedStations m).map (printEntry m)) ++
          [125, 10] ∧
      (sortedStations m).Perm m.keys ∧
      (sortedStations m).Sorted (fun a b => strLt a b = true) ∧
      ((∀ k ∈ m.keys, ∀ u ∈ k, isBmpScalar u) →
        (sortedStations m).Sorted (fun a b => strLt (codePoints a) (codePoints b) = true) ∧
        (sortedStations m).Sorted (fun a b => strLt (utf8Of a) (utf8Of b) = true)) := by
  have hperm : (sortedStations m).Perm m.keys := List.perm_insertionSort _ _
  have hstrict := sortedStations_strict m hm
  refine ⟨by rw [printCompiledResults, printLoop_true], hperm, hstrict, ?_⟩
  intro hbmp
  have hcp : ∀ a ∈ sortedStations m, codePoints a = a := fun a ha =>
    codePoints_of_bmp a (hbmp a (hperm.mem_iff.1 ha))
  have hlt : ∀ a ∈ sortedStations m, ∀ u ∈ a, u < 0x10000 := by
    intro a ha u hu
    have := hbmp a (hperm.mem_iff.1 ha) u hu
    unfold isBmpScalar at this
    omega
  constructor
  · refine List.Pairwise.imp_of_mem ?_ hstrict
    intro a b ha hb h
    rw [hcp a ha, hcp b hb]
    exact h
  · refine List.Pairwise.imp_of_mem ?_ hstrict
    intro a b ha hb h
    unfold utf8Of
    rw [hcp a ha, hcp b hb]
    exact strLt_flatMap_utf8Bytes a b (hlt b hb) h

/-- Witness for C10 on the map of the end-to-end example. -/
theorem sortedStations_ascending_witness :
    (sortedStations [(js "Hamburg", ⟨JsVal.num 120, JsVal.num 140, JsVal.num 260, 2⟩),
        (js "Berlin", ⟨JsVal.num (-55), JsVal.num (-55), JsVal.num (-55), 1⟩)]).Sorted
      (fun a b => strLt a b = true) :=
  (sortedStations_ascending
    [(js "Hamburg", ⟨JsVal.num 120, JsVal.num 140, JsVal.num 260, 2⟩),
      (js "Berlin", ⟨JsVal.num (-55), JsVal.num (-55), JsVal.num (-55), 1⟩)] (by decide)).2.2.1

/-- C10 (counterexample): a file with the keys U+FF5E (bytes `EF BD 9E`) and
U+1F600 (bytes `F0 9F 98 80`, code units `D83D DE00`).  The key U+1F600 is
written first although U+FF5E is smaller as a code point sequence and as a
UTF-8 byte sequence. -/
theorem sortedStations_non_bmp :
    (parseStream [] []
        [[0xEF, 0xBD, 0x9E] ++ bytes ";1.0\n" ++ [0xF0, 0x9F, 0x98, 0x80] ++ bytes ";2.0\n"]) =
      [([0xFF5E], ⟨JsVal.num 10, JsVal.num 10, JsVal.num 10, 1⟩),
        ([0xD83D, 0xDE00], ⟨JsVal.num 20, JsVal.num 20, JsVal.num 20, 1⟩)] ∧
    sortedStations [([0xFF5E], ⟨JsVal.num 10, JsVal.num 10, JsVal.num 10, 1⟩),
        ([0xD83D, 0xDE00], ⟨JsVal.num 20, JsVal.num 20, JsVal.num 20, 1⟩)] =
      [[0xD83D, 0xDE00], [0xFF5E]] ∧
    printCompiledResults [([0xFF5E], ⟨JsVal.num 10, JsVal.num 10, JsVal.num 10, 1⟩),
        ([0xD83D, 0xDE00], ⟨JsVal.num 20, JsVal.num 20, JsVal.num 20, 1⟩)] =
      [123, 0xD83D, 0xDE00] ++ js "=2.0/2.0/2.0, " ++ [0xFF5E] ++ js "=1.0/1.0/1.0\x7d\n" ∧
    codePoints [0xFF5E] = [0xFF5E] ∧ codePoints [0xD83D, 0xDE00] = [0x1F600] ∧
    utf8Of [0xFF5E] = [0xEF, 0xBD, 0x9E] ∧ utf8Of [0xD83D, 0xDE00] = [0xF0, 0x9F, 0x98, 0x80] ∧
    strLt (codePoints [0xFF5E]) (codePoints [0xD83D, 0xDE00]) = true ∧
    strLt (utf8Of [0xFF5E]) (utf8Of [0xD83D, 0xDE00]) = true ∧
    ¬ (sortedStations [([0xFF5E], ⟨JsVal.num 10, JsVal.num 10, JsVal.num 10, 1⟩),
        ([0xD83D, 0xDE00], ⟨JsVal.num 20, JsVal.num 20, JsVal.num 20, 1⟩)]).Sorted
      (fun a b => strLt (codePoints a) (codePoints b) = true) ∧
    ¬ (sortedStations [([0xFF5E], ⟨JsVal.num 10, JsVal.num 10, JsVal.num 10, 1⟩),
        ([0xD83D, 0xDE00], ⟨JsVal.num 20, JsVal.num 20, JsVal.num 20, 1⟩)]).Sorted
      (fun a b => strLt (utf8Of a) (utf8Of b) = true) := by
  have hsort : sortedStations [([0xFF5E], ⟨JsVal.num 10, JsVal.num 10, JsVal.num 10, 1⟩),
        ([0xD83D, 0xDE00], ⟨JsVal.num 20, JsVal.num 20, JsVal.num 20, 1⟩)] =
      [[0xD83D, 0xDE00], [0xFF5E]] := by decide
  refine ⟨by decide, hsort, ?_, by decide, by decide, by decide, by decide, by decide,
    by decide, ?_, ?_⟩
  · rw [printCompiledResults, hsort]
    simp only [printLoop]
    rw [printEntry_int _ [0xD83D, 0xDE00] 20 20 20 1 (by decide) (by decide) (by decide),
      printEntry_int _ [0xFF5E] 10 10 10 1 (by decide) (by decide) (by decide),
      roundMean_of_dvd 20 1 20 (by decide) (by decide) (by decide) (by decide),
      roundMean_of_dvd 10 1 10 (by decide) (by decide) (by decide) (by decide)]
    decide
  · rw [hsort]; decide
  · rw [hsort]; decide

end OneBrc

namespace OneBrc

/-- Witness for C9 on the map of the end-to-end example. -/
theorem printCompiledResults_format_witness :
    ∃ stations : List JsString,
      stations.Perm (JsMap.keys
        [(js "Hamburg", ⟨JsVal.num 120, JsVal.num 140, JsVal.num 260, 2⟩),
          (js "Berlin", ⟨JsVal.num (-55), JsVal.num (-55), JsVal.num (-55), 1⟩)]) ∧
      stations.Nodup ∧
      printCompiledResults
          [(js "Hamburg", ⟨JsVal.num 120, JsVal.num 140, JsVal.num 260, 2⟩),
            (js "Berlin", ⟨JsVal.num (-55), JsVal.num (-55), JsVal.num (-55), 1⟩)] =
        [123] ++ List.intercalate [44, 32] (stations.map (printEntry
          [(js "Hamburg", ⟨JsVal.num 120, JsVal.num 140, JsVal.num 260, 2⟩),
            (js "Berlin", ⟨JsVal.num (-55), JsVal.num (-55), JsVal.num (-55), 1⟩)])) ++
          [125, 10] := by
  obtain ⟨stations, h1, h2, h3, _⟩ := (printCompiledResults_format
    [(js "Hamburg", ⟨JsVal.num 120, JsVal.num 140, JsVal.num 260, 2⟩),
      (js "Berlin", ⟨JsVal.num (-55), JsVal.num (-55), JsVal.num (-55), 1⟩)]
    ⟨by decide, by
      intro e he
      simp only [List.mem_cons, List.mem_singleton, List.not_mem_nil, or_false] at he
      rcases he with rfl | rfl
      · exact ⟨⟨120, 140, 260, rfl, rfl, rfl⟩, by decide⟩
      · exact ⟨⟨-55, -55, -55, rfl, rfl, rfl⟩, by decide⟩⟩).1
  exact ⟨stations, h1, h2, h3⟩

end OneBrc

namespace OneBrc

/-! ## Decoding well-formed UTF-8 -/

theorem utf8Run_cons (s : Utf8State) (b : Nat) (bs : List Nat) :
    utf8Run s (b :: bs) = (utf8Step s b).2 ++ utf8Run (utf8Step s b).1 bs := rfl

theorem utf8Step_init (b : Nat) : utf8Step {} b = utf8Start b := by
  simp [utf8Step]

theorem utf8Step_last (c seen lo hi b : Nat) (h1 : lo ≤ b) (h2 : b ≤ hi) :
    utf8Step ⟨c, seen, seen + 1, lo, hi⟩ b = ({}, [c * 64 + b % 64]) := by
  unfold utf8Step
  simp only []
  rw [if_neg (by omega), if_neg (by omega)]
  rfl

theorem utf8Step_more (c seen needed lo hi b : Nat) (h0 : needed ≠ 0) (h1 : lo ≤ b)
    (h2 : b ≤ hi) (h3 : seen + 1 ≠ needed) :
    utf8Step ⟨c, seen, needed, lo, hi⟩ b =
      (⟨c * 64 + b % 64, seen + 1, needed, 0x80, 0xBF⟩, []) := by
  unfold utf8Step
  simp only []
  rw [if_neg h0, if_neg (by omega), if_neg h3]

theorem utf8Start_ascii (b : Nat) (h : b ≤ 0x7F) : utf8Start b = ({}, [b]) := by
  unfold utf8Start
  rw [if_pos h]

theorem utf8Start_two (b : Nat) (h1 : 0xC2 ≤ b) (h2 : b ≤ 0xDF) :
    utf8Start b = (⟨b % 32, 0, 1, 0x80, 0xBF⟩, []) := by
  unfold utf8Start
  rw [if_neg (by omega), if_pos ⟨h1, h2⟩]

theorem utf8Start_three (b : Nat) (h1 : 0xE0 ≤ b) (h2 : b ≤ 0xEF) :
    utf8Start b = (⟨b % 16, 0, 2, if b = 0xE0 then 0xA0 else 0x80,
      if b = 0xED then 0x9F else 0xBF⟩, []) := by
  unfold utf8Start
  rw [if_neg (by omega), if_neg (by omega), if_pos ⟨h1, h2⟩]

theorem utf8Start_four (b : Nat) (h1 : 0xF0 ≤ b) (h2 : b ≤ 0xF4) :
    utf8Start b = (⟨b % 8, 0, 3, if b = 0xF0 then 0x90 else 0x80,
      if b = 0xF4 then 0x8F else 0xBF⟩, []) := by
  unfold utf8Start
  rw [if_neg (by omega), if_neg (by omega), if_neg (by omega), if_pos ⟨h1, h2⟩]

/-- The decoder reads the encoding of a scalar value back as that value. -/
theorem utf8Run_utf8Bytes (cp : Nat) (h : isScalar cp) (rest : List Nat) :
    utf8Run {} (utf8Bytes cp ++ rest) = cp :: utf8Run {} rest := by
  unfold isScalar at h
  unfold utf8Bytes
  by_cases c1 : cp < 0x80
  · rw [if_pos c1]
    simp only [List.cons_append, List.nil_append, utf8Run_cons, utf8Step_init]
    rw [utf8Start_ascii cp (by omega)]
    rfl
  · rw [if_neg c1]
    by_cases c2 : cp < 0x800
    · rw [if_pos c2]
      simp only [List.cons_append, List.nil_append, utf8Run_cons, utf8Step_init]
      rw [utf8Start_two _ (by omega) (by omega)]
      simp only [List.nil_append]
      rw [utf8Step_last _ 0 _ _ _ (by omega) (by omega)]
      simp only [List.cons_append, List.nil_append]
      congr 1
      omega
    · rw [if_neg c2]
      by_cases c3 : cp < 0x10000
      · rw [if_pos c3]
        simp only [List.cons_append, List.nil_append, utf8Run_cons, utf8Step_init]
        rw [utf8Start_three _ (by omega) (by omega)]
        simp only [List.nil_append]
        rw [utf8Step_more _ 0 2 _ _ _ (by decide) (by split <;> omega) (by split <;> omega)
          (by decide)]
        simp only [List.nil_append]
        rw [utf8Step_last _ 1 _ _ _ (by omega) (by omega)]
        simp only [List.cons_append, List.nil_append]
        congr 1
        omega
      · rw [if_neg c3]
        simp only [List.cons_append, List.nil_append, utf8Run_cons, utf8Step_init]
        rw [utf8Start_four _ (by omega) (by omega)]
        simp only [List.nil_append]
        rw [utf8Step_more _ 0 3 _ _ _ (by decide) (by split <;> omega) (by split <;> omega)
          (by decide)]
        simp only [List.nil_append]
        rw [utf8Step_more _ 1 3 _ _ _ (by decide) (by omega) (by omega) (by decide)]
        simp only [List.nil_append]
        rw [utf8Step_last _ 2 _ _ _ (by omega) (by omega)]
        simp only [List.cons_append, List.nil_append]
        congr 1
        omega

theorem utf8Run_flatMap_utf8Bytes (cps : List Nat) (h : ∀ c ∈ cps, isScalar c) :
    utf8Run {} (cps.flatMap utf8Bytes) = cps := by
  induction cps with
  | nil => rfl
  | cons c cps ih =>
    rw [List.flatMap_cons, utf8Run_utf8Bytes c (h c (List.mem_cons_self _ _)),
      ih (fun x hx => h x (List.mem_cons_of_mem _ hx))]

/-- The UTF-16 encoding of scalar values is injective. -/
theorem flatMap_utf16Units_injective (a : List Nat) : ∀ (b : List Nat),
    (∀ c ∈ a, isScalar c) → (∀ c ∈ b, isScalar c) →
    a.flatMap utf16Units = b.flatMap utf16Units → a = b := by
  induction a with
  | nil =>
    intro b _ _ h
    cases b with
    | nil => rfl
    | cons y ys =>
      exfalso
      simp only [List.flatMap_nil, List.flatMap_cons, utf16Units] at h
      split at h <;> simp at h
  | cons x xs ih =>
    intro b ha hb h
    cases b with
    | nil =>
      exfalso
      simp only [List.flatMap_nil, List.flatMap_cons, utf16Units] at h
      split at h <;> simp at h
    | cons y ys =>
      have hx := ha x (List.mem_cons_self _ _)
      have hy := hb y (List.mem_cons_self _ _)
      unfold isScalar at hx hy
      simp only [List.flatMap_cons, utf16Units] at h
      have key : x = y ∧ xs.flatMap utf16Units = ys.flatMap utf16Units := by
        by_cases x1 : x < 0x10000
        · by_cases y1 : y < 0x10000
          · rw [if_pos x1, if_pos y1] at h
            simp at h
            exact h
          · rw [if_pos x1, if_neg y1] at h
            simp at h
            omega
        · by_cases y1 : y < 0x10000
          · rw [if_neg x1, if_pos y1] at h
            simp at h
            omega
          · rw [if_neg x1, if_neg y1] at h
            simp at h
            exact ⟨by omega, h.2.2⟩
      rw [key.1, ih ys (fun c hc => ha c (List.mem_cons_of_mem _ hc))
        (fun c hc => hb c (List.mem_cons_of_mem _ hc)) key.2]

/-- Distinct well-formed UTF-8 keys decode to distinct strings. -/
theorem keyString_injective_of_valid (k1 k2 : List Nat) (h1 : IsValidUtf8 k1)
    (h2 : IsValidUtf8 k2) (h : keyString k1 = keyString k2) : k1 = k2 := by
  obtain ⟨a, ha, rfl⟩ := h1
  obtain ⟨b, hb, rfl⟩ := h2
  unfold keyString at h
  rw [utf8Run_flatMap_utf8Bytes a ha, utf8Run_flatMap_utf8Bytes b hb] at h
  rw [flatMap_utf16Units_injective a b ha hb h]

end OneBrc

namespace OneBrc

/-- Records with well-formed UTF-8 keys satisfy the decoding hypothesis of
the per-key aggregation: distinct keys decode to distinct strings. -/
theorem keys_decode_injectively (rs : List Record) (h : ∀ r ∈ rs, IsValidUtf8 r.key) :
    ∀ r1 ∈ rs, ∀ r2 ∈ rs, keyString r1.key = keyString r2.key → r1.key = r2.key :=
  fun r1 h1 r2 h2 hk => keyString_injective_of_valid r1.key r2.key (h r1 h1) (h r2 h2) hk

end OneBrc

namespace OneBrc

/-! ## Claim C11 -/

theorem getElem?_streamBytes (file : List Nat) (start end_ : Int) (_h0 : 0 ≤ start)
    (hlt : start < end_) (i : Nat) :
    (streamBytes file start (end_ - 1))[i]? =
      if start + i < end_ then file[start.toNat + i]? else none := by
  unfold streamBytes
  rw [List.getElem?_take]
  have e : (end_ - 1 + 1 - start).toNat = (end_ - start).toNat := by congr 1; ring
  rw [e]
  by_cases h : start + i < end_
  · rw [if_pos h, if_pos (by omega), List.getElem?_drop]
  · rw [if_neg h, if_neg (by omega)]

/-- C11: for all integers `start` and `end`, the worker posts an empty map
without opening a stream if and only if `start >= end`; when `start < end` it
opens a stream with the inclusive bounds `start` and `end - 1`, the positions
`p` with `start <= p < end`, and (for a position `start >= 0` of a file) the
stream delivers exactly the bytes of the file at these positions, in order. -/
theorem workerEntry_spec (start end_ : Int) :
    (workerEntry start end_ = WorkerAction.postEmpty ↔ start ≥ end_) ∧
      (start < end_ → workerEntry start end_ = WorkerAction.readStream start (end_ - 1)) ∧
      (∀ p : Int, (start ≤ p ∧ p ≤ end_ - 1) ↔ (start ≤ p ∧ p < end_)) ∧
      (∀ (file junk1 junk2 : List Nat) (slice : List Nat → List (List Nat)),
        start ≥ end_ → workerPosted file junk1 junk2 slice start end_ = []) ∧
      (∀ file : List Nat, 0 ≤ start → start < end_ → ∀ i : Nat,
        (streamBytes file start (end_ - 1))[i]? =
          if start + i < end_ then file[start.toNat + i]? else none) := by
  refine ⟨?_, ?_, ?_, ?_, ?_⟩
  · unfold workerEntry
    constructor
    · intro h
      split at h
      · omega
      · cases h
    · intro h
      rw [if_pos (by omega)]
  · intro h
    unfold workerEntry
    rw [if_neg (by omega)]
  · intro p
    constructor <;> rintro ⟨h1, h2⟩ <;> exact ⟨h1, by omega⟩
  · intro file junk1 junk2 slice h
    unfold workerPosted workerEntry
    rw [if_pos (by omega)]
  · intro file h0 hlt i
    exact getElem?_streamBytes file start end_ h0 hlt i

/-- Witness for C11: the interval `[6, 12)` of a twelve-byte file. -/
theorem workerEntry_spec_witness :
    workerEntry 6 12 = WorkerAction.readStream 6 11 ∧
      streamBytes (bytes "a;1.0\nb;2.0\n") 6 11 = bytes "b;2.0\n" ∧
      (streamBytes (bytes "a;1.0\nb;2.0\n") 6 (12 - 1))[2]? =
        if (6 : Int) + (2 : Nat) < 12 then (bytes "a;1.0\nb;2.0\n")[(6 : Int).toNat + 2]?
        else none :=
  ⟨(workerEntry_spec 6 12).2.1 (by decide), by decide,
    (workerEntry_spec 6 12).2.2.2.2 (bytes "a;1.0\nb;2.0\n") (by decide) (by decide) 2⟩

/-! ## Claim C16 -/

theorem foldl_parseChunk_flatten (events : List (List Nat)) : ∀ (st : ParserState),
    events.foldl parseChunk st = parseChunk st events.flatten := by
  induction events with
  | nil => intro st; rfl
  | cons e events ih =>
    intro st
    rw [List.foldl_cons, ih, List.flatten_cons, parseChunk_append]

/-- C16: for every parser state and all byte sequences `a` and `b`, `parseChunk`
on `a` and then on `b` leaves the parser in the state (map, token kind, both
lengths and both scratch buffers) that one call on `a ++ b` leaves; the map
posted at the end of the stream depends only on the bytes of the stream, not on
the way they are cut into `data` events. -/
theorem parseChunk_split_irrelevant (st : ParserState) (a b : List Nat) :
    parseChunk (parseChunk st a) b = parseChunk st (a ++ b) ∧
      ∀ (junk1 junk2 : List Nat) (events : List (List Nat)),
        parseStream junk1 junk2 events = parseStream junk1 junk2 [events.flatten] := by
  refine ⟨(parseChunk_append st a b).symm, ?_⟩
  intro junk1 junk2 events
  unfold parseStream
  rw [foldl_parseChunk_flatten]
  rfl

end OneBrc

namespace OneBrc

/-! ## Claim C12 -/

theorem mem_set (m : JsMap) (k : JsString) (v : Rec) (e : JsString × Rec)
    (he : e ∈ m.set k v) : e ∈ m ∨ e = (k, v) := by
  induction m with
  | nil =>
    simp only [JsMap.set, List.mem_singleton] at he
    exact Or.inr he
  | cons e0 m ih =>
    obtain ⟨k0, v0⟩ := e0
    unfold JsMap.set at he
    split at he
    · rename_i hk
      rcases List.mem_cons.1 he with h | h
      · exact Or.inr (by rw [h, hk])
      · exact Or.inl (List.mem_cons_of_mem _ h)
    · rcases List.mem_cons.1 he with h | h
      · exact Or.inl (by rw [h]; exact List.mem_cons_self _ _)
      · rcases ih h with h' | h'
        · exact Or.inl (List.mem_cons_of_mem _ h')
        · exact Or.inr h'

theorem recInvariant_newRec (v : Int) : RecInvariant (newRec (JsVal.num v)) :=
  ⟨v, v, v, rfl, rfl, rfl, by simp [newRec], le_refl _, by simp [newRec], by simp [newRec]⟩

theorem recInvariant_updateRec (r : Rec) (v : Int) (h : RecInvariant r) :
    RecInvariant (updateRec r (JsVal.num v)) := by
  obtain ⟨mn, mx, s, h1, h2, h3, hc, hle, hlo, hhi⟩ := h
  have e : r = ⟨JsVal.num mn, JsVal.num mx, JsVal.num s, r.count⟩ := by
    rw [← h1, ← h2, ← h3]
  rw [e, updateRec_num]
  refine ⟨min mn v, max mx v, s + v, rfl, rfl, rfl, by simp only []; omega,
    le_trans (min_le_left _ _) (le_trans hle (le_max_left _ _)), ?_, ?_⟩
  · simp only []
    have a1 : min mn v * r.count ≤ mn * r.count :=
      mul_le_mul_of_nonneg_right (min_le_left _ _) (by omega)
    have a2 : min mn v ≤ v := min_le_right _ _
    rw [mul_add, mul_one]
    omega
  · simp only []
    have a1 : mx * r.count ≤ max mx v * r.count :=
      mul_le_mul_of_nonneg_right (le_max_left _ _) (by omega)
    have a2 : v ≤ max mx v := le_max_right _ _
    rw [mul_add, mul_one]
    omega

theorem recInvariant_mergeRec (a b : Rec) (ha : RecInvariant a) (hb : RecInvariant b) :
    RecInvariant (mergeRec a b) := by
  obtain ⟨mn1, mx1, s1, h1, h2, h3, hc1, hle1, hlo1, hhi1⟩ := ha
  obtain ⟨mn2, mx2, s2, g1, g2, g3, hc2, hle2, hlo2, hhi2⟩ := hb
  refine ⟨min mn1 mn2, max mx1 mx2, s1 + s2, by simp [mergeRec, h1, g1, JsVal.mathMin],
    by simp [mergeRec, h2, g2, JsVal.mathMax], by simp [mergeRec, h3, g3, JsVal.add],
    by simp only [mergeRec]; omega,
    le_trans (min_le_left _ _) (le_trans hle1 (le_max_left _ _)), ?_, ?_⟩
  · simp only [mergeRec]
    have a1 : min mn1 mn2 * a.count ≤ mn1 * a.count :=
      mul_le_mul_of_nonneg_right (min_le_left _ _) (by omega)
    have a2 : min mn1 mn2 * b.count ≤ mn2 * b.count :=
      mul_le_mul_of_nonneg_right (min_le_right _ _) (by omega)
    rw [mul_add]
    omega
  · simp only [mergeRec]
    have a1 : mx1 * a.count ≤ max mx1 mx2 * a.count :=
      mul_le_mul_of_nonneg_right (le_max_left _ _) (by omega)
    have a2 : mx2 * b.count ≤ max mx1 mx2 * b.count :=
      mul_le_mul_of_nonneg_right (le_max_right _ _) (by omega)
    rw [mul_add]
    omega

theorem mapInvariant_aggregate (m : JsMap) (k : JsString) (v : Int) (h : MapInvariant m) :
    MapInvariant (aggregate m k (JsVal.num v)) := by
  intro e he
  unfold aggregate at he
  cases hg : m.get k with
  | none =>
    rw [hg] at he
    rcases mem_set _ _ _ _ he with h' | h'
    · exact h e h'
    · rw [h']; exact recInvariant_newRec v
  | some existing =>
    rw [hg] at he
    rcases mem_set _ _ _ _ he with h' | h'
    · exact h e h'
    · rw [h']
      exact recInvariant_updateRec existing v (h _ (mem_of_get m k existing hg))

theorem mapInvariant_finalizeAll (kvs : List (JsString × Int)) : ∀ (m : JsMap),
    MapInvariant m → MapInvariant (finalizeAll m kvs) := by
  induction kvs with
  | nil => intro m h; exact h
  | cons kv kvs ih => intro m h; exact ih _ (mapInvariant_aggregate m kv.1 kv.2 h)

theorem mapInvariant_mergeEntry (g : JsMap) (e : JsString × Rec) (hg : MapInvariant g)
    (he : RecInvariant e.2) : MapInvariant (mergeEntry g e) := by
  intro x hx
  unfold mergeEntry at hx
  cases hget : g.get e.1 with
  | none =>
    rw [hget] at hx
    rcases mem_set _ _ _ _ hx with h' | h'
    · exact hg x h'
    · rw [h']; exact he
  | some existing =>
    rw [hget] at hx
    rcases mem_set _ _ _ _ hx with h' | h'
    · exact hg x h'
    · rw [h']
      exact recInvariant_mergeRec existing e.2 (hg _ (mem_of_get g e.1 existing hget)) he

theorem mapInvariant_onMessage (message : JsMap) : ∀ (g : JsMap), MapInvariant g →
    MapInvariant message → MapInvariant (onMessage g message) := by
  induction message with
  | nil => intro g hg _; exact hg
  | cons e message ih =>
    intro g hg hm
    exact ih _ (mapInvariant_mergeEntry g e hg (hm e (List.mem_cons_self _ _)))
      (fun x hx => hm x (List.mem_cons_of_mem _ hx))

theorem aggregateAll_eq_finalizeAll (m : JsMap) (rs : List Record) :
    aggregateAll m rs =
      finalizeAll m (rs.map (fun r => (keyString r.key, tokenTimes10 r.tok))) := by
  unfold aggregateAll finalizeAll
  rw [List.foldl_map]

/-- C12: the predicate `count >= 1`, `min <= max` and
`min * count <= sum <= max * count` (with integer fields) holds for every
record of a worker's map after any sequence of record finalizations with
integer values, from the empty map or from any map in which it holds (so it
holds in the map a worker posts for well-formed records), and the `message`
handler preserves it: if it holds for every record of `compiledResults` and of
the posted map, it holds for every record of `compiledResults` after the
merge. -/
theorem recInvariant_preserved :
    (∀ kvs : List (JsString × Int), MapInvariant (finalizeAll [] kvs)) ∧
      (∀ (m : JsMap) (kvs : List (JsString × Int)), MapInvariant m →
        MapInvariant (finalizeAll m kvs)) ∧
      (∀ (junk1 junk2 : List Nat) (rs : List Record), (∀ r ∈ rs, r.wellFormed = true) →
        MapInvariant (parseStream junk1 junk2 [renderAll rs])) ∧
      (∀ g message : JsMap, MapInvariant g → MapInvariant message →
        MapInvariant (onMessage g message)) := by
  have h0 : MapInvariant [] := fun _ he => absurd he (List.not_mem_nil _)
  refine ⟨fun kvs => mapInvariant_finalizeAll kvs [] h0,
    fun m kvs h => mapInvariant_finalizeAll kvs m h, ?_,
    fun g message hg hm => mapInvariant_onMessage message g hg hm⟩
  intro junk1 junk2 rs hwf
  rw [parseStream_renderAll junk1 junk2 rs hwf, aggregateAll_eq_finalizeAll]
  exact mapInvariant_finalizeAll _ [] h0

/-- Witness for C12: a posted record for the key `a` merged into a record of
`compiledResults` for the same key. -/
theorem recInvariant_preserved_witness :
    MapInvariant (onMessage [(js "a", ⟨JsVal.num 1, JsVal.num 5, JsVal.num 6, 2⟩)]
      [(js "a", ⟨JsVal.num (-2), JsVal.num 0, JsVal.num (-2), 2⟩)]) :=
  recInvariant_preserved.2.2.2 _ _
    (by
      intro e he
      simp only [List.mem_singleton] at he
      subst he
      exact ⟨1, 5, 6, rfl, rfl, rfl, by decide, by decide, by decide, by decide⟩)
    (by
      intro e he
      simp only [List.mem_singleton] at he
      subst he
      exact ⟨-2, 0, -2, rfl, rfl, rfl, by decide, by decide, by decide, by decide⟩)

end OneBrc

namespace OneBrc

/-! ## The iterations of the boundary loop -/

theorem boundaryLoop_succ (file : List Nat) (chunkSize fuel offset : Nat) (acc : List Nat) :
    boundaryLoop file chunkSize (fuel + 1) offset acc =
      match boundaryIter file chunkSize offset with
      | none => some (acc ++ [file.length])
      | some o => boundaryLoop file chunkSize fuel o (acc ++ [o]) := by
  unfold boundaryIter
  rw [boundaryLoop]
  split
  · rfl
  · cases indexOfNl (readWindow file (offset + chunkSize)) <;> rfl

/-- An iteration that does not break moves `offset` forward, to a position of
the file or to its end. -/
theorem boundaryIter_some (file : List Nat) (chunkSize offset o : Nat)
    (h : boundaryIter file chunkSize offset = some o) :
    offset + chunkSize + 1 ≤ o ∧ o ≤ file.length := by
  unfold boundaryIter at h
  split at h
  · cases h
  · cases hnl : indexOfNl (readWindow file (offset + chunkSize)) with
    | none => rw [hnl] at h; cases h
    | some nlPos =>
      rw [hnl] at h
      simp only [Option.some.injEq] at h
      obtain ⟨_, e2, _⟩ := indexOfNl_readWindow file (offset + chunkSize) nlPos hnl
      omega

theorem boundaryIter_none_of_ge (file : List Nat) (chunkSize offset : Nat)
    (h : file.length ≤ offset + chunkSize) : boundaryIter file chunkSize offset = none := by
  unfold boundaryIter
  rw [if_pos h]

/-- More fuel does not change the result of the loop. -/
theorem boundaryLoop_mono (file : List Nat) (chunkSize : Nat) :
    ∀ (fuel offset : Nat) (acc res : List Nat),
      boundaryLoop file chunkSize fuel offset acc = some res →
      ∀ fuel', fuel ≤ fuel' → boundaryLoop file chunkSize fuel' offset acc = some res := by
  intro fuel
  induction fuel with
  | zero => intro offset acc res h; simp [boundaryLoop] at h
  | succ fuel ih =>
    intro offset acc res h fuel' hle
    obtain ⟨f, rfl⟩ : ∃ f, fuel' = f + 1 := ⟨fuel' - 1, by omega⟩
    rw [boundaryLoop_succ] at h ⊢
    cases hi : boundaryIter file chunkSize offset with
    | none => rw [hi] at h; exact h
    | some o =>
      rw [hi] at h
      exact ih o _ res h f (by omega)

/-- The number of offsets the loop pushes. -/
theorem boundaryLoop_length (file : List Nat) (chunkSize n : Nat)
    (hn : file.length < n * (chunkSize + 1)) :
    ∀ (fuel offset : Nat) (acc res : List Nat) (j : Nat),
      j * (chunkSize + 1) ≤ offset → j < n →
      boundaryLoop file chunkSize fuel offset acc = some res →
      res.length ≤ acc.length + (n - j) := by
  intro fuel
  induction fuel with
  | zero => intro offset acc res j _ _ h; simp [boundaryLoop] at h
  | succ fuel ih =>
    intro offset acc res j hj hjn h
    rw [boundaryLoop_succ] at h
    cases hi : boundaryIter file chunkSize offset with
    | none =>
      rw [hi] at h
      simp only [Option.some.injEq] at h
      rw [← h]
      simp
      omega
    | some o =>
      rw [hi] at h
      obtain ⟨h1, h2⟩ := boundaryIter_some file chunkSize offset o hi
      have e : (j + 1) * (chunkSize + 1) = j * (chunkSize + 1) + (chunkSize + 1) := by ring
      have hj1 : (j + 1) * (chunkSize + 1) ≤ o := by omega
      have hj2 : j + 1 < n := by
        apply Nat.lt_of_mul_lt_mul_right (a := chunkSize + 1)
        omega
      have := ih o (acc ++ [o]) res (j + 1) hj1 hj2 h
      simp at this
      omega

theorem chain_getD (R : Nat → Nat → Prop) (l : List Nat) : ∀ (a : Nat), List.Chain R a l →
    ∀ i, i < l.length → R (if i = 0 then a else l.getD (i - 1) 0) (l.getD i 0) := by
  induction l with
  | nil => intro a _ i hi; simp at hi
  | cons b l ih =>
    intro a hc i hi
    rw [List.chain_cons] at hc
    cases i with
    | zero => simpa using hc.1
    | succ k =>
      have := ih b hc.2 k (by simpa using hi)
      simp only [Nat.add_one_ne_zero, if_false, Nat.add_sub_cancel, List.getD_cons_succ]
      cases k with
      | zero => simpa using this
      | succ k => simpa using this

end OneBrc

namespace OneBrc

/-! ## Claims C13, C14, C17 and C18 -/

/-- C13 (as amended): for every file and every worker count of at least one,
the sequence 0, `chunkOffsets[0]`, `chunkOffsets[1]`, ... is non-decreasing and
strictly increasing up to its last but one element: every spawned worker but
the last receives a non-empty interval, and the last one receives an interval
with `start <= end`, which is empty when the last boundary found is already
the file size. -/
theorem chunkOffsets_increasing (file : List Nat) (threadsCount : Nat)
    (_hn : 1 ≤ threadsCount) :
    ∃ offs, chunkOffsets file threadsCount = some offs ∧
      List.Chain (· < ·) 0 offs.dropLast ∧
      (∀ i, i + 1 < offs.length → workerStart offs i < workerEnd offs i) ∧
      (∀ i, i < offs.length → workerStart offs i ≤ workerEnd offs i) := by
  obtain ⟨tail, h1, h2, h3⟩ := boundaryLoop_spec file (file.length / threadsCount)
    (file.length + 1) 0 [] (Nat.zero_le _) (by omega)
  have hchain : List.Chain (· ≤ ·) 0 (tail ++ [file.length]) :=
    chain_le_of_chain_lt tail 0 file.length h2 (fun t ht => (h3 t ht).1) (Nat.zero_le _)
  refine ⟨tail ++ [file.length], by simpa [chunkOffsets] using h1, ?_, ?_, ?_⟩
  · rw [List.dropLast_concat]; exact h2
  · intro i hi
    have hi' : i < tail.length := by simpa using hi
    have h := chain_getD (· < ·) tail 0 h2 i hi'
    unfold workerStart workerEnd
    rw [List.getD_append _ _ _ _ hi']
    by_cases h0 : i = 0
    · rw [if_pos h0] at h ⊢; exact h
    · rw [if_neg h0] at h ⊢
      rw [List.getD_append _ _ _ _ (by omega)]
      exact h
  · intro i hi
    exact chain_getD (· ≤ ·) _ 0 hchain i hi

/-- Witness for C13: three lines and two workers, the offsets 26 and 38. -/
theorem chunkOffsets_increasing_witness :
    ∃ offs, chunkOffsets (bytes "Hamburg;12.0\nHamburg;14.0\nBerlin;-5.5\n") 2 = some offs ∧
      List.Chain (· < ·) 0 offs.dropLast ∧
      (∀ i, i + 1 < offs.length → workerStart offs i < workerEnd offs i) ∧
      (∀ i, i < offs.length → workerStart offs i ≤ workerEnd offs i) :=
  chunkOffsets_increasing (bytes "Hamburg;12.0\nHamburg;14.0\nBerlin;-5.5\n") 2 (by decide)

/-- C13 (counterexample): the non-empty file `a;1.0\nb;2.0\n` of twelve bytes
with two workers.  The first boundary found is 12, the file size, and the loop
pushes the file size once more: the offsets are 12 and 12, the sequence 0, 12,
12 is not strictly increasing and the second worker receives the empty
interval `start = end = 12`, for which it posts an empty map. -/
theorem chunkOffsets_repeats_file_size :
    bytes "a;1.0\nb;2.0\n" ≠ [] ∧
      chunkOffsets (bytes "a;1.0\nb;2.0\n") 2 = some [12, 12] ∧
      ¬ List.Chain (· < ·) 0 [12, 12] ∧
      workerStart [12, 12] 1 = 12 ∧ workerEnd [12, 12] 1 = 12 ∧
      workerEntry 12 12 = WorkerAction.postEmpty := by
  refine ⟨by decide, by decide, ?_, by decide, by decide, by decide⟩
  intro h
  rw [List.chain_cons, List.chain_cons] at h
  exact absurd h.2.1 (by decide)

set_option maxRecDepth 100000 in
/-- C14 (the code at the failing input): a file of four well-formed records,
the first and the third with a key of 100 bytes and a value of 5 bytes (lines
of 107 bytes), and two workers.  The target offset is 113, the start of the
third line, whose `\n` is at position 219 = 113 + 106; the window of
`MAX_LINE_LENGTH` = 106 bytes read at 113 ends at position 218 and holds no
`\n`, so the loop pushes the file size 226 and stops although the file has a
`\n` after the target. -/
theorem boundary_window_misses_newline :
    (∀ r ∈ [longRecord, ⟨bytes "b", bytes "1.0"⟩, longRecord, ⟨bytes "c", bytes "2.0"⟩],
        r.wellFormed = true) ∧
      MAX_LINE_LENGTH = 106 ∧ longRecord.render.length = 107 ∧
      (renderAll [longRecord, ⟨bytes "b", bytes "1.0"⟩, longRecord,
        ⟨bytes "c", bytes "2.0"⟩]).length = 226 ∧
      (renderAll [longRecord, ⟨bytes "b", bytes "1.0"⟩, longRecord,
        ⟨bytes "c", bytes "2.0"⟩])[219]? = some 10 ∧
      indexOfNl (readWindow (renderAll [longRecord, ⟨bytes "b", bytes "1.0"⟩, longRecord,
        ⟨bytes "c", bytes "2.0"⟩]) 113) = none ∧
      chunkOffsets (renderAll [longRecord, ⟨bytes "b", bytes "1.0"⟩, longRecord,
        ⟨bytes "c", bytes "2.0"⟩]) 2 = some [226] := by
  decide

/-- C17: for every file and every worker count `n >= 1`, with
`chunkSize = floor(fileSize / n)`, the boundary loop pushes at most `n`
offsets, so at most `n` workers are spawned. -/
theorem chunkOffsets_length_le (file : List Nat) (threadsCount : Nat) (hn : 1 ≤ threadsCount) :
    ∃ offs, chunkOffsets file threadsCount = some offs ∧ offs.length ≤ threadsCount := by
  obtain ⟨tail, h1, _, _⟩ := boundaryLoop_spec file (file.length / threadsCount)
    (file.length + 1) 0 [] (Nat.zero_le _) (by omega)
  refine ⟨[] ++ tail ++ [file.length], h1, ?_⟩
  have hlt : file.length < threadsCount * (file.length / threadsCount + 1) :=
    Nat.lt_mul_div_succ _ (by omega)
  have := boundaryLoop_length file (file.length / threadsCount) threadsCount hlt
    (file.length + 1) 0 [] _ 0 (by simp) (by omega) h1
  simpa using this

/-- Witness for C17: three lines and two workers. -/
theorem chunkOffsets_length_le_witness :
    ∃ offs, chunkOffsets (bytes "Hamburg;12.0\nHamburg;14.0\nBerlin;-5.5\n") 2 = some offs ∧
      offs.length ≤ 2 :=
  chunkOffsets_length_le (bytes "Hamburg;12.0\nHamburg;14.0\nBerlin;-5.5\n") 2 (by decide)

/-- C18: for every file and every worker count of at least one, also when
`chunkSize = floor(fileSize / workerCount)` is 0, the boundary loop terminates:
an iteration either breaks or increases `offset` by at least `chunkSize + 1`,
hence by at least 1, without passing the file size; it breaks as soon as
`offset` (after the addition of `chunkSize`) has reached the file size; and
with `fileSize + 1` or more iterations allowed the loop returns the value of
`chunkOffsets`. -/
theorem boundaryLoop_terminates (file : List Nat) (threadsCount : Nat)
    (_hn : 1 ≤ threadsCount) :
    (∀ (fuel offset : Nat) (acc : List Nat),
        boundaryLoop file (file.length / threadsCount) (fuel + 1) offset acc =
          match boundaryIter file (file.length / threadsCount) offset with
          | none => some (acc ++ [file.length])
          | some o => boundaryLoop file (file.length / threadsCount) fuel o (acc ++ [o])) ∧
      (∀ offset o, boundaryIter file (file.length / threadsCount) offset = some o →
        offset + 1 ≤ o ∧ o ≤ file.length) ∧
      (∀ offset, file.length ≤ offset + file.length / threadsCount →
        boundaryIter file (file.length / threadsCount) offset = none) ∧
      (∃ offs, chunkOffsets file threadsCount = some offs ∧
        ∀ fuel, file.length + 1 ≤ fuel →
          boundaryLoop file (file.length / threadsCount) fuel 0 [] = some offs) := by
  refine ⟨fun fuel offset acc => boundaryLoop_succ file _ fuel offset acc, ?_,
    fun offset h => boundaryIter_none_of_ge file _ offset h, ?_⟩
  · intro offset o h
    have := boundaryIter_some file _ offset o h
    generalize file.length / threadsCount = c at this
    omega
  · obtain ⟨tail, h1, _, _⟩ := boundaryLoop_spec file (file.length / threadsCount)
      (file.length + 1) 0 [] (Nat.zero_le _) (by omega)
    exact ⟨[] ++ tail ++ [file.length], h1,
      fun fuel hf => boundaryLoop_mono file _ _ 0 [] _ h1 fuel hf⟩

/-- Witness for C18: a file of five bytes and eight workers, `chunkSize = 0`. -/
theorem boundaryLoop_terminates_witness :
    ∃ offs, chunkOffsets (bytes "a;1.0") 8 = some offs ∧
      ∀ fuel, (bytes "a;1.0").length + 1 ≤ fuel →
        boundaryLoop (bytes "a;1.0") ((bytes "a;1.0").length / 8) fuel 0 [] = some offs :=
  (boundaryLoop_terminates (bytes "a;1.0") 8 (by decide)).2.2.2

end OneBrc

namespace OneBrc

/-! ## Claim C15 -/

theorem allWritesInBounds_append (a : List Nat) : ∀ (st : ParserState) (b : List Nat),
    allWritesInBounds st (a ++ b) =
      (allWritesInBounds st a && allWritesInBounds (parseChunk st a) b) := by
  induction a with
  | nil => intro st b; simp [allWritesInBounds, parseChunk_nil]
  | cons c a ih =>
    intro st b
    rw [List.cons_append, allWritesInBounds, allWritesInBounds, ih, parseChunk_cons,
      Bool.and_assoc]

theorem finalized_append (a : List Nat) : ∀ (st : ParserState) (b : List Nat),
    finalized st (a ++ b) = finalized st a ++ finalized (parseChunk st a) b := by
  induction a with
  | nil => intro st b; simp [finalized, parseChunk_nil]
  | cons c a ih =>
    intro st b
    rw [List.cons_append, finalized, finalized, ih, parseChunk_cons]
    split <;> simp

/-- Key bytes that fit into the key buffer are written in bounds and finalize
nothing. -/
theorem key_writes (cs : List Nat) : ∀ (st : ParserState),
    (∀ c ∈ cs, c ≠ CHAR_SEMICOLON ∧ c ≠ CHAR_NEWLINE) →
    st.readingToken = TOKEN_STATION_NAME → st.stationNameLen + cs.length ≤ 100 →
    allWritesInBounds st cs = true ∧ finalized st cs = [] := by
  induction cs with
  | nil => intro st _ _ _; exact ⟨rfl, rfl⟩
  | cons c cs ih =>
    intro st hc ht hlen
    have h1 := hc c (List.mem_cons_self _ _)
    simp only [List.length_cons] at hlen
    have hstep : parseByte st c =
        { st with stationName := bufSet st.stationName st.stationNameLen c
                  stationNameLen := st.stationNameLen + 1 } := by
      simp [parseByte, h1.1, h1.2, ht]
    have h2 := ih (parseByte st c) (fun x hx => hc x (List.mem_cons_of_mem _ hx))
      (by rw [hstep]; exact ht) (by rw [hstep]; simp only []; omega)
    have hw : writeInBounds st c = true := by
      unfold writeInBounds
      rw [if_neg h1.1, if_neg h1.2, if_pos ht]
      exact decide_eq_true (by omega)
    simp only [allWritesInBounds, finalized, hw, h2.1, h2.2, if_neg h1.2, Bool.and_self,
      and_self]

/-- Value bytes that fit into the value buffer are written in bounds and
finalize nothing. -/
theorem value_writes (cs : List Nat) : ∀ (st : ParserState),
    (∀ c ∈ cs, c ≠ CHAR_SEMICOLON ∧ c ≠ CHAR_NEWLINE) →
    st.readingToken = TOKEN_TEMPERATURE → st.temperatureLen + cs.length ≤ 5 →
    allWritesInBounds st cs = true ∧ finalized st cs = [] := by
  induction cs with
  | nil => intro st _ _ _; exact ⟨rfl, rfl⟩
  | cons c cs ih =>
    intro st hc ht hlen
    have h1 := hc c (List.mem_cons_self _ _)
    simp only [List.length_cons] at hlen
    have hne : st.readingToken ≠ TOKEN_STATION_NAME := by
      rw [ht]; decide
    have hstep : parseByte st c =
        { st with temperature := bufSet st.temperature st.temperatureLen c
                  temperatureLen := st.temperatureLen + 1 } := by
      simp [parseByte, h1.1, h1.2, hne]
    have h2 := ih (parseByte st c) (fun x hx => hc x (List.mem_cons_of_mem _ hx))
      (by rw [hstep]; exact ht) (by rw [hstep]; simp only []; omega)
    have hw : writeInBounds st c = true := by
      unfold writeInBounds
      rw [if_neg h1.1, if_neg h1.2, if_neg hne]
      exact decide_eq_true (by omega)
    simp only [allWritesInBounds, finalized, hw, h2.1, h2.2, if_neg h1.2, Bool.and_self,
      and_self]

end OneBrc

namespace OneBrc

/-- One well-formed record, read from a line start: every write is in bounds
and the bytes finalized at its `\n` are its key and its value token. -/
theorem record_writes (st : ParserState) (r : Record) (hst : AtLineStart st)
    (hr : r.wellFormed = true) :
    allWritesInBounds st r.render = true ∧ finalized st r.render = [(r.key, r.tok)] := by
  obtain ⟨ht, hn, hv, hlen1, hlen2⟩ := hst
  obtain ⟨⟨_, hk100⟩, hkey, htok⟩ := wellFormed_iff.1 hr
  obtain ⟨htl, htb⟩ := isValueToken_bytes htok
  have e1 := parseChunk_key r.key st hkey ht
  have e2 : (writeBytes st.stationName 0 r.key).take r.key.length = r.key := by
    have := take_writeBytes r.key st.stationName 0 (by omega)
    simpa using this
  have e3 : (writeBytes st.temperature 0 r.tok).take r.tok.length = r.tok := by
    have := take_writeBytes r.tok st.temperature 0 (by omega)
    simpa using this
  have k1 := key_writes r.key st hkey ht (by omega)
  have hsemi : ∀ s : ParserState, parseChunk s [CHAR_SEMICOLON] =
      { s with readingToken := TOKEN_TEMPERATURE } := fun s => by
    simp [parseChunk, parseByte]
  have hrender : r.render = r.key ++ ([CHAR_SEMICOLON] ++ (r.tok ++ [CHAR_NEWLINE])) := by
    simp [Record.render]
  rw [hrender, allWritesInBounds_append, allWritesInBounds_append, allWritesInBounds_append,
    finalized_append, finalized_append, finalized_append, k1.1, k1.2, e1, hsemi]
  have v1 := value_writes r.tok
    { readingToken := TOKEN_TEMPERATURE,
      stationName := writeBytes st.stationName st.stationNameLen r.key,
      stationNameLen := st.stationNameLen + r.key.length, temperature := st.temperature,
      temperatureLen := st.temperatureLen, map := st.map } htb rfl
    (by simp only []; omega)
  rw [v1.1, v1.2, parseChunk_value r.tok _ htb rfl]
  simp only [hn, hv, Nat.zero_add]
  constructor
  · simp [allWritesInBounds, writeInBounds, CHAR_SEMICOLON, CHAR_NEWLINE]
  · simp only [finalized, CHAR_NEWLINE, CHAR_SEMICOLON, if_neg (show ¬ (59 = 10) by decide),
      if_true, List.nil_append, e2, e3]

/-- A sequence of well-formed records, read from a line start. -/
theorem renderAll_writes (rs : List Record) : ∀ (st : ParserState), AtLineStart st →
    (∀ r ∈ rs, r.wellFormed = true) →
    allWritesInBounds st (renderAll rs) = true ∧
      finalized st (renderAll rs) = rs.map (fun r => (r.key, r.tok)) := by
  induction rs with
  | nil => intro st _ _; exact ⟨rfl, rfl⟩
  | cons r rs ih =>
    intro st hst hwf
    have hr := hwf r (List.mem_cons_self _ _)
    have h1 := record_writes st r hst hr
    have h2 := ih (parseChunk st r.render) (parseChunk_record st r hst hr).1
      (fun x hx => hwf x (List.mem_cons_of_mem _ hx))
    have e : renderAll (r :: rs) = r.render ++ renderAll rs := by simp [renderAll]
    rw [e, allWritesInBounds_append, finalized_append, h1.1, h1.2, h2.1, h2.2]
    exact ⟨rfl, rfl⟩

/-- C15: for every input made only of well-formed records (key of at most 100
bytes, value token of at most 5 bytes), every write of `parseChunk` to a
scratch buffer is in bounds, `stationNameLen < 100` at each key-byte write and
`temperatureLen < 5` at each value-byte write, and the key bytes and the token
bytes finalized at each `\n` are exactly the key and the token of the record,
record by record: no byte is dropped. -/
theorem parseChunk_writes_in_bounds (junk1 junk2 : List Nat) (rs : List Record)
    (hwf : ∀ r ∈ rs, r.wellFormed = true) :
    allWritesInBounds (initState junk1 junk2) (renderAll rs) = true ∧
      finalized (initState junk1 junk2) (renderAll rs) = rs.map (fun r => (r.key, r.tok)) :=
  renderAll_writes rs (initState junk1 junk2) (atLineStart_initState junk1 junk2) hwf

/-- Witness for C15 on the three records of the end-to-end example. -/
theorem parseChunk_writes_in_bounds_witness :
    allWritesInBounds (initState [] [])
        (renderAll [⟨bytes "Hamburg", bytes "12.0"⟩, ⟨bytes "Hamburg", bytes "14.0"⟩,
          ⟨bytes "Berlin", bytes "-5.5"⟩]) = true ∧
      finalized (initState [] [])
        (renderAll [⟨bytes "Hamburg", bytes "12.0"⟩, ⟨bytes "Hamburg", bytes "14.0"⟩,
          ⟨bytes "Berlin", bytes "-5.5"⟩]) =
        [(bytes "Hamburg", bytes "12.0"), (bytes "Hamburg", bytes "14.0"),
          (bytes "Berlin", bytes "-5.5")] :=
  parseChunk_writes_in_bounds [] []
    [⟨bytes "Hamburg", bytes "12.0"⟩, ⟨bytes "Hamburg", bytes "14.0"⟩,
      ⟨bytes "Berlin", bytes "-5.5"⟩] (by decide)

end OneBrc

namespace OneBrc

/-! ## Claim C19 -/

theorem natDigits_two (q : Nat) (h1 : 10 ≤ q) (h2 : q < 100) :
    natDigits q = [48 + q / 10, 48 + q % 10] := by
  obtain ⟨k, rfl⟩ : ∃ k, q = k + 1 := ⟨q - 1, by omega⟩
  have hq : ¬ (k + 1 < 10) := by omega
  have hq' : (k + 1) / 10 < 10 := by omega
  simp [natDigits, natDigitsAux, hq, hq']

/-- The numeral of a number of tenths between -999 and 999 is a value token
whose fixed-point value is that number. -/
theorem fmtTenths_token (n : Int) (h1 : -999 ≤ n) (h2 : n ≤ 999) :
    isValueToken (fmtTenths n) = true ∧ tokenTimes10 (fmtTenths n) = n := by
  have hd : n.natAbs % 10 < 10 := Nat.mod_lt _ (by decide)
  have ha : n.natAbs ≤ 999 := by omega
  have hrel : (n < 0 → n = -(n.natAbs : Int)) ∧ (¬ n < 0 → n = (n.natAbs : Int)) := by omega
  unfold fmtTenths
  generalize n.natAbs = a at hd ha hrel ⊢
  rw [natDigits_lt_ten _ hd]
  by_cases hneg : n < 0
  · rw [if_pos hneg]
    have hn := hrel.1 hneg
    by_cases hq : a / 10 < 10
    · rw [natDigits_lt_ten _ hq]
      have e1 : 48 + a / 10 ≠ 46 := by omega
      have e2 : 48 + a % 10 ≠ 46 := by omega
      refine ⟨by simp [isValueToken, isUnsignedToken, isDigit]; omega, ?_⟩
      simp [tokenTimes10, digitsValue, e1, e2]
      omega
    · rw [natDigits_two _ (by omega) (by omega)]
      have e1 : 48 + a / 10 / 10 ≠ 46 := by omega
      have e2 : 48 + a / 10 % 10 ≠ 46 := by omega
      have e3 : 48 + a % 10 ≠ 46 := by omega
      refine ⟨by simp [isValueToken, isUnsignedToken, isDigit]; omega, ?_⟩
      simp [tokenTimes10, digitsValue, e1, e2, e3]
      omega
  · rw [if_neg hneg]
    have hn := hrel.2 hneg
    by_cases hq : a / 10 < 10
    · rw [natDigits_lt_ten _ hq]
      have e0 : 48 + a / 10 ≠ 45 := by omega
      have e1 : 48 + a / 10 ≠ 46 := by omega
      have e2 : 48 + a % 10 ≠ 46 := by omega
      refine ⟨by simp [isValueToken, isUnsignedToken, isDigit, e0]; omega, ?_⟩
      simp [tokenTimes10, digitsValue, e0, e1, e2]
      omega
    · rw [natDigits_two _ (by omega) (by omega)]
      have e0 : 48 + a / 10 / 10 ≠ 45 := by omega
      have e1 : 48 + a / 10 / 10 ≠ 46 := by omega
      have e2 : 48 + a / 10 % 10 ≠ 46 := by omega
      have e3 : 48 + a % 10 ≠ 46 := by omega
      refine ⟨by simp [isValueToken, isUnsignedToken, isDigit, e0]; omega, ?_⟩
      simp [tokenTimes10, digitsValue, e0, e1, e2, e3]
      omega

/-- C19: for every integer `n` with `-999 <= n <= 999`, the string
`round(n / 10)` that the formatter writes for a field holding `n` is a value
token of the grammar, and `parseFloatBufferIntoInt` applied to a buffer that
starts with its bytes, with its length, returns `n`: the parser undoes the
formatter on the whole fixed-point range. -/
theorem round_parse_roundtrip (n : Int) (h1 : -999 ≤ n) (h2 : n ≤ 999) :
    roundField (JsVal.num n) = round (jsDiv (n : ℚ) 10) ∧
      isValueToken (round (jsDiv (n : ℚ) 10)) = true ∧
      ∀ rest : List Nat,
        parseFloatBufferIntoInt (round (jsDiv (n : ℚ) 10) ++ rest)
            (round (jsDiv (n : ℚ) 10)).length =
          JsVal.num n := by
  have hn : |n| ≤ 2 ^ 50 := by
    rw [abs_le]
    constructor <;> norm_num <;> omega
  have e : round (jsDiv (n : ℚ) 10) = fmtTenths n := roundField_num n hn
  obtain ⟨t1, t2⟩ := fmtTenths_token n h1 h2
  refine ⟨rfl, by rw [e]; exact t1, ?_⟩
  intro rest
  rw [e, parseFloat_token _ rest t1, t2]

/-- Witness for C19 at `n = -999`. -/
theorem round_parse_roundtrip_witness :
    isValueToken (round (jsDiv (((-999 : Int) : ℚ)) 10)) = true ∧
      parseFloatBufferIntoInt (round (jsDiv (((-999 : Int) : ℚ)) 10) ++ [])
        (round (jsDiv (((-999 : Int) : ℚ)) 10)).length = JsVal.num (-999) :=
  ⟨(round_parse_roundtrip (-999) (by decide) (by decide)).2.1,
    (round_parse_roundtrip (-999) (by decide) (by decide)).2.2 []⟩

end OneBrc

namespace OneBrc

/-! ## The decoder on ASCII bytes -/

theorem utf8Inv_init : Utf8Inv {} := Or.inl rfl

theorem utf8Start_spec (b : Nat) :
    Utf8Inv (utf8Start b).1 ∧
      ∀ cp ∈ (utf8Start b).2, (cp = b ∧ b ≤ 0x7F) ∨ 0x80 ≤ cp := by
  unfold utf8Start
  split
  · exact ⟨Or.inl rfl, fun cp h => Or.inl ⟨by simpa using h, by assumption⟩⟩
  · split
    · refine ⟨Or.inr ⟨by simp, by simp, Or.inl ?_⟩, fun cp h => by simp at h⟩
      simp only []; omega
    · split
      · refine ⟨Or.inr ⟨?_, ?_, Or.inr ⟨by simp, ?_⟩⟩, fun cp h => by simp at h⟩
        · simp only []; split <;> decide
        · simp only []; split <;> decide
        · simp only []
          by_cases h0 : b = 0xE0
          · right; simp [h0]
          · left; omega
      · split
        · refine ⟨Or.inr ⟨?_, ?_, Or.inr ⟨by simp, ?_⟩⟩, fun cp h => by simp at h⟩
          · simp only []; split <;> decide
          · simp only []; split <;> decide
          · simp only []
            by_cases h0 : b = 0xF0
            · right; simp [h0]
            · left; omega
        · exact ⟨Or.inl rfl, fun cp h => Or.inr (by
            rw [List.mem_singleton] at h; rw [h]; decide)⟩

theorem utf8Step_spec (s : Utf8State) (b : Nat) (hs : Utf8Inv s) :
    Utf8Inv (utf8Step s b).1 ∧
      ∀ cp ∈ (utf8Step s b).2, (cp = b ∧ b ≤ 0x7F) ∨ 0x80 ≤ cp := by
  unfold utf8Step
  split
  · exact utf8Start_spec b
  · rename_i hne
    rcases hs with hs | ⟨hlo, hhi, hcp⟩
    · exact absurd hs hne
    · split
      · refine ⟨(utf8Start_spec b).1, ?_⟩
        intro cp h
        simp only [List.mem_cons] at h
        rcases h with h | h
        · exact Or.inr (by omega)
        · exact (utf8Start_spec b).2 cp h
      · rename_i hr
        simp only []
        split
        · rename_i hlast
          refine ⟨Or.inl rfl, ?_⟩
          intro cp h
          simp only [List.mem_singleton] at h
          right
          rcases hcp with h2 | ⟨h2, _⟩
          · omega
          · omega
        · refine ⟨Or.inr ⟨by simp, by simp, Or.inl ?_⟩, fun cp h => by simp at h⟩
          simp only []
          rcases hcp with h2 | ⟨_, h2 | h2⟩
          · omega
          · omega
          · omega

/-- A code point below `0x80` in the output of the decoder is a byte of its
input. -/
theorem utf8Run_ascii_origin (bs : List Nat) : ∀ (s : Utf8State), Utf8Inv s →
    ∀ cp ∈ utf8Run s bs, (cp ∈ bs ∧ cp ≤ 0x7F) ∨ 0x80 ≤ cp := by
  induction bs with
  | nil =>
    intro s _ cp h
    unfold utf8Run at h
    split at h
    · simp at h
    · simp at h; exact Or.inr (by omega)
  | cons b bs ih =>
    intro s hs cp h
    rw [utf8Run_cons] at h
    obtain ⟨h1, h2⟩ := utf8Step_spec s b hs
    rcases List.mem_append.1 h with h | h
    · rcases h2 cp h with ⟨e, hb⟩ | h'
      · exact Or.inl ⟨by rw [e]; exact List.mem_cons_self _ _, by omega⟩
      · exact Or.inr h'
    · rcases ih _ h1 cp h with ⟨h', hb⟩ | h'
      · exact Or.inl ⟨List.mem_cons_of_mem _ h', hb⟩
      · exact Or.inr h'

/-- A code unit below `0x80` of a decoded key is a byte of the key. -/
theorem keyString_ascii_origin (key : List Nat) (u : Nat) (hu : u ∈ keyString key)
    (hlt : u < 0x80) : u ∈ key := by
  unfold keyString at hu
  obtain ⟨cp, hcp, hmem⟩ := List.mem_flatMap.1 hu
  unfold utf16Units at hmem
  rcases utf8Run_ascii_origin key {} utf8Inv_init cp hcp with ⟨h1, _⟩ | h1
  · split at hmem
    · simp at hmem; rw [hmem]; exact h1
    · omega
  · split at hmem
    · simp at hmem; omega
    · simp at hmem; omega

/-- An ASCII byte ends whatever the decoder has pending and is decoded to
itself. -/
theorem utf8Run_append_ascii (bs : List Nat) : ∀ (s : Utf8State), Utf8Inv s →
    ∀ (b : Nat) (rest : List Nat), b ≤ 0x7F →
    utf8Run s (bs ++ b :: rest) = utf8Run s bs ++ b :: utf8Run {} rest := by
  induction bs with
  | nil =>
    intro s hs b rest hb
    rw [List.nil_append, utf8Run_cons]
    unfold utf8Step
    by_cases h0 : s.bytesNeeded = 0
    · rw [if_pos h0, utf8Start_ascii b hb]
      simp [utf8Run, h0]
    · rcases hs with hs | ⟨hlo, _, _⟩
      · exact absurd hs h0
      · rw [if_neg h0, if_pos (Or.inl (by omega)), utf8Start_ascii b hb]
        simp [utf8Run, h0]
  | cons c bs ih =>
    intro s hs b rest hb
    rw [List.cons_append, utf8Run_cons, utf8Run_cons, ih _ (utf8Step_spec s c hs).1 b rest hb,
      List.append_assoc]

theorem utf8Run_ascii (l : List Nat) (h : ∀ c ∈ l, c ≤ 0x7F) : utf8Run {} l = l := by
  induction l with
  | nil => rfl
  | cons c l ih =>
    rw [utf8Run_cons, utf8Step_init, utf8Start_ascii c (h c (List.mem_cons_self _ _))]
    simp only [List.singleton_append]
    rw [ih (fun x hx => h x (List.mem_cons_of_mem _ hx))]

theorem flatMap_utf16Units_ascii (l : List Nat) (h : ∀ c ∈ l, c ≤ 0x7F) :
    l.flatMap utf16Units = l := by
  induction l with
  | nil => rfl
  | cons c l ih =>
    have hc := h c (List.mem_cons_self _ _)
    rw [List.flatMap_cons, ih (fun x hx => h x (List.mem_cons_of_mem _ hx))]
    unfold utf16Units
    rw [if_pos (by omega)]
    rfl

end OneBrc

namespace OneBrc

/-! ## The baseline on well-formed records -/

theorem isUnsignedToken_range {tok : List Nat} (h : isUnsignedToken tok = true) :
    ∀ c ∈ tok, 46 ≤ c ∧ c ≤ 57 := by
  match tok, h with
  | [d, p, f], h =>
    simp [isUnsignedToken, isDigit_iff] at h
    simp; omega
  | [d1, d2, p, f], h =>
    simp [isUnsignedToken, isDigit_iff] at h
    simp; omega
  | [], h => simp [isUnsignedToken] at h
  | [_], h => simp [isUnsignedToken] at h
  | [_, _], h => simp [isUnsignedToken] at h
  | _ :: _ :: _ :: _ :: _ :: _, h => simp [isUnsignedToken] at h

/-- The bytes of a value token are `-`, `.` and digits. -/
theorem isValueToken_range {tok : List Nat} (h : isValueToken tok = true) :
    ∀ c ∈ tok, 45 ≤ c ∧ c ≤ 57 := by
  unfold isValueToken at h
  split at h
  · rename_i h0
    cases tok with
    | nil => simp at h0
    | cons c cs =>
      simp at h0; subst h0
      have := isUnsignedToken_range h
      intro x hx
      rcases List.mem_cons.1 hx with hx | hx
      · omega
      · have := this x hx; omega
  · intro x hx
    have := isUnsignedToken_range h x hx
    omega

/-- The text that `readline` sees for a sequence of well-formed records. -/
theorem streamText_renderAll (rs : List Record) (hwf : ∀ r ∈ rs, r.wellFormed = true) :
    streamText (renderAll rs) = rs.flatMap (fun r => r.line ++ [10]) := by
  induction rs with
  | nil => rfl
  | cons r rs ih =>
    have hr := hwf r (List.mem_cons_self _ _)
    obtain ⟨_, _, htok⟩ := wellFormed_iff.1 hr
    have hrange := isValueToken_range htok
    have hascii : ∀ c ∈ r.tok, c ≤ 0x7F := fun c hc => by have := hrange c hc; omega
    have ih' := ih (fun x hx => hwf x (List.mem_cons_of_mem _ hx))
    unfold streamText at ih' ⊢
    have e : renderAll (r :: rs) = r.key ++ 59 :: (r.tok ++ 10 :: renderAll rs) := by
      simp [renderAll, Record.render, CHAR_SEMICOLON, CHAR_NEWLINE]
    rw [e, utf8Run_append_ascii r.key {} utf8Inv_init 59 _ (by decide),
      utf8Run_append_ascii r.tok {} utf8Inv_init 10 _ (by decide), utf8Run_ascii r.tok hascii]
    simp only [List.flatMap_append, List.flatMap_cons, ih', flatMap_utf16Units_ascii r.tok hascii,
      Record.line, keyString]
    simp [utf16Units]

/-- A line without line-ending characters, followed by `\n`. -/
theorem readlineSplit_line (l : JsString) : ∀ (cur rest : JsString),
    (∀ u ∈ l, u ≠ 10 ∧ u ≠ 13) →
    readlineSplit (l ++ 10 :: rest) cur false = (cur ++ l) :: readlineSplit rest [] false := by
  induction l with
  | nil =>
    intro cur rest _
    simp [readlineSplit]
  | cons u l ih =>
    intro cur rest h
    obtain ⟨h1, h2⟩ := h u (List.mem_cons_self _ _)
    rw [List.cons_append, readlineSplit, if_neg h1, if_neg h2,
      ih _ _ (fun x hx => h x (List.mem_cons_of_mem _ hx))]
    simp

theorem readlineSplit_lines (ls : List JsString)
    (h : ∀ l ∈ ls, ∀ u ∈ l, u ≠ 10 ∧ u ≠ 13) :
    readlineSplit (ls.flatMap (fun l => l ++ [10])) [] false = ls := by
  induction ls with
  | nil => simp [readlineSplit]
  | cons l ls ih =>
    rw [List.flatMap_cons, List.append_assoc, List.singleton_append,
      readlineSplit_line l [] _ (h l (List.mem_cons_self _ _)),
      ih (fun x hx => h x (List.mem_cons_of_mem _ hx))]
    simp

theorem jsSplit_no_sep (sep : Nat) (l : JsString) : ∀ (cur : JsString), sep ∉ l →
    jsSplit sep l cur = [cur ++ l] := by
  induction l with
  | nil => intro cur _; simp [jsSplit]
  | cons c l ih =>
    intro cur h
    simp only [List.mem_cons, not_or] at h
    rw [jsSplit, if_neg (fun e => h.1 e.symm), ih _ h.2]
    simp

theorem jsSplit_at_sep (sep : Nat) (a : JsString) : ∀ (cur b : JsString), sep ∉ a →
    jsSplit sep (a ++ sep :: b) cur = (cur ++ a) :: jsSplit sep b [] := by
  induction a with
  | nil => intro cur b _; simp [jsSplit]
  | cons c a ih =>
    intro cur b h
    simp only [List.mem_cons, not_or] at h
    rw [List.cons_append, jsSplit, if_neg (fun e => h.1 e.symm), ih _ _ h.2]
    simp

end OneBrc

namespace OneBrc

theorem parseFloat_unsigned {tok : List Nat} (h : isUnsignedToken tok = true) :
    ∃ (ds fs : List Nat), tok.takeWhile isDigit = ds ∧ ds ≠ [] ∧
      (tok.dropWhile isDigit).head? = some 46 ∧
      (tok.dropWhile isDigit).tail.takeWhile isDigit = fs ∧
      unsignedDecimal tok = (digitsValue ds : ℚ) + (digitsValue fs : ℚ) / 10 ^ fs.length ∧
      tok.head? ≠ some 45 ∧ tok.head? ≠ some 43 := by
  match tok, h with
  | [d, p, f], h =>
    simp [isUnsignedToken] at h
    obtain ⟨⟨h1, hp⟩, h3⟩ := h
    subst hp
    have e1 : d ≠ 46 := by rw [isDigit_iff] at h1; omega
    have e3 : f ≠ 46 := by rw [isDigit_iff] at h3; omega
    have e0 : d ≠ 45 ∧ d ≠ 43 := by rw [isDigit_iff] at h1; omega
    have e46 : isDigit 46 = false := by decide
    refine ⟨[d], [f], ?_, by simp, ?_, ?_, ?_, by simp [e0.1], by simp [e0.2]⟩
    · simp [List.takeWhile_cons, h1, e46]
    · simp [List.dropWhile_cons, h1, e46]
    · simp [List.dropWhile_cons, List.takeWhile_cons, h1, h3, e46]
    · simp [unsignedDecimal, List.takeWhile_cons, List.dropWhile_cons, e1, e3]
  | [d1, d2, p, f], h =>
    simp [isUnsignedToken] at h
    obtain ⟨⟨⟨h1, h2⟩, hp⟩, h3⟩ := h
    subst hp
    have e1 : d1 ≠ 46 := by rw [isDigit_iff] at h1; omega
    have e2 : d2 ≠ 46 := by rw [isDigit_iff] at h2; omega
    have e3 : f ≠ 46 := by rw [isDigit_iff] at h3; omega
    have e0 : d1 ≠ 45 ∧ d1 ≠ 43 := by rw [isDigit_iff] at h1; omega
    have e46 : isDigit 46 = false := by decide
    refine ⟨[d1, d2], [f], ?_, by simp, ?_, ?_, ?_, by simp [e0.1], by simp [e0.2]⟩
    · simp [List.takeWhile_cons, h1, h2, e46]
    · simp [List.dropWhile_cons, h1, h2, e46]
    · simp [List.dropWhile_cons, List.takeWhile_cons, h1, h2, h3, e46]
    · simp [unsignedDecimal, List.takeWhile_cons, List.dropWhile_cons, e1, e2, e3]
  | [], h => simp [isUnsignedToken] at h
  | [_], h => simp [isUnsignedToken] at h
  | [_, _], h => simp [isUnsignedToken] at h
  | _ :: _ :: _ :: _ :: _ :: _, h => simp [isUnsignedToken] at h

/-- On a value token of the grammar `parseFloat` returns its decimal value. -/
theorem parseFloat_valueToken (tok : List Nat) (h : isValueToken tok = true) :
    parseFloat (some tok) = some (tokenDecimal tok) := by
  unfold isValueToken at h
  unfold parseFloat tokenDecimal
  split at h
  · rename_i h0
    obtain ⟨ds, fs, t1, t2, t3, t4, t5, _, _⟩ := parseFloat_unsigned h
    simp only [h0, true_or, if_true, decide_True, t1, t3, t4, t2, false_and, if_false, t5]
  · rename_i h0
    obtain ⟨ds, fs, t1, t2, t3, t4, t5, _, t7⟩ := parseFloat_unsigned h
    simp only [h0, t7, or_self, if_false, decide_False, t1, t3, t4, t2, false_and, t5,
      if_true, Bool.false_eq_true]

/-- The baseline reads a value token as its fixed-point value. -/
theorem baselineTemperature_token (tok : List Nat) (h : isValueToken tok = true) :
    baselineTemperature (some tok) = JsVal.num (tokenTimes10 tok) := by
  unfold baselineTemperature
  rw [parseFloat_valueToken tok h]
  simp only []
  rw [← tokenTimes10_eq h, Int.floor_intCast]

end OneBrc

namespace OneBrc

/-- The loop body of the baseline on a line `key;value` whose key has no `;`
and whose value is a token of the grammar. -/
theorem baselineStep_line (m : JsMap) (ks tok : List Nat) (hks : 59 ∉ ks)
    (htok : isValueToken tok = true) :
    baselineStep m (ks ++ 59 :: tok) =
      match m.get ks with
      | some existing => m.set ks (baselineUpdate existing (JsVal.num (tokenTimes10 tok)))
      | none => m.set ks (newRec (JsVal.num (tokenTimes10 tok))) := by
  have h59 : 59 ∉ tok := fun h => by have := isValueToken_range htok 59 h; omega
  unfold baselineStep
  rw [jsSplit_at_sep 59 ks [] tok hks, jsSplit_no_sep 59 tok [] h59]
  simp only [List.nil_append, List.headD_cons, List.tail_cons, List.head?_cons,
    baselineTemperature_token tok htok]

theorem baselineUpdate_num (a b s c v : Int) :
    baselineUpdate ⟨JsVal.num a, JsVal.num b, JsVal.num s, c⟩ (JsVal.num v) =
      updateRec ⟨JsVal.num a, JsVal.num b, JsVal.num s, c⟩ (JsVal.num v) := by
  rw [updateRec_num]
  rfl

/-- On a map of integer records the loop body of the baseline is the
aggregation step of the parser. -/
theorem baselineStep_record (m : JsMap) (r : Record) (hr : r.wellFormed = true)
    (hm : MapInvariant m) :
    baselineStep m r.line = aggregate m (keyString r.key) (JsVal.num (tokenTimes10 r.tok)) := by
  obtain ⟨_, hkey, htok⟩ := wellFormed_iff.1 hr
  have hks : 59 ∉ keyString r.key := fun h =>
    (hkey 59 (keyString_ascii_origin r.key 59 h (by decide))).1 rfl
  unfold Record.line
  rw [baselineStep_line m _ _ hks htok]
  unfold aggregate
  cases hg : m.get (keyString r.key) with
  | none => rfl
  | some existing =>
    obtain ⟨mn, mx, s, h1, h2, h3, _⟩ := hm _ (mem_of_get m _ existing hg)
    have e : existing = ⟨JsVal.num mn, JsVal.num mx, JsVal.num s, existing.count⟩ := by
      simp only [] at h1 h2 h3
      rw [← h1, ← h2, ← h3]
    simp only []
    rw [e, baselineUpdate_num]

theorem foldl_baselineStep (rs : List Record) : ∀ (m : JsMap), MapInvariant m →
    (∀ r ∈ rs, r.wellFormed = true) →
    (rs.map Record.line).foldl baselineStep m = aggregateAll m rs := by
  induction rs with
  | nil => intro m _ _; rfl
  | cons r rs ih =>
    intro m hm hwf
    have hr := hwf r (List.mem_cons_self _ _)
    rw [List.map_cons, List.foldl_cons, baselineStep_record m r hr hm,
      ih _ (mapInvariant_aggregate m _ _ hm) (fun x hx => hwf x (List.mem_cons_of_mem _ hx))]
    rfl

/-- The lines the baseline reads from a file of well-formed records whose
keys hold no `\r`. -/
theorem baselineLines_renderAll (rs : List Record) (hwf : ∀ r ∈ rs, r.wellFormed = true)
    (hle : ∀ r ∈ rs, noLineEnding r.key = true) :
    baselineLines (renderAll rs) = rs.map Record.line := by
  unfold baselineLines
  rw [streamText_renderAll rs hwf]
  have e : ∀ l : List Record, l.flatMap (fun r => r.line ++ [10]) =
      (l.map Record.line).flatMap (fun l => l ++ [10]) := by
    intro l
    induction l with
    | nil => rfl
    | cons r l ih => simp [ih]
  rw [e]
  apply readlineSplit_lines
  intro l hl u hu
  obtain ⟨r, hr, rfl⟩ := List.mem_map.1 hl
  obtain ⟨_, hkey, htok⟩ := wellFormed_iff.1 (hwf r hr)
  unfold Record.line at hu
  rcases List.mem_append.1 hu with hu | hu
  · have h1 := hle r hr
    unfold noLineEnding at h1
    rw [List.all_eq_true] at h1
    have h2 := h1 u hu
    simp only [bne_iff_ne, ne_eq] at h2
    refine ⟨?_, h2⟩
    intro h10
    subst h10
    exact (hkey 10 (keyString_ascii_origin r.key 10 hu (by decide))).2 rfl
  · rcases List.mem_cons.1 hu with hu | hu
    · omega
    · have := isValueToken_range htok u hu
      omega

/-- The two programs print a map in the same way. -/
theorem baselinePrint_eq (m : JsMap) : baselinePrint m = printCompiledResults m := by
  unfold baselinePrint printCompiledResults
  rw [printLoop_true]
  have e : baselineEntry m = printEntry m := rfl
  rw [e]
  simp

/-! ## Claim C20 -/

/-- C20 (as amended): for every input made only of well-formed,
newline-terminated records whose decoded keys hold no `\r` (the character
that `readline` takes for a line ending besides `\n`), the map built by the
single-threaded baseline, with `floor(parseFloat(value) * 10)`
in exact arithmetic, is the map built by the byte-level parser over the same
input as a single chunk, entry by entry and in the same insertion order, and
both programs print the same output line. -/
theorem baseline_agrees (junk1 junk2 : List Nat) (rs : List Record)
    (hwf : ∀ r ∈ rs, r.wellFormed = true) (hle : ∀ r ∈ rs, noLineEnding r.key = true) :
    baselineAggregations (renderAll rs) = parseStream junk1 junk2 [renderAll rs] ∧
      baselinePrint (baselineAggregations (renderAll rs)) =
        printCompiledResults (parseStream junk1 junk2 [renderAll rs]) := by
  have h0 : MapInvariant [] := fun _ he => absurd he (List.not_mem_nil _)
  have e : baselineAggregations (renderAll rs) = parseStream junk1 junk2 [renderAll rs] := by
    unfold baselineAggregations
    rw [baselineLines_renderAll rs hwf hle, foldl_baselineStep rs [] h0 hwf,
      parseStream_renderAll junk1 junk2 rs hwf]
  exact ⟨e, by rw [baselinePrint_eq, e]⟩

/-- Witness for C20 on the three records of the end-to-end example and a
record whose key `a\u2028b` holds the line separator U+2028, which is not a
line ending for `readline`. -/
theorem baseline_agrees_witness :
    baselineAggregations
        (renderAll [⟨bytes "Hamburg", bytes "12.0"⟩, ⟨bytes "Hamburg", bytes "14.0"⟩,
          ⟨bytes "Berlin", bytes "-5.5"⟩, ⟨[97, 0xE2, 0x80, 0xA8, 98], bytes "1.0"⟩]) =
      parseStream [] []
        [renderAll [⟨bytes "Hamburg", bytes "12.0"⟩, ⟨bytes "Hamburg", bytes "14.0"⟩,
          ⟨bytes "Berlin", bytes "-5.5"⟩, ⟨[97, 0xE2, 0x80, 0xA8, 98], bytes "1.0"⟩]] :=
  (baseline_agrees [] []
    [⟨bytes "Hamburg", bytes "12.0"⟩, ⟨bytes "Hamburg", bytes "14.0"⟩,
      ⟨bytes "Berlin", bytes "-5.5"⟩, ⟨[97, 0xE2, 0x80, 0xA8, 98], bytes "1.0"⟩]
    (by decide) (by decide)).1

/-- C20 (counterexample): the well-formed record with the key `a\rb` and the
value `1.0`.  The baseline reads the two lines `a` and `b;1.0`: its map has a
record of `NaN` for `a` and the record of `b`; the parser has one record for
the key `a\rb`.  The two programs print different lines. -/
theorem baseline_differs_on_carriage_return :
    (∀ r ∈ [(⟨[97, 13, 98], bytes "1.0"⟩ : Record)], r.wellFormed = true) ∧
      baselineLines (renderAll [⟨[97, 13, 98], bytes "1.0"⟩]) = [js "a", js "b;1.0"] ∧
      baselineAggregations (renderAll [⟨[97, 13, 98], bytes "1.0"⟩]) =
        [(js "a", ⟨JsVal.nan, JsVal.nan, JsVal.nan, 1⟩),
          (js "b", ⟨JsVal.num 10, JsVal.num 10, JsVal.num 10, 1⟩)] ∧
      parseStream [] [] [renderAll [⟨[97, 13, 98], bytes "1.0"⟩]] =
        [([97, 13, 98], ⟨JsVal.num 10, JsVal.num 10, JsVal.num 10, 1⟩)] ∧
      baselineAggregations (renderAll [⟨[97, 13, 98], bytes "1.0"⟩]) ≠
        parseStream [] [] [renderAll [⟨[97, 13, 98], bytes "1.0"⟩]] ∧
      baselinePrint (baselineAggregations (renderAll [⟨[97, 13, 98], bytes "1.0"⟩])) ≠
        printCompiledResults (parseStream [] [] [renderAll [⟨[97, 13, 98], bytes "1.0"⟩]]) := by
  have hl : baselineLines (renderAll [⟨[97, 13, 98], bytes "1.0"⟩]) =
      [js "a", js "b;1.0"] := by decide
  have hb : baselineAggregations (renderAll [⟨[97, 13, 98], bytes "1.0"⟩]) =
      [(js "a", ⟨JsVal.nan, JsVal.nan, JsVal.nan, 1⟩),
        (js "b", ⟨JsVal.num 10, JsVal.num 10, JsVal.num 10, 1⟩)] := by
    unfold baselineAggregations
    rw [hl]
    simp only [List.foldl_cons, List.foldl_nil]
    have e1 : baselineStep [] (js "a") = [(js "a", ⟨JsVal.nan, JsVal.nan, JsVal.nan, 1⟩)] := by
      decide
    have e2 : js "b;1.0" = js "b" ++ 59 :: bytes "1.0" := by decide
    rw [e1, e2, baselineStep_line _ _ _ (by decide) (by decide)]
    decide
  have hp : parseStream [] [] [renderAll [⟨[97, 13, 98], bytes "1.0"⟩]] =
      [([97, 13, 98], ⟨JsVal.num 10, JsVal.num 10, JsVal.num 10, 1⟩)] := by decide
  refine ⟨by decide, hl, hb, hp, by rw [hb, hp]; decide, ?_⟩
  rw [baselinePrint_eq, hb, hp]
  intro h
  have h1 := congrArg List.length h
  have l1 : (printCompiledResults [(js "a", ⟨JsVal.nan, JsVal.nan, JsVal.nan, 1⟩),
      (js "b", ⟨JsVal.num 10, JsVal.num 10, JsVal.num 10, 1⟩)]).getD 2 0 = 61 := by
    have hs : sortedStations [(js "a", ⟨JsVal.nan, JsVal.nan, JsVal.nan, 1⟩),
        (js "b", ⟨JsVal.num 10, JsVal.num 10, JsVal.num 10, 1⟩)] = [js "a", js "b"] := by
      decide
    rw [printCompiledResults, hs]
    decide
  have l2 : (printCompiledResults
      [([97, 13, 98], ⟨JsVal.num 10, JsVal.num 10, JsVal.num 10, 1⟩)]).getD 2 0 = 13 := by
    have hs : sortedStations [([97, 13, 98], ⟨JsVal.num 10, JsVal.num 10, JsVal.num 10, 1⟩)] =
        [[97, 13, 98]] := by decide
    rw [printCompiledResults, hs]
    decide
  rw [h, l2] at l1
  exact absurd l1 (by decide)

end OneBrc
